import Mathlib

/-!
# OData v4 read cache (`sap/ui/model/odata/v4/lib/_Cache.js`)

A shallow embedding of the collection cache of `_Cache.js` and of the promise
reactions it registers, together with theorems about its request coalescing.

Modelling decisions.

* `aElements` is a JavaScript array.  It is embedded as a list of slots whose
  length is the array's `length`.  A hole and a stored `undefined` are read alike
  by every operation the cache applies (`a[i] !== undefined`, `slice`, `splice`,
  `Promise.all`), so both are the slot `empty`; reading at or beyond the length
  yields `empty` as well.
* Object identity (`aElements !== oCache.aElements`, the promise stored in the
  slots) is embedded by numbering: the array created by the constructor is number
  0, `refresh` creates the array with the next number, and the promise created by
  the n-th call of `requestElements` is number n.
* The requestor is the environment.  Every call `oRequestor.request("GET", sUrl)`
  is appended to a log together with what the reactions of `requestElements`
  captured.  A response is well typed: an optional `"@odata.context"` and an array
  of records, none of them `undefined` or a promise.
* Promise reactions are events.  `respond` is the run of the success reaction of
  `requestElements` (followed, after its throw, by the failure reaction), `reject`
  the run of the failure reaction after the requestor has failed, and `settle` the
  settling of `Promise.all(...).then(...)` of one `read`.  Every reaction runs to
  completion (single thread); between two reactions any call or reaction may
  happen, which covers every order the microtask queue can produce.
* `Promise.all` is rejected with the error of the awaited promise that was
  rejected first and is fulfilled once every awaited promise is fulfilled; values
  that are no promises count as fulfilled.
* Indices and lengths are JavaScript numbers holding integers; they are embedded
  as `Int` where a negative value is possible and as `Nat` after the checks of
  `read`.
-/

namespace Cache

/-- An error object, reduced to its `message` and to whether its property
`canceled` is `true`. -/
structure JSError where
  message : String
  canceled : Bool
deriving DecidableEq, Repr

/-- A record delivered by the service. -/
abbrev Record := String

/-- The content of one index of `aElements`: `undefined`, the promise of a call of
`requestElements` (by number), or a record. -/
inductive Slot where
  | empty : Slot
  | promise (oPromise : Nat) : Slot
  | record (r : Record) : Slot
deriving DecidableEq, Repr

/-- The expression `a[i]`. -/
def elementAt (a : List Slot) (i : Nat) : Slot :=
  a.getD i Slot.empty

/-- The statement `a[i] = v`: beyond the length the array grows, the indices in
between stay holes. -/
def assign (a : List Slot) (i : Nat) (v : Slot) : List Slot :=
  if i < a.length then a.set i v
  else a ++ List.replicate (i - a.length) Slot.empty ++ [v]

/-- The call `a.splice(start, deleteCount)` with non-negative arguments: removes
`deleteCount` elements from `start` on and moves the elements behind them down. -/
def splice (a : List Slot) (start deleteCount : Nat) : List Slot :=
  a.take start ++ a.drop (start + deleteCount)

/-- The call `a.slice(iStart, iEnd)` with non-negative arguments. -/
def slice (a : List Slot) (iStart iEnd : Nat) : List Slot :=
  (a.take iEnd).drop iStart

/-- The loop of `fill`, `n` iterations from `i` on. -/
def fillLoop (vValue : Slot) (aArray : List Slot) (i : Nat) : Nat → List Slot
  | 0 => aArray
  | n + 1 => fillLoop vValue (assign aArray i vValue) (i + 1) n

/-- The function `fill(aArray, vValue, iStart, iEnd)`. -/
def fill (aArray : List Slot) (vValue : Slot) (iStart iEnd : Nat) : List Slot :=
  fillLoop vValue aArray iStart (iEnd - iStart)

/-- An array object: its identity and its elements. -/
structure JSArray where
  id : Nat
  items : List Slot
deriving DecidableEq, Repr

/-- The fields of a `CollectionCache` object. -/
structure CollectionCache where
  oRequestor : Nat
  sUrl : String
  sContext : Option String
  iMaxElements : Int
  aElements : JSArray
deriving DecidableEq, Repr

/-- The constructor `CollectionCache(oRequestor, sUrl, mQueryOptions)`, where
`sQuery` is the value of `Cache.buildQueryString(mQueryOptions)`. -/
def CollectionCache.create (oRequestor : Nat) (sUrl sQuery : String) : CollectionCache :=
  { oRequestor := oRequestor
    sUrl := sUrl ++ (sQuery ++ (if sQuery.length ≠ 0 then "&" else "?"))
    sContext := none
    iMaxElements := -1
    aElements := ⟨0, []⟩ }

/-- The method `CollectionCache.prototype.toString`. -/
def CollectionCache.toString (oCache : CollectionCache) : String :=
  oCache.sUrl

/-- The method `CollectionCache.prototype.refresh`; the new array gets the next
identity. -/
def CollectionCache.refresh (oCache : CollectionCache) : CollectionCache :=
  { oCache with
    sContext := none
    iMaxElements := -1
    aElements := ⟨oCache.aElements.id + 1, []⟩ }

/-- A call `oRequestor.request(sMethod, sUrl)` made by `requestElements`, with what the
closures of that call of `requestElements` captured: the identity of `aElements` and the
range. -/
structure Request where
  aElements : Nat
  iStart : Nat
  iEnd : Nat
  sUrl : String
  sMethod : String
deriving DecidableEq, Repr

/-- A response of the requestor for a collection request. -/
structure ODataResponse where
  context : Option String
  value : List Record
deriving DecidableEq, Repr

/-- The object a read promise resolves with: `"@odata.context"` and the slice of
`aElements` taken by the reaction. -/
structure ReadValue where
  context : Option String
  value : List Slot
deriving DecidableEq, Repr

/-- How a promise stored in the slots settled. -/
inductive Outcome where
  | fulfilled : Outcome
  | rejected (oError : JSError) : Outcome
deriving DecidableEq, Repr

instance : DecidableEq (Except JSError ReadValue) := fun a b =>
  match a, b with
  | Except.ok x, Except.ok y =>
    if h : x = y then isTrue (by rw [h]) else isFalse (fun e => h (Except.ok.inj e))
  | Except.error x, Except.error y =>
    if h : x = y then isTrue (by rw [h]) else isFalse (fun e => h (Except.error.inj e))
  | Except.ok _, Except.error _ => isFalse (fun e => by cases e)
  | Except.error _, Except.ok _ => isFalse (fun e => by cases e)

/-- A promise returned by `read`: the range captured by its reaction, the argument
of `Promise.all`, and how it settled, if it did. -/
structure Read where
  iIndex : Nat
  iEnd : Nat
  awaited : List Slot
  outcome : Option (Except JSError ReadValue)
deriving DecidableEq

/-- The cache together with its environment: the log of the calls
`oRequestor.request("GET", sUrl)` (the n-th entry belongs to promise n), the slot
promises settled so far (oldest first) and the promises `read` has returned. -/
structure World where
  oCache : CollectionCache
  requests : List Request
  settled : List (Nat × Outcome)
  reads : List Read
deriving DecidableEq

/-- The world right after the constructor has run. -/
def World.init (oCache : CollectionCache) : World :=
  { oCache := oCache, requests := [], settled := [], reads := [] }

/-- The synchronous part of `requestElements(oCache, iStart, iEnd)`: the request is
issued and the range is filled with the new promise. -/
def requestElements (w : World) (iStart iEnd : Nat) : World :=
  let iExpectedLength : Int := (iEnd : Int) - (iStart : Int)
  let sUrl := w.oCache.sUrl ++ "$skip=" ++ toString iStart ++ "&$top=" ++ toString iExpectedLength
  let oPromise := w.requests.length
  { w with
    requests := w.requests ++ [⟨w.oCache.aElements.id, iStart, iEnd, sUrl, "GET"⟩]
    oCache := { w.oCache with
      aElements := { w.oCache.aElements with
        items := fill w.oCache.aElements.items (Slot.promise oPromise) iStart iEnd } } }

/-- The loop `for (i = 0; i < iResultLength; i++)` of the success reaction, from
`i` on; `value` holds the records from position `i` on. -/
def storeLoop (a : List Slot) (iStart i : Nat) : List Record → List Slot
  | [] => a
  | r :: value => storeLoop (assign a (iStart + i) (Slot.record r)) iStart (i + 1) value

/-- The body of the success reaction of `requestElements` behind the identity
check. -/
def applyResult (oCache : CollectionCache) (q : Request) (oResult : ODataResponse) :
    CollectionCache :=
  let iExpectedLength : Int := (q.iEnd : Int) - (q.iStart : Int)
  let iResultLength := oResult.value.length
  let oCache := { oCache with sContext := oResult.context }
  let oCache :=
    if (iResultLength : Int) < iExpectedLength then
      { oCache with
        iMaxElements := ((q.iStart + iResultLength : Nat) : Int)
        aElements := { oCache.aElements with
          items := splice oCache.aElements.items (q.iStart + iResultLength)
            (iExpectedLength - iResultLength).toNat } }
    else oCache
  { oCache with
    aElements := { oCache.aElements with
      items := storeLoop oCache.aElements.items q.iStart 0 oResult.value } }

/-- The error created by the success reaction after a refresh. -/
def canceledError (sUrl : String) : JSError :=
  ⟨"Refresh canceled processing of pending request: " ++ sUrl, true⟩

/-- Whether slot promise `p` has settled. -/
def World.isSettled (w : World) (p : Nat) : Bool :=
  w.settled.any (fun s => s.1 == p)

/-- The requestor fulfils the promise of request `p` with `oResult`: the success
reaction of `requestElements` runs, and after a throw the failure reaction. -/
def respond (w : World) (p : Nat) (oResult : ODataResponse) : World :=
  match w.requests[p]? with
  | none => w
  | some q =>
    if w.isSettled p then w
    else if q.aElements ≠ w.oCache.aElements.id then
      { w with settled := w.settled ++ [(p, Outcome.rejected (canceledError q.sUrl))] }
    else
      { w with
        oCache := applyResult w.oCache q oResult
        settled := w.settled ++ [(p, Outcome.fulfilled)] }

/-- The requestor rejects the promise of request `p` with `oError`: the failure
reaction of `requestElements` runs. -/
def reject (w : World) (p : Nat) (oError : JSError) : World :=
  match w.requests[p]? with
  | none => w
  | some q =>
    if w.isSettled p then w
    else
      let oCache :=
        if q.aElements = w.oCache.aElements.id then
          { w.oCache with
            aElements := { w.oCache.aElements with
              items := fill w.oCache.aElements.items Slot.empty q.iStart q.iEnd } }
        else w.oCache
      { w with
        oCache := oCache
        settled := w.settled ++ [(p, Outcome.rejected oError)] }

/-- The end of the range `read` scans: `iIndex + iLength`, clipped to
`iMaxElements` when that is known. -/
def clippedEnd (oCache : CollectionCache) (iIndex iLength : Int) : Int :=
  let iEnd := iIndex + iLength
  if oCache.iMaxElements ≥ 0 ∧ iEnd > oCache.iMaxElements then oCache.iMaxElements else iEnd

/-- The loop of `read`, `n` iterations from `i` on, with the current value of
`iGapStart`. -/
def readLoop (w : World) (iGapStart : Int) (i : Nat) : Nat → World × Int
  | 0 => (w, iGapStart)
  | n + 1 =>
    if elementAt w.oCache.aElements.items i ≠ Slot.empty then
      if iGapStart ≥ 0 then
        readLoop (requestElements w iGapStart.toNat i) (-1) (i + 1) n
      else readLoop w iGapStart (i + 1) n
    else if iGapStart < 0 then readLoop w (i : Int) (i + 1) n
    else readLoop w iGapStart (i + 1) n

/-- The method `CollectionCache.prototype.read(iIndex, iLength)`: either it throws,
or it returns a promise, which is the last entry of `reads` afterwards. -/
def CollectionCache.read (w : World) (iIndex iLength : Int) : Except JSError World :=
  if iIndex < 0 then
    Except.error ⟨"Illegal index " ++ ToString.toString iIndex ++ ", must be >= 0", false⟩
  else if iLength < 0 then
    Except.error ⟨"Illegal length " ++ ToString.toString iLength ++ ", must be >= 0", false⟩
  else
    let iEnd := clippedEnd w.oCache iIndex iLength
    let scanned := readLoop w (-1) iIndex.toNat (iEnd.toNat - iIndex.toNat)
    let w1 := if scanned.2 ≥ 0 then requestElements scanned.1 scanned.2.toNat iEnd.toNat
      else scanned.1
    let awaited := slice w1.oCache.aElements.items iIndex.toNat iEnd.toNat
    Except.ok { w1 with reads := w1.reads ++ [⟨iIndex.toNat, iEnd.toNat, awaited, none⟩] }

/-- The error `Promise.all` rejects with: that of the awaited promise which was
rejected first. -/
def firstRejection (settled : List (Nat × Outcome)) (awaited : List Slot) : Option JSError :=
  settled.findSome? (fun s =>
    match s.2 with
    | Outcome.rejected oError => if Slot.promise s.1 ∈ awaited then some oError else none
    | Outcome.fulfilled => none)

/-- Whether every promise among the awaited values is fulfilled. -/
def allFulfilled (settled : List (Nat × Outcome)) (awaited : List Slot) : Bool :=
  awaited.all (fun s =>
    match s with
    | Slot.promise p => decide ((p, Outcome.fulfilled) ∈ settled)
    | _ => true)

/-- The promise `Promise.all(...).then(...)` returned by `read` number `r` settles,
if it can: rejected with the first rejection, or else, once all awaited promises
are fulfilled, the reaction runs and takes the slice of the current `aElements`. -/
def settle (w : World) (r : Nat) : World :=
  match w.reads[r]? with
  | none => w
  | some rd =>
    if rd.outcome.isSome then w
    else
      match firstRejection w.settled rd.awaited with
      | some oError =>
        { w with reads := w.reads.set r { rd with outcome := some (Except.error oError) } }
      | none =>
        if allFulfilled w.settled rd.awaited then
          { w with reads := w.reads.set r { rd with
              outcome := some (Except.ok
                ⟨w.oCache.sContext, slice w.oCache.aElements.items rd.iIndex rd.iEnd⟩) } }
        else w

/-- What can happen to a cache. -/
inductive Event where
  | read (iIndex iLength : Int) : Event
  | refresh : Event
  | respond (p : Nat) (oResult : ODataResponse) : Event
  | reject (p : Nat) (oError : JSError) : Event
  | settle (r : Nat) : Event

/-- One event; a `read` that throws leaves the world as it is. -/
def step (w : World) : Event → World
  | Event.read iIndex iLength =>
    match CollectionCache.read w iIndex iLength with
    | Except.ok w1 => w1
    | Except.error _ => w
  | Event.refresh => { w with oCache := w.oCache.refresh }
  | Event.respond p oResult => respond w p oResult
  | Event.reject p oError => reject w p oError
  | Event.settle r => settle w r

/-- A sequence of events. -/
def run (w : World) (events : List Event) : World :=
  events.foldl step w

/-- The range `[q.iStart, q.iEnd)` of a request contains index `k`. -/
def Request.covers (q : Request) (k : Nat) : Prop :=
  q.iStart ≤ k ∧ k < q.iEnd

instance (q : Request) (k : Nat) : Decidable (q.covers k) := by
  unfold Request.covers
  exact inferInstance

/-- The range `[iStart, iEnd)` is a maximal run of empty slots of `a` inside
`[iIndex, iLimit)`: it is not empty, lies inside, holds empty slots only, and
cannot be extended inside `[iIndex, iLimit)` at either side. -/
def MaximalEmptyRun (a : List Slot) (iIndex iLimit iStart iEnd : Nat) : Prop :=
  iIndex ≤ iStart ∧ iStart < iEnd ∧ iEnd ≤ iLimit ∧
  (∀ k, iStart ≤ k → k < iEnd → elementAt a k = Slot.empty) ∧
  (iStart = iIndex ∨ elementAt a (iStart - 1) ≠ Slot.empty) ∧
  (iEnd = iLimit ∨ elementAt a iEnd ≠ Slot.empty)

/-- The state of the loop of `read` before iteration `i`, for a call that started in
world `w0` at `iIndex`; `new` are the requests issued so far. -/
structure Scanned (w0 : World) (iIndex : Nat) (w : World) (iGapStart : Int) (i : Nat)
    (new : List Request) : Prop where
  requests : w.requests = w0.requests ++ new
  settled : w.settled = w0.settled
  reads : w.reads = w0.reads
  cache : w.oCache = { w0.oCache with
    aElements := { w0.oCache.aElements with items := w.oCache.aElements.items } }
  le : iIndex ≤ i
  runs : ∀ q ∈ new, q.iEnd < i ∧ elementAt w0.oCache.aElements.items q.iEnd ≠ Slot.empty ∧
    MaximalEmptyRun w0.oCache.aElements.items iIndex q.iEnd q.iStart q.iEnd
  issued : ∀ q ∈ new, q.aElements = w0.oCache.aElements.id ∧
    q.sUrl = w0.oCache.sUrl ++ "$skip=" ++ toString q.iStart ++ "&$top=" ++
      toString ((q.iEnd : Int) - (q.iStart : Int))
  sorted : new.Pairwise (fun a b => a.iEnd < b.iStart)
  covered : ∀ k, iIndex ≤ k → k < i → elementAt w0.oCache.aElements.items k = Slot.empty →
    (∃ q ∈ new, q.covers k) ∨ (0 ≤ iGapStart ∧ iGapStart ≤ (k : Int))
  gap : (iGapStart = -1 ∧
      (i = iIndex ∨ elementAt w0.oCache.aElements.items (i - 1) ≠ Slot.empty)) ∨
    (∃ g : Nat, iGapStart = (g : Int) ∧ iIndex ≤ g ∧ g < i ∧
      (∀ k, g ≤ k → k < i → elementAt w0.oCache.aElements.items k = Slot.empty) ∧
      (g = iIndex ∨ elementAt w0.oCache.aElements.items (g - 1) ≠ Slot.empty) ∧
      ∀ q ∈ new, q.iEnd < g)
  filled : ∀ j q, new[j]? = some q → ∀ k, q.covers k →
    elementAt w.oCache.aElements.items k = Slot.promise (w0.requests.length + j)
  kept : ∀ k, (∀ q ∈ new, ¬ q.covers k) →
    elementAt w.oCache.aElements.items k = elementAt w0.oCache.aElements.items k
  length : w.oCache.aElements.items.length =
    (new.map Request.iEnd).foldl max w0.oCache.aElements.items.length

/-- The world `w` right after a call of `read` that started in world `w0` and
scanned `[iIndex, iEnd)`; `new` are the requests the call issued. -/
structure ReadDone (w0 : World) (iIndex iEnd : Nat) (w : World) (new : List Request) : Prop where
  requests : w.requests = w0.requests ++ new
  settled : w.settled = w0.settled
  reads : w.reads = w0.reads ++
    [⟨iIndex, iEnd, slice w.oCache.aElements.items iIndex iEnd, none⟩]
  cache : w.oCache = { w0.oCache with
    aElements := { w0.oCache.aElements with items := w.oCache.aElements.items } }
  runs : ∀ q ∈ new, MaximalEmptyRun w0.oCache.aElements.items iIndex iEnd q.iStart q.iEnd
  issued : ∀ q ∈ new, q.aElements = w0.oCache.aElements.id ∧
    q.sUrl = w0.oCache.sUrl ++ "$skip=" ++ toString q.iStart ++ "&$top=" ++
      toString ((q.iEnd : Int) - (q.iStart : Int))
  sorted : new.Pairwise (fun a b => a.iEnd < b.iStart)
  covered : ∀ k, iIndex ≤ k → k < iEnd →
    elementAt w0.oCache.aElements.items k = Slot.empty → ∃ q ∈ new, q.covers k
  filled : ∀ j q, new[j]? = some q → ∀ k, q.covers k →
    elementAt w.oCache.aElements.items k = Slot.promise (w0.requests.length + j)
  kept : ∀ k, (∀ q ∈ new, ¬ q.covers k) →
    elementAt w.oCache.aElements.items k = elementAt w0.oCache.aElements.items k
  length : w.oCache.aElements.items.length =
    (new.map Request.iEnd).foldl max w0.oCache.aElements.items.length

/-- What holds in every world a cache can get into: a request captured the current
array or an older one, a slot promise settles once and belongs to a logged
request, and a read promise settled the way `Promise.all` allows. -/
structure Sound (w : World) : Prop where
  ids : ∀ q ∈ w.requests, q.aElements ≤ w.oCache.aElements.id
  nodup : (w.settled.map Prod.fst).Nodup
  known : ∀ s ∈ w.settled, s.1 < w.requests.length
  resolved : ∀ rd ∈ w.reads, ∀ v, rd.outcome = some (Except.ok v) →
    ∀ p, Slot.promise p ∈ rd.awaited → (p, Outcome.fulfilled) ∈ w.settled
  failed : ∀ rd ∈ w.reads, ∀ e, rd.outcome = some (Except.error e) →
    firstRejection w.settled rd.awaited = some e

/-- World `w2` comes after world `w1`: logs only grow, a settled promise stays as
it is, identities of arrays only grow, and the URL and the requestor stay. -/
structure Later (w1 w2 : World) : Prop where
  requests : ∃ new, w2.requests = w1.requests ++ new
  settled : ∃ more, w2.settled = w1.settled ++ more
  reads : ∀ (r : Nat) (rd : Read), w1.reads[r]? = some rd →
    ∃ rd2 : Read, w2.reads[r]? = some rd2 ∧
      rd2.iIndex = rd.iIndex ∧ rd2.iEnd = rd.iEnd ∧ rd2.awaited = rd.awaited ∧
      (∀ o, rd.outcome = some o → rd2.outcome = some o)
  id : w1.oCache.aElements.id ≤ w2.oCache.aElements.id
  sUrl : w2.oCache.sUrl = w1.oCache.sUrl
  oRequestor : w2.oCache.oRequestor = w1.oCache.oRequestor

/-- Whether index `k` lies in the range `[r.1, r.1 + r.2)` of one of the reads
`r = (index, length)`. -/
def inRanges (reads : List (Nat × Nat)) (k : Nat) : Bool :=
  reads.any (fun r => decide (r.1 ≤ k) && decide (k < r.1 + r.2))

/-- The number of missing sub-ranges of the read `r` behind the reads `earlier`:
the maximal runs, inside the range of `r`, of indices in no range of `earlier`,
counted by their first indices. -/
def missingRuns (earlier : List (Nat × Nat)) (r : Nat × Nat) : Nat :=
  ((List.range r.2).filter (fun d =>
    !inRanges earlier (r.1 + d) && (d == 0 || inRanges earlier (r.1 + d - 1)))).length

/-- The missing sub-ranges of a sequence of reads, each read counted against the
reads before it. -/
def missingRunsTotal (earlier : List (Nat × Nat)) : List (Nat × Nat) → Nat
  | [] => 0
  | r :: reads => missingRuns earlier r + missingRunsTotal (earlier ++ [r]) reads

/-- The event of a read `(index, length)`. -/
def readEvent (r : Nat × Nat) : Event :=
  Event.read (r.1 : Int) (r.2 : Int)

/-- What holds of the logs in every world a cache can get into: every logged
request has a non-empty range and the URL `requestElements` builds from the URL of
the cache, and the value a read promise resolved with is a slice over the range
its reaction captured. -/
structure Logged (w : World) : Prop where
  urls : ∀ q ∈ w.requests, q.iStart < q.iEnd ∧
    q.sUrl = w.oCache.sUrl ++ "$skip=" ++ toString q.iStart ++ "&$top=" ++
      toString ((q.iEnd : Int) - (q.iStart : Int))
  sliced : ∀ rd ∈ w.reads, ∀ v, rd.outcome = some (Except.ok v) →
    ∃ a, v.value = slice a rd.iIndex rd.iEnd

/-- One read of a sequence of reads issued one after the other: `read(iIndex, iLength)` is
called, the requestor settles the request that call issued, if any, with `answer`, and the
promise the call returned settles before anything else happens. -/
def sequentialRead (w : World) (iIndex iLength : Nat) (answer : Except JSError ODataResponse) :
    World :=
  run w [Event.read (iIndex : Int) (iLength : Int),
    (match answer with
      | Except.ok oResult => Event.respond w.requests.length oResult
      | Except.error oError => Event.reject w.requests.length oError),
    Event.settle w.reads.length]

/-- Reads issued one after the other, each with the answer of the requestor. -/
def sequentialReads (w : World) : List (Nat × Nat × Except JSError ODataResponse) → World
  | [] => w
  | r :: rest => sequentialReads (sequentialRead w r.1 r.2.1 r.2.2) rest

/-- What holds between sequential reads of the ranges `done`, none overlapping another: the
world is one a cache can get into, every promise returned by `read` has settled, and a slot
that is not empty and not beyond a known `iMaxElements` lies in one of the ranges read. -/
structure Sequential (w : World) (done : List (Nat × Nat)) : Prop where
  sound : Sound w
  settledAll : ∀ rd ∈ w.reads, rd.outcome ≠ none
  inRange : ∀ k : Nat, (w.oCache.iMaxElements < 0 ∨ (k : Int) < w.oCache.iMaxElements) →
    elementAt w.oCache.aElements.items k ≠ Slot.empty → inRanges done k = true

/-- The number of those sequential reads whose range, clipped to `iMaxElements` as known when
the read is issued, is not empty. -/
def nonEmptyReads (w : World) : List (Nat × Nat × Except JSError ODataResponse) → Nat
  | [] => 0
  | r :: rest =>
    (if (r.1 : Int) < clippedEnd w.oCache (r.1 : Int) (r.2.1 : Int) then 1 else 0) +
      nonEmptyReads (sequentialRead w r.1 r.2.1 r.2.2) rest

/-- What the property `oPromise` of a single cache holds: `null`, `undefined`, or the promise
created by the `n`-th call of `oRequestor.request(...).then(...)`. -/
inductive PromiseSlot where
  | null : PromiseSlot
  | undefined : PromiseSlot
  | promise (n : Nat) : PromiseSlot
deriving DecidableEq, Repr

/-- The properties of a `SingleCache`. -/
structure SingleCache where
  oRequestor : Nat
  sUrl : String
  oPromise : PromiseSlot
deriving DecidableEq, Repr

/-- The constructor `SingleCache(oRequestor, sUrl, mQueryOptions)`, where `sQuery` is the value
of `Cache.buildQueryString(mQueryOptions)`. -/
def SingleCache.create (oRequestor : Nat) (sUrl sQuery : String) : SingleCache :=
  { oRequestor := oRequestor
    sUrl := sUrl ++ sQuery
    oPromise := PromiseSlot.null }

/-- The method `SingleCache.prototype.toString`. -/
def SingleCache.toString (oCache : SingleCache) : String :=
  oCache.sUrl

/-- The method `SingleCache.prototype.refresh`. -/
def SingleCache.refresh (oCache : SingleCache) : SingleCache :=
  { oCache with oPromise := PromiseSlot.undefined }

/-- A call `oRequestor.request(sMethod, sUrl)`; the closure of the reaction attached to it
captured `sUrl`. -/
structure SingleRequest where
  sMethod : String
  sUrl : String
deriving DecidableEq, Repr

/-- How the promise a single cache stores has settled. -/
inductive SingleOutcome where
  | fulfilled (oResult : Record) : SingleOutcome
  | rejected (oError : JSError) : SingleOutcome
deriving DecidableEq, Repr

/-- A single cache with its surroundings: the calls of the requestor (call `n` created promise
`n`), the promises that have settled, and what each call of `read` returned. -/
structure SingleWorld where
  oCache : SingleCache
  requests : List SingleRequest
  settled : List (Nat × SingleOutcome)
  returned : List PromiseSlot
deriving DecidableEq, Repr

/-- The world right after the constructor has run. -/
def SingleWorld.init (oCache : SingleCache) : SingleWorld :=
  { oCache := oCache, requests := [], settled := [], returned := [] }

/-- Whether promise `p` has settled. -/
def SingleWorld.isSettled (w : SingleWorld) (p : Nat) : Bool :=
  w.settled.any (fun s => s.1 == p)

/-- Whether `!oPromise` holds: `null` and `undefined` are falsy, a promise is truthy. -/
def PromiseSlot.falsy : PromiseSlot → Bool
  | PromiseSlot.promise _ => false
  | _ => true

/-- The method `SingleCache.prototype.read`; the new promise is that of the next call of the
requestor. -/
def SingleCache.read (w : SingleWorld) : SingleWorld :=
  let sUrl := w.oCache.sUrl
  let w1 :=
    if w.oCache.oPromise.falsy then
      { w with
        requests := w.requests ++ [⟨"GET", sUrl⟩]
        oCache := { w.oCache with oPromise := PromiseSlot.promise w.requests.length } }
    else w
  { w1 with returned := w1.returned ++ [w1.oCache.oPromise] }

/-- The requestor fulfils its promise of call `p` with `oResult`: the reaction given to `then`
in `read` runs and settles promise `p`. -/
def respondSingle (w : SingleWorld) (p : Nat) (oResult : Record) : SingleWorld :=
  match w.requests[p]? with
  | none => w
  | some q =>
    if w.isSettled p then w
    else if w.oCache.oPromise ≠ PromiseSlot.promise p then
      { w with settled := w.settled ++ [(p, SingleOutcome.rejected (canceledError q.sUrl))] }
    else
      { w with settled := w.settled ++ [(p, SingleOutcome.fulfilled oResult)] }

/-- The requestor rejects its promise of call `p` with `oError`: `then` was given no failure
reaction, so promise `p` is rejected with the same error. -/
def rejectSingle (w : SingleWorld) (p : Nat) (oError : JSError) : SingleWorld :=
  match w.requests[p]? with
  | none => w
  | some _ =>
    if w.isSettled p then w
    else { w with settled := w.settled ++ [(p, SingleOutcome.rejected oError)] }

/-- What can happen to a single cache. -/
inductive SingleEvent where
  | read : SingleEvent
  | refresh : SingleEvent
  | respond (p : Nat) (oResult : Record) : SingleEvent
  | reject (p : Nat) (oError : JSError) : SingleEvent
deriving DecidableEq, Repr

/-- One event. -/
def stepSingle (w : SingleWorld) : SingleEvent → SingleWorld
  | SingleEvent.read => SingleCache.read w
  | SingleEvent.refresh => { w with oCache := w.oCache.refresh }
  | SingleEvent.respond p oResult => respondSingle w p oResult
  | SingleEvent.reject p oError => rejectSingle w p oError

/-- A sequence of events. -/
def runSingle (w : SingleWorld) (events : List SingleEvent) : SingleWorld :=
  events.foldl stepSingle w

/-- The number of calls of `read` among the events that are the first call of `read` since the
creation of the cache (`first` is true at the start) or since the most recent `refresh`. -/
def firstReads (first : Bool) : List SingleEvent → Nat
  | [] => 0
  | SingleEvent.read :: events => (if first then 1 else 0) + firstReads false events
  | SingleEvent.refresh :: events => firstReads true events
  | _ :: events => firstReads first events

/-- The number of calls of `read` among the events. -/
def countReads (events : List SingleEvent) : Nat :=
  events.count SingleEvent.read

/-- What holds in every world a single cache can get into: a stored promise belongs to a call
of the requestor, every call was a GET of the URL of the cache, and a promise settles once and
belongs to a call. -/
structure SingleSound (w : SingleWorld) : Prop where
  slot : ∀ n, w.oCache.oPromise = PromiseSlot.promise n → n < w.requests.length
  gets : ∀ q ∈ w.requests, q = ⟨"GET", w.oCache.sUrl⟩
  nodup : (w.settled.map Prod.fst).Nodup
  known : ∀ s ∈ w.settled, s.1 < w.requests.length
  returned : ∀ x ∈ w.returned, ∃ n, x = PromiseSlot.promise n ∧ n < w.requests.length

/-- A JavaScript value as query options are made of; an object is given by its own enumerable
properties in the order of `Object.keys`, an array by its elements.  Numbers and functions are
left out. -/
inductive JSValue where
  | undefined : JSValue
  | null : JSValue
  | bool (b : Bool) : JSValue
  | string (s : String) : JSValue
  | array (items : List JSValue) : JSValue
  | object (entries : List (String × JSValue)) : JSValue

/-- Whether `!v` is false. -/
def JSValue.truthy : JSValue → Bool
  | JSValue.undefined => false
  | JSValue.null => false
  | JSValue.bool b => b
  | JSValue.string s => decide (s ≠ "")
  | JSValue.array _ => true
  | JSValue.object _ => true

/-- Whether `typeof v === "object"`. -/
def JSValue.isTypeofObject : JSValue → Bool
  | JSValue.null => true
  | JSValue.array _ => true
  | JSValue.object _ => true
  | _ => false

mutual
/-- The string `"" + v`, as the operator `+` of `sOptionName + '=' + vOptionValue` makes it. -/
def JSValue.toJSString : JSValue → String
  | JSValue.undefined => "undefined"
  | JSValue.null => "null"
  | JSValue.bool true => "true"
  | JSValue.bool false => "false"
  | JSValue.string s => s
  | JSValue.array items => ",".intercalate (elementStrings items)
  | JSValue.object _ => "[object Object]"
/-- The strings `Array.prototype.join` puts together: the empty string for `undefined` and
`null`, and the string of the element otherwise. -/
def elementStrings : List JSValue → List String
  | [] => []
  | JSValue.undefined :: rest => "" :: elementStrings rest
  | JSValue.null :: rest => "" :: elementStrings rest
  | v :: rest => v.toJSString :: elementStrings rest
end

/-- The method `aItems.join(sSeparator)`. -/
def arrayJoin (aItems : List JSValue) (sSeparator : String) : String :=
  sSeparator.intercalate (elementStrings aItems)

/-- The own properties of an array from index `i` on. -/
def arrayEntries (i : Nat) : List JSValue → List (String × JSValue)
  | [] => []
  | v :: rest => (toString i, v) :: arrayEntries (i + 1) rest

/-- The keys `Object.keys(v)` with their values, for an object and for an array; a primitive
value is taken to have none. -/
def JSValue.ownEntries : JSValue → List (String × JSValue)
  | JSValue.object entries => entries
  | JSValue.array items => arrayEntries 0 items
  | _ => []

mutual
/-- The nesting depth of a value. -/
def JSValue.depth : JSValue → Nat
  | JSValue.array items => depthItems items + 1
  | JSValue.object entries => depthEntries entries + 1
  | _ => 0
/-- The largest depth among the elements of an array. -/
def depthItems : List JSValue → Nat
  | [] => 0
  | v :: rest => max v.depth (depthItems rest)
/-- The largest depth among the values of the properties of an object. -/
def depthEntries : List (String × JSValue) → Nat
  | [] => 0
  | (_, v) :: rest => max v.depth (depthEntries rest)
end

/-- What a call yields when at most a given number of nested calls of `Cache.convertExpand` is
allowed: `none` when that number does not suffice, else the value returned or the error
thrown. -/
abbrev Call (α : Type) := Option (Except JSError α)

instance : DecidableEq (Except JSError String) := fun a b =>
  match a, b with
  | Except.ok x, Except.ok y =>
    if h : x = y then isTrue (by rw [h]) else isFalse (fun e => h (Except.ok.inj e))
  | Except.error x, Except.error y =>
    if h : x = y then isTrue (by rw [h]) else isFalse (fun e => h (Except.error.inj e))
  | Except.ok _, Except.error _ => isFalse (fun e => by cases e)
  | Except.error _, Except.ok _ => isFalse (fun e => by cases e)

/-- The call continues with `f` after a value was returned. -/
def Call.andThen {α β : Type} (c : Call α) (f : α → Call β) : Call β :=
  match c with
  | none => none
  | some (Except.error e) => some (Except.error e)
  | some (Except.ok a) => f a

/-- The body of the callback of `forEach` in `convertSystemQueryOptions` before the call of
`fnResultHandler`: the value handed to the handler for `sKey`; `fnConvertExpand` is
`Cache.convertExpand`. -/
def convertSystemQueryOption (fnConvertExpand : JSValue → Call String) (sKey : String)
    (vValue : JSValue) : Call JSValue :=
  if sKey = "$select" then
    match vValue with
    | JSValue.array aItems => some (Except.ok (JSValue.string (arrayJoin aItems ",")))
    | _ => some (Except.ok vValue)
  else if sKey = "$expand" then
    (fnConvertExpand vValue).andThen (fun s => some (Except.ok (JSValue.string s)))
  else if sKey.get 0 = '$' then
    some (Except.error ⟨"Unsupported system query option " ++ sKey, false⟩)
  else some (Except.ok vValue)

/-- The loop `Object.keys(mQueryOptions).forEach(...)` of `convertSystemQueryOptions`: the
calls of `fnResultHandler`, in order. -/
def convertSystemQueryOptionsLoop (fnConvertExpand : JSValue → Call String) :
    List (String × JSValue) → Call (List (String × JSValue))
  | [] => some (Except.ok [])
  | (sKey, vValue) :: rest =>
    (convertSystemQueryOption fnConvertExpand sKey vValue).andThen (fun v =>
      (convertSystemQueryOptionsLoop fnConvertExpand rest).andThen (fun calls =>
        some (Except.ok ((sKey, v) :: calls))))

/-- The function `convertSystemQueryOptions(mQueryOptions, fnResultHandler)`, yielding the calls
of `fnResultHandler` in order. -/
def convertSystemQueryOptions (fnConvertExpand : JSValue → Call String)
    (mQueryOptions : JSValue) : Call (List (String × JSValue)) :=
  convertSystemQueryOptionsLoop fnConvertExpand mQueryOptions.ownEntries

/-- The function `Cache.convertExpandOptions(sExpandPath, vExpandOptions)`. -/
def convertExpandOptions (fnConvertExpand : JSValue → Call String) (sExpandPath : String)
    (vExpandOptions : JSValue) : Call String :=
  (convertSystemQueryOptions fnConvertExpand vExpandOptions).andThen (fun calls =>
    let aExpandOptions := calls.map (fun c => c.1 ++ "=" ++ c.2.toJSString)
    some (Except.ok (if aExpandOptions.length ≠ 0
      then sExpandPath ++ "(" ++ ";".intercalate aExpandOptions ++ ")"
      else sExpandPath)))

/-- The loop `Object.keys(mExpandItems).forEach(...)` of `Cache.convertExpand`: the elements
pushed to `aResult`; `fnConvertExpandOptions` is `Cache.convertExpandOptions`. -/
def convertExpandLoop (fnConvertExpandOptions : String → JSValue → Call String) :
    List (String × JSValue) → Call (List String)
  | [] => some (Except.ok [])
  | (sExpandPath, vExpandOptions) :: rest =>
    (if vExpandOptions.truthy && vExpandOptions.isTypeofObject
      then fnConvertExpandOptions sExpandPath vExpandOptions
      else some (Except.ok sExpandPath)).andThen (fun sItem =>
        (convertExpandLoop fnConvertExpandOptions rest).andThen (fun aResult =>
          some (Except.ok (sItem :: aResult))))

/-- The function `Cache.convertExpand(mExpandItems)`, with the number of nested calls of itself
that are allowed. -/
def convertExpand : Nat → JSValue → Call String
  | 0, _ => none
  | fuel + 1, mExpandItems =>
    if !mExpandItems.truthy || !mExpandItems.isTypeofObject then
      some (Except.error ⟨"$expand must be a valid object", false⟩)
    else
      (convertExpandLoop (convertExpandOptions (convertExpand fuel))
        mExpandItems.ownEntries).andThen (fun aResult =>
          some (Except.ok (",".intercalate aResult)))

/-- The assignment `mMap[sKey] = vValue`. -/
def setProperty : List (String × JSValue) → String → JSValue → List (String × JSValue)
  | [], sKey, vValue => [(sKey, vValue)]
  | (k, v) :: rest, sKey, vValue =>
    if k = sKey then (k, vValue) :: rest else (k, v) :: setProperty rest sKey vValue

/-- The function `Cache.convertQueryOptions(mQueryOptions)`, with the number of nested calls of
`Cache.convertExpand` that are allowed. -/
def convertQueryOptions (fuel : Nat) (mQueryOptions : JSValue) : Call JSValue :=
  if !mQueryOptions.truthy then some (Except.ok JSValue.undefined)
  else
    (convertSystemQueryOptions (convertExpand fuel) mQueryOptions).andThen (fun calls =>
      some (Except.ok (JSValue.object
        (calls.foldl (fun mConvertedQueryOptions c => setProperty mConvertedQueryOptions c.1 c.2)
          []))))

/-- The function `Cache.buildQueryString(mQueryOptions)`; `buildQuery` is `Helper.buildQuery`,
which is not part of the sources at hand. -/
def buildQueryString (buildQuery : JSValue → String) (fuel : Nat) (mQueryOptions : JSValue) :
    Call String :=
  (convertQueryOptions fuel mQueryOptions).andThen (fun mConverted =>
    some (Except.ok (buildQuery mConverted)))

/-- The function `Cache.create(oRequestor, sUrl, mQueryOptions)`. -/
def create (buildQuery : JSValue → String) (fuel : Nat) (oRequestor : Nat) (sUrl : String)
    (mQueryOptions : JSValue) : Call CollectionCache :=
  (buildQueryString buildQuery fuel mQueryOptions).andThen (fun sQuery =>
    some (Except.ok (CollectionCache.create oRequestor sUrl sQuery)))

/-- The function `Cache.createSingle(oRequestor, sUrl, mQueryOptions)`. -/
def createSingle (buildQuery : JSValue → String) (fuel : Nat) (oRequestor : Nat) (sUrl : String)
    (mQueryOptions : JSValue) : Call SingleCache :=
  (buildQueryString buildQuery fuel mQueryOptions).andThen (fun sQuery =>
    some (Except.ok (SingleCache.create oRequestor sUrl sQuery)))

/-- The options mapping `m` holds an unsupported option, in the words of the specification:
at the top level or inside the options mapping of a path of a `$expand`, however deeply
nested, a key starting with "$" other than `$select` and `$expand`, or a `$expand` whose value
is not an object. -/
inductive Unsupported : JSValue → Prop where
  | key {m : JSValue} {sKey : String} {vValue : JSValue} :
    (sKey, vValue) ∈ m.ownEntries → sKey.get 0 = '$' → sKey ≠ "$select" → sKey ≠ "$expand" →
    Unsupported m
  | expand {m : JSValue} {vValue : JSValue} :
    ("$expand", vValue) ∈ m.ownEntries → (vValue.truthy && vValue.isTypeofObject) = false →
    Unsupported m
  | nested {m : JSValue} {vValue : JSValue} {sExpandPath : String} {vExpandOptions : JSValue} :
    ("$expand", vValue) ∈ m.ownEntries → (vValue.truthy && vValue.isTypeofObject) = true →
    (sExpandPath, vExpandOptions) ∈ vValue.ownEntries →
    (vExpandOptions.truthy && vExpandOptions.isTypeofObject) = true →
    Unsupported vExpandOptions → Unsupported m

/-! ## Reading the array after each of its operations -/

theorem elementAt_eq (a : List Slot) (i : Nat) : elementAt a i = (a[i]?).getD Slot.empty := by
  simp [elementAt, List.getD_eq_getElem?_getD]

theorem elementAt_assign (a : List Slot) (i j : Nat) (v : Slot) :
    elementAt (assign a i v) j = if j = i then v else elementAt a j := by
  simp only [elementAt_eq, assign]
  by_cases h : i < a.length
  · simp only [h, if_true, List.getElem?_set]
    by_cases hj : j = i
    · subst hj; simp [h]
    · have : ¬ i = j := fun e => hj e.symm
      simp [hj, this]
  · simp only [h, if_false]
    have hle : a.length ≤ i := Nat.le_of_not_lt h
    by_cases hj : j = i
    · subst hj
      simp [List.getElem?_append_right, hle]
    · simp only [hj, if_false]
      by_cases hlt : j < a.length
      · simp [List.getElem?_append_left, hlt, List.append_assoc]
      · have hle2 : a.length ≤ j := Nat.le_of_not_lt hlt
        rw [List.append_assoc, List.getElem?_append_right hle2, List.getElem?_eq_none hle2]
        by_cases hlt3 : j - a.length < i - a.length
        · rw [List.getElem?_append_left (by simpa using hlt3)]
          simp [List.getElem?_replicate, hlt3]
        · have : i - a.length < j - a.length := by omega
          rw [List.getElem?_eq_none (by simp; omega)]

theorem elementAt_fillLoop (v : Slot) (n : Nat) : ∀ (a : List Slot) (i j : Nat),
    elementAt (fillLoop v a i n) j = if i ≤ j ∧ j < i + n then v else elementAt a j := by
  induction n with
  | zero =>
    intro a i j
    have : ¬ (i ≤ j ∧ j < i + 0) := by omega
    simp only [fillLoop, this, if_false]
  | succ n ih =>
    intro a i j
    simp only [fillLoop, ih, elementAt_assign]
    by_cases h1 : j = i
    · subst h1; simp
    · by_cases h2 : i + 1 ≤ j ∧ j < i + 1 + n
      · have : i ≤ j ∧ j < i + (n + 1) := by omega
        simp [h2, this]
      · have : ¬ (i ≤ j ∧ j < i + (n + 1)) := by omega
        simp [h1, h2, this]

theorem elementAt_fill (a : List Slot) (v : Slot) (iStart iEnd j : Nat) :
    elementAt (fill a v iStart iEnd) j = if iStart ≤ j ∧ j < iEnd then v else elementAt a j := by
  simp only [fill, elementAt_fillLoop]
  by_cases h : iStart ≤ j ∧ j < iEnd
  · have : iStart ≤ j ∧ j < iStart + (iEnd - iStart) := by omega
    simp [h, this]
  · have : ¬ (iStart ≤ j ∧ j < iStart + (iEnd - iStart)) := by omega
    simp [h, this]

theorem elementAt_storeLoop (iStart : Nat) (value : List Record) : ∀ (a : List Slot) (i j : Nat),
    elementAt (storeLoop a iStart i value) j =
      if iStart + i ≤ j ∧ j < iStart + i + value.length then
        (match value[j - (iStart + i)]? with
          | some r => Slot.record r
          | none => Slot.empty)
      else elementAt a j := by
  induction value with
  | nil =>
    intro a i j
    have : ¬ (iStart + i ≤ j ∧ j < iStart + i + 0) := by omega
    simp only [storeLoop, List.length_nil, this, if_false]
  | cons r value ih =>
    intro a i j
    simp only [storeLoop, ih, elementAt_assign, List.length_cons]
    by_cases h1 : j = iStart + i
    · subst h1; simp
    · by_cases h2 : iStart + (i + 1) ≤ j ∧ j < iStart + (i + 1) + value.length
      · have h3 : iStart + i ≤ j ∧ j < iStart + i + (value.length + 1) := by omega
        have h4 : j - (iStart + i) = (j - (iStart + (i + 1))) + 1 := by omega
        simp only [h2, h3, and_self, if_true, h4, List.getElem?_cons_succ]
      · have h3 : ¬ (iStart + i ≤ j ∧ j < iStart + i + (value.length + 1)) := by omega
        simp [h1, h2, h3]

theorem elementAt_splice (a : List Slot) (start deleteCount j : Nat) :
    elementAt (splice a start deleteCount) j =
      if j < start then elementAt a j else elementAt a (j + deleteCount) := by
  simp only [elementAt_eq, splice]
  by_cases h : j < start
  · simp only [h, if_true]
    by_cases h2 : j < a.length
    · rw [List.getElem?_append_left (by simp; omega)]
      simp [List.getElem?_take, h]
    · rw [List.getElem?_eq_none (by simp; omega), List.getElem?_eq_none (by omega)]
  · simp only [h, if_false]
    by_cases h2 : start ≤ a.length
    · rw [List.getElem?_append_right (by simp; omega)]
      simp only [List.length_take, List.getElem?_drop, Nat.min_eq_left h2]
      congr 2
      omega
    · rw [List.getElem?_eq_none (by simp; omega), List.getElem?_eq_none (by omega)]

theorem length_assign (a : List Slot) (i : Nat) (v : Slot) :
    (assign a i v).length = max a.length (i + 1) := by
  unfold assign
  split
  · simp; omega
  · simp; omega

theorem length_fillLoop (v : Slot) (n : Nat) : ∀ (a : List Slot) (i : Nat),
    (fillLoop v a i n).length = if n = 0 then a.length else max a.length (i + n) := by
  induction n with
  | zero => intro a i; simp [fillLoop]
  | succ n ih =>
    intro a i
    simp only [fillLoop, ih, length_assign]
    split <;> simp <;> omega

theorem length_fill (a : List Slot) (v : Slot) (iStart iEnd : Nat) (h : iStart < iEnd) :
    (fill a v iStart iEnd).length = max a.length iEnd := by
  simp only [fill, length_fillLoop]
  have : iEnd - iStart ≠ 0 := by omega
  simp only [this, if_false]
  congr 1
  omega

theorem length_splice (a : List Slot) (start deleteCount : Nat) :
    (splice a start deleteCount).length = min start a.length + (a.length - (start + deleteCount)) := by
  simp [splice]

theorem length_storeLoop (iStart : Nat) (value : List Record) : ∀ (a : List Slot) (i : Nat),
    (storeLoop a iStart i value).length =
      if value = [] then a.length else max a.length (iStart + i + value.length) := by
  induction value with
  | nil => intro a i; simp [storeLoop]
  | cons r value ih =>
    intro a i
    simp only [storeLoop, ih, length_assign]
    split
    · simp_all
    · simp only [List.length_cons, reduceCtorEq, if_false]
      omega

theorem eq_of_elementAt {a b : List Slot} (hl : a.length = b.length)
    (h : ∀ k, k < a.length → elementAt a k = elementAt b k) : a = b := by
  apply List.ext_getElem hl
  intro k h1 h2
  have := h k h1
  simp only [elementAt_eq, List.getElem?_eq_getElem h1, List.getElem?_eq_getElem h2,
    Option.getD_some] at this
  exact this

/-! ## The loop of read -/

theorem scanned_init (w0 : World) (iIndex : Nat) : Scanned w0 iIndex w0 (-1) iIndex [] where
  requests := by simp
  settled := rfl
  reads := rfl
  cache := rfl
  le := Nat.le_refl _
  runs := by simp
  issued := by simp
  sorted := List.Pairwise.nil
  covered := by intro k h1 h2; omega
  gap := Or.inl ⟨rfl, Or.inl rfl⟩
  filled := by simp
  kept := by simp
  length := by simp

theorem scanned_current {w0 w : World} {iIndex i : Nat} {g : Int} {new : List Request}
    (h : Scanned w0 iIndex w g i new) :
    elementAt w.oCache.aElements.items i = elementAt w0.oCache.aElements.items i := by
  apply h.kept
  intro q hq hc
  have := (h.runs q hq).1
  unfold Request.covers at hc
  omega

theorem scanned_close {w0 w : World} {iIndex i g : Nat} {new : List Request}
    (h : Scanned w0 iIndex w (g : Int) i new)
    (hi : elementAt w0.oCache.aElements.items i ≠ Slot.empty) :
    Scanned w0 iIndex (requestElements w g i) (-1) (i + 1)
      (new ++ [⟨w0.oCache.aElements.id, g, i,
        w0.oCache.sUrl ++ "$skip=" ++ toString g ++ "&$top=" ++
          toString ((i : Int) - (g : Int)), "GET"⟩]) := by
  obtain ⟨g', hg', hg1, hg2, hg3, hg4, hg5⟩ : ∃ g' : Nat, (g : Int) = (g' : Int) ∧ iIndex ≤ g' ∧
      g' < i ∧ (∀ k, g' ≤ k → k < i → elementAt w0.oCache.aElements.items k = Slot.empty) ∧
      (g' = iIndex ∨ elementAt w0.oCache.aElements.items (g' - 1) ≠ Slot.empty) ∧
      ∀ q ∈ new, q.iEnd < g' := by
    rcases h.gap with ⟨h1, _⟩ | h2
    · omega
    · exact h2
  have hgg : g = g' := by omega
  subst hgg
  have hc := h.cache
  refine
    { requests := ?_, settled := h.settled, reads := h.reads, cache := ?_, le := by have := h.le; omega,
      runs := ?_, issued := ?_, sorted := ?_, covered := ?_, gap := Or.inl ⟨rfl, Or.inr (by simpa using hi)⟩,
      filled := ?_, kept := ?_, length := ?_ }
  · simp only [requestElements, h.requests, List.append_assoc]
    rw [hc]
  · simp only [requestElements]
    rw [hc]
  · intro q hq
    rcases List.mem_append.1 hq with hq | hq
    · obtain ⟨a, b, c⟩ := h.runs q hq
      exact ⟨by omega, b, c⟩
    · simp only [List.mem_singleton] at hq
      subst hq
      exact ⟨by simp, hi, hg1, hg2, Nat.le_refl _, hg3, hg4, Or.inl rfl⟩
  · intro q hq
    rcases List.mem_append.1 hq with hq | hq
    · exact h.issued q hq
    · simp only [List.mem_singleton] at hq
      subst hq
      exact ⟨rfl, rfl⟩
  · rw [List.pairwise_append]
    refine ⟨h.sorted, List.pairwise_singleton _ _, ?_⟩
    intro a ha b hb
    simp only [List.mem_singleton] at hb
    subst hb
    exact hg5 a ha
  · intro k hk1 hk2 hk3
    by_cases hki : k = i
    · subst hki; exact absurd hk3 hi
    · rcases h.covered k hk1 (by omega) hk3 with ⟨q, hq, hqc⟩ | ⟨_, hgk⟩
      · exact Or.inl ⟨q, List.mem_append_left _ hq, hqc⟩
      · refine Or.inl ⟨_, List.mem_append_right _ (List.mem_singleton.2 rfl), ?_⟩
        unfold Request.covers
        simp only
        omega
  · intro j q hj k hk
    simp only [requestElements, elementAt_fill]
    by_cases hjl : j < new.length
    · rw [List.getElem?_append_left hjl] at hj
      have hq : q ∈ new := List.getElem?_mem hj
      have := hg5 q hq
      unfold Request.covers at hk
      have hn : ¬ (g ≤ k ∧ k < i) := by omega
      simp only [hn, if_false]
      exact h.filled j q hj k hk
    · have hjl2 : new.length ≤ j := Nat.le_of_not_lt hjl
      rw [List.getElem?_append_right hjl2] at hj
      have hj0 : j - new.length = 0 := by
        by_contra hne
        rw [List.getElem?_eq_none (by simp; omega)] at hj
        exact absurd hj (by simp)
      rw [hj0] at hj
      simp only [List.getElem?_cons_zero, Option.some.injEq] at hj
      subst hj
      unfold Request.covers at hk
      simp only at hk
      simp only [hk, and_self, if_true, h.requests, List.length_append]
      congr 1
      omega
  · intro k hk
    simp only [requestElements, elementAt_fill]
    have hn : ¬ (g ≤ k ∧ k < i) := by
      have := hk _ (List.mem_append_right _ (List.mem_singleton.2 rfl))
      unfold Request.covers at this
      simpa using this
    simp only [hn, if_false]
    exact h.kept k (fun q hq => hk q (List.mem_append_left _ hq))
  · simp only [requestElements, List.map_append, List.foldl_append, List.map_cons, List.map_nil,
      List.foldl_cons, List.foldl_nil]
    rw [length_fill _ _ _ _ hg2, h.length]

theorem scanned_skip {w0 w : World} {iIndex i : Nat} {new : List Request}
    (h : Scanned w0 iIndex w (-1) i new)
    (hi : elementAt w0.oCache.aElements.items i ≠ Slot.empty) :
    Scanned w0 iIndex w (-1) (i + 1) new :=
  { h with
    le := by have := h.le; omega
    runs := fun q hq => ⟨by have := (h.runs q hq).1; omega, (h.runs q hq).2⟩
    covered := by
      intro k hk1 hk2 hk3
      by_cases hki : k = i
      · subst hki; exact absurd hk3 hi
      · exact h.covered k hk1 (by omega) hk3
    gap := Or.inl ⟨rfl, Or.inr (by simpa using hi)⟩ }

theorem scanned_open {w0 w : World} {iIndex i : Nat} {new : List Request}
    (h : Scanned w0 iIndex w (-1) i new)
    (hi : elementAt w0.oCache.aElements.items i = Slot.empty) :
    Scanned w0 iIndex w (i : Int) (i + 1) new :=
  { h with
    le := by have := h.le; omega
    runs := fun q hq => ⟨by have := (h.runs q hq).1; omega, (h.runs q hq).2⟩
    covered := by
      intro k hk1 hk2 hk3
      by_cases hki : k = i
      · subst hki; exact Or.inr ⟨by omega, by omega⟩
      · rcases h.covered k hk1 (by omega) hk3 with hq | ⟨h0, _⟩
        · exact Or.inl hq
        · omega
    gap := by
      refine Or.inr ⟨i, rfl, h.le, by omega, ?_, ?_, fun q hq => (h.runs q hq).1⟩
      · intro k hk1 hk2
        have : k = i := by omega
        subst this
        exact hi
      · rcases h.gap with ⟨_, h2⟩ | ⟨g, hg, _⟩
        · exact h2
        · omega }

theorem scanned_extend {w0 w : World} {iIndex i g : Nat} {new : List Request}
    (h : Scanned w0 iIndex w (g : Int) i new)
    (hi : elementAt w0.oCache.aElements.items i = Slot.empty) :
    Scanned w0 iIndex w (g : Int) (i + 1) new :=
  { h with
    le := by have := h.le; omega
    runs := fun q hq => ⟨by have := (h.runs q hq).1; omega, (h.runs q hq).2⟩
    covered := by
      intro k hk1 hk2 hk3
      by_cases hki : k = i
      · subst hki
        rcases h.gap with ⟨h1, _⟩ | ⟨g', hg, _, hg2, _⟩
        · omega
        · exact Or.inr ⟨by omega, by omega⟩
      · exact h.covered k hk1 (by omega) hk3
    gap := by
      rcases h.gap with ⟨h1, _⟩ | ⟨g', hg, hg1, hg2, hg3, hg4, hg5⟩
      · omega
      · refine Or.inr ⟨g', hg, hg1, by omega, ?_, hg4, hg5⟩
        intro k hk1 hk2
        by_cases hki : k = i
        · subst hki; exact hi
        · exact hg3 k hk1 (by omega) }

theorem scanned_gap_cases {w0 w : World} {iIndex i : Nat} {g : Int} {new : List Request}
    (h : Scanned w0 iIndex w g i new) : g = -1 ∨ ∃ g' : Nat, g = (g' : Int) := by
  rcases h.gap with ⟨h1, _⟩ | ⟨g', hg, _⟩
  · exact Or.inl h1
  · exact Or.inr ⟨g', hg⟩

theorem readLoop_scanned (w0 : World) (iIndex : Nat) (n : Nat) :
    ∀ (w : World) (g : Int) (i : Nat) (new : List Request), Scanned w0 iIndex w g i new →
      ∃ new', Scanned w0 iIndex (readLoop w g i n).1 (readLoop w g i n).2 (i + n) new' := by
  induction n with
  | zero => intro w g i new h; exact ⟨new, h⟩
  | succ n ih =>
    intro w g i new h
    have hcur := scanned_current h
    have e : i + (n + 1) = (i + 1) + n := by omega
    rw [e]
    rcases scanned_gap_cases h with hg | ⟨g', hg⟩
    · subst hg
      by_cases hi : elementAt w0.oCache.aElements.items i = Slot.empty
      · have h1 : readLoop w (-1) i (n + 1) = readLoop w (i : Int) (i + 1) n := by
          simp [readLoop, hcur, hi]
        rw [h1]
        exact ih _ _ _ _ (scanned_open h hi)
      · have h1 : readLoop w (-1) i (n + 1) = readLoop w (-1) (i + 1) n := by
          simp [readLoop, hcur, hi]
        rw [h1]
        exact ih _ _ _ _ (scanned_skip h hi)
    · subst hg
      by_cases hi : elementAt w0.oCache.aElements.items i = Slot.empty
      · have h1 : readLoop w (g' : Int) i (n + 1) = readLoop w (g' : Int) (i + 1) n := by
          have : ¬ ((g' : Int) < 0) := by omega
          simp [readLoop, hcur, hi, this]
        rw [h1]
        exact ih _ _ _ _ (scanned_extend h hi)
      · have h1 : readLoop w (g' : Int) i (n + 1) =
            readLoop (requestElements w g' i) (-1) (i + 1) n := by
          have : (g' : Int) ≥ 0 := by omega
          simp [readLoop, hcur, hi, this]
        rw [h1]
        exact ih _ _ _ _ (scanned_close h hi)

/-! ## The call read -/

theorem clippedEnd_nonneg (oCache : CollectionCache) (iIndex iLength : Nat) :
    0 ≤ clippedEnd oCache (iIndex : Int) (iLength : Int) := by
  unfold clippedEnd
  simp only
  split
  · rename_i h; exact h.1
  · omega

theorem scanned_done {w0 w : World} {iIndex iEnd : Nat} {g : Int} {new : List Request}
    (h : Scanned w0 iIndex w g iEnd new) :
    ∃ new', ReadDone w0 iIndex iEnd
      { (if g ≥ 0 then requestElements w g.toNat iEnd else w) with
        reads := (if g ≥ 0 then requestElements w g.toNat iEnd else w).reads ++
          [⟨iIndex, iEnd, slice (if g ≥ 0 then requestElements w g.toNat iEnd
            else w).oCache.aElements.items iIndex iEnd, none⟩] } new' := by
  rcases h.gap with ⟨hg, _⟩ | ⟨g', hg, hg1, hg2, hg3, hg4, hg5⟩
  · subst hg
    refine ⟨new, ?_⟩
    have hn : ¬ ((-1 : Int) ≥ 0) := by omega
    simp only [hn, if_false]
    exact
      { requests := h.requests, settled := h.settled, reads := by simp [h.reads], cache := h.cache,
        runs := fun q hq => by
          obtain ⟨a, b, c1, c2, c3, c4, c5, _⟩ := h.runs q hq
          exact ⟨c1, c2, by omega, c4, c5, Or.inr b⟩
        issued := h.issued, sorted := h.sorted,
        covered := fun k hk1 hk2 hk3 => by
          rcases h.covered k hk1 hk2 hk3 with hq | ⟨h0, _⟩
          · exact hq
          · omega
        filled := h.filled, kept := h.kept, length := h.length }
  · subst hg
    have hp : ((g' : Int) ≥ 0) := by omega
    simp only [hp, if_true, Int.toNat_ofNat]
    by_cases hlast : elementAt w0.oCache.aElements.items iEnd = Slot.empty
    · -- the request issued behind the loop ends at iEnd
      have hc := h.cache
      refine ⟨new ++ [⟨w0.oCache.aElements.id, g', iEnd,
        w0.oCache.sUrl ++ "$skip=" ++ toString g' ++ "&$top=" ++
          toString ((iEnd : Int) - (g' : Int)), "GET"⟩], ?_⟩
      refine
        { requests := ?_, settled := h.settled, reads := ?_, cache := ?_, runs := ?_, issued := ?_,
          sorted := ?_, covered := ?_, filled := ?_, kept := ?_, length := ?_ }
      · simp only [requestElements, h.requests, List.append_assoc]
        rw [hc]
      · simp only [requestElements, h.reads]
      · simp only [requestElements]
        rw [hc]
      · intro q hq
        rcases List.mem_append.1 hq with hq | hq
        · obtain ⟨a, b, c1, c2, c3, c4, c5, _⟩ := h.runs q hq
          exact ⟨c1, c2, by omega, c4, c5, Or.inr b⟩
        · simp only [List.mem_singleton] at hq
          subst hq
          exact ⟨hg1, hg2, Nat.le_refl _, hg3, hg4, Or.inl rfl⟩
      · intro q hq
        rcases List.mem_append.1 hq with hq | hq
        · exact h.issued q hq
        · simp only [List.mem_singleton] at hq
          subst hq
          exact ⟨rfl, rfl⟩
      · rw [List.pairwise_append]
        refine ⟨h.sorted, List.pairwise_singleton _ _, ?_⟩
        intro a ha b hb
        simp only [List.mem_singleton] at hb
        subst hb
        exact hg5 a ha
      · intro k hk1 hk2 hk3
        rcases h.covered k hk1 hk2 hk3 with ⟨q, hq, hqc⟩ | ⟨_, hgk⟩
        · exact ⟨q, List.mem_append_left _ hq, hqc⟩
        · refine ⟨_, List.mem_append_right _ (List.mem_singleton.2 rfl), ?_⟩
          unfold Request.covers
          simp only
          omega
      · intro j q hj k hk
        simp only [requestElements, elementAt_fill]
        by_cases hjl : j < new.length
        · rw [List.getElem?_append_left hjl] at hj
          have hq : q ∈ new := List.getElem?_mem hj
          have := hg5 q hq
          unfold Request.covers at hk
          have hn : ¬ (g' ≤ k ∧ k < iEnd) := by omega
          simp only [hn, if_false]
          exact h.filled j q hj k hk
        · have hjl2 : new.length ≤ j := Nat.le_of_not_lt hjl
          rw [List.getElem?_append_right hjl2] at hj
          have hj0 : j - new.length = 0 := by
            by_contra hne
            rw [List.getElem?_eq_none (by simp; omega)] at hj
            exact absurd hj (by simp)
          rw [hj0] at hj
          simp only [List.getElem?_cons_zero, Option.some.injEq] at hj
          subst hj
          unfold Request.covers at hk
          simp only at hk
          simp only [hk, and_self, if_true, h.requests, List.length_append]
          congr 1
          omega
      · intro k hk
        simp only [requestElements, elementAt_fill]
        have hn : ¬ (g' ≤ k ∧ k < iEnd) := by
          have := hk _ (List.mem_append_right _ (List.mem_singleton.2 rfl))
          unfold Request.covers at this
          simpa using this
        simp only [hn, if_false]
        exact h.kept k (fun q hq => hk q (List.mem_append_left _ hq))
      · simp only [requestElements, List.map_append, List.foldl_append, List.map_cons,
          List.map_nil, List.foldl_cons, List.foldl_nil]
        rw [length_fill _ _ _ _ hg2, h.length]
    · -- the same world as after closing the gap inside the loop
      have h2 := scanned_close h hlast
      refine ⟨new ++ [⟨w0.oCache.aElements.id, g', iEnd,
        w0.oCache.sUrl ++ "$skip=" ++ toString g' ++ "&$top=" ++
          toString ((iEnd : Int) - (g' : Int)), "GET"⟩], ?_⟩
      exact
        { requests := h2.requests, settled := h2.settled, reads := by simp [h2.reads],
          cache := h2.cache,
          runs := fun q hq => by
            obtain ⟨a, b, c1, c2, c3, c4, c5, _⟩ := h2.runs q hq
            exact ⟨c1, c2, by omega, c4, c5, Or.inr b⟩
          issued := h2.issued, sorted := h2.sorted,
          covered := fun k hk1 hk2 hk3 => by
            rcases h2.covered k hk1 (by omega) hk3 with hq | ⟨h0, _⟩
            · exact hq
            · omega
          filled := h2.filled, kept := h2.kept, length := h2.length }

theorem read_done (w : World) (iIndex iLength : Nat) :
    ∃ w1 new, CollectionCache.read w (iIndex : Int) (iLength : Int) = Except.ok w1 ∧
      ReadDone w iIndex (clippedEnd w.oCache (iIndex : Int) (iLength : Int)).toNat w1 new := by
  have h1 : ¬ ((iIndex : Int) < 0) := by omega
  have h2 : ¬ ((iLength : Int) < 0) := by omega
  simp only [CollectionCache.read, h1, h2, if_false, Int.toNat_ofNat]
  generalize (clippedEnd w.oCache (iIndex : Int) (iLength : Int)).toNat = iEnd
  by_cases hle : iIndex ≤ iEnd
  · obtain ⟨new, hs⟩ := readLoop_scanned w iIndex (iEnd - iIndex) w (-1) iIndex [] (scanned_init w iIndex)
    have e : iIndex + (iEnd - iIndex) = iEnd := by omega
    rw [e] at hs
    obtain ⟨new2, hd⟩ := scanned_done hs
    exact ⟨_, new2, rfl, hd⟩
  · have e : iEnd - iIndex = 0 := by omega
    refine ⟨_, [], rfl, ?_⟩
    rw [e]
    have hn : ¬ ((-1 : Int) ≥ 0) := by omega
    simp only [readLoop, hn, if_false]
    exact
      { requests := by simp, settled := rfl, reads := rfl, cache := rfl, runs := by simp,
        issued := by simp, sorted := List.Pairwise.nil,
        covered := fun k hk1 hk2 _ => by omega,
        filled := by simp, kept := by simp, length := by simp }

/-! ## Requests issued by one read -/

theorem maximalEmptyRun_unique {a : List Slot} {iIndex iLimit s1 e1 s2 e2 k : Nat}
    (h1 : MaximalEmptyRun a iIndex iLimit s1 e1) (h2 : MaximalEmptyRun a iIndex iLimit s2 e2)
    (hk1 : s1 ≤ k ∧ k < e1) (hk2 : s2 ≤ k ∧ k < e2) : s1 = s2 ∧ e1 = e2 := by
  obtain ⟨a1, a2, a3, a4, a5, a6⟩ := h1
  obtain ⟨b1, b2, b3, b4, b5, b6⟩ := h2
  constructor
  · rcases Nat.lt_trichotomy s1 s2 with hlt | heq | hgt
    · rcases b5 with hb | hb
      · omega
      · exact absurd (a4 (s2 - 1) (by omega) (by omega)) hb
    · exact heq
    · rcases a5 with ha | ha
      · omega
      · exact absurd (b4 (s1 - 1) (by omega) (by omega)) ha
  · rcases Nat.lt_trichotomy e1 e2 with hlt | heq | hgt
    · rcases a6 with ha | ha
      · omega
      · exact absurd (b4 e1 (by omega) (by omega)) ha
    · exact heq
    · rcases b6 with hb | hb
      · omega
      · exact absurd (a4 e2 (by omega) (by omega)) hb

/-- C1: for every world and every `read(iIndex, iLength)` with non-negative
arguments, the call returns and the requests it issues are exactly the maximal
runs of empty slots inside `[iIndex, iEnd)`, `iEnd` being `iIndex + iLength` clipped
to `iMaxElements` when known: every request is such a run, every such run is the
range of a request, the requests are in ascending order with a non-empty slot
between two of them, and no request covers a slot that held a promise or a
record when the call started. -/
theorem read_requests_exactly_the_maximal_empty_runs (w : World) (iIndex iLength : Nat) :
    ∃ w1 new, CollectionCache.read w (iIndex : Int) (iLength : Int) = Except.ok w1 ∧
      w1.requests = w.requests ++ new ∧
      List.Pairwise (fun a b => a.iEnd < b.iStart) new ∧
      (∀ q ∈ new, MaximalEmptyRun w.oCache.aElements.items iIndex
        (clippedEnd w.oCache (iIndex : Int) (iLength : Int)).toNat q.iStart q.iEnd) ∧
      (∀ iStart iEnd, MaximalEmptyRun w.oCache.aElements.items iIndex
        (clippedEnd w.oCache (iIndex : Int) (iLength : Int)).toNat iStart iEnd →
          ∃ q ∈ new, q.iStart = iStart ∧ q.iEnd = iEnd) ∧
      (∀ q ∈ new, ∀ k, q.covers k → elementAt w.oCache.aElements.items k = Slot.empty) := by
  obtain ⟨w1, new, hr, hd⟩ := read_done w iIndex iLength
  refine ⟨w1, new, hr, hd.requests, hd.sorted, hd.runs, ?_, ?_⟩
  · intro iStart iEnd hm
    obtain ⟨m1, m2, m3, m4, m5, m6⟩ := hm
    obtain ⟨q, hq, hqc⟩ := hd.covered iStart m1 (by omega) (m4 iStart (Nat.le_refl _) m2)
    have hu := maximalEmptyRun_unique (hd.runs q hq) ⟨m1, m2, m3, m4, m5, m6⟩ hqc
      ⟨Nat.le_refl _, m2⟩
    exact ⟨q, hq, hu.1, hu.2⟩
  · intro q hq k hk
    obtain ⟨_, _, _, m4, _, _⟩ := hd.runs q hq
    exact m4 k hk.1 hk.2

/-- C7: right after `read(iIndex, iLength)` with non-negative arguments has
returned, every slot of `[iIndex, iEnd)` is non-empty, every slot in the range of
a request the call issued holds the promise of that request, every slot that was
non-empty before or lies outside `[iIndex, iEnd)` is as before, and `sContext`,
`iMaxElements` and the settled promises are as before; the promises of the new
requests are pending when only promises of logged requests had settled. -/
theorem read_fills_every_gap_with_its_promise (w : World) (iIndex iLength : Nat) :
    ∃ w1, CollectionCache.read w (iIndex : Int) (iLength : Int) = Except.ok w1 ∧
      (∀ k, iIndex ≤ k → k < (clippedEnd w.oCache (iIndex : Int) (iLength : Int)).toNat →
        elementAt w1.oCache.aElements.items k ≠ Slot.empty) ∧
      (∀ p q, w.requests.length ≤ p → w1.requests[p]? = some q → ∀ k, q.covers k →
        elementAt w1.oCache.aElements.items k = Slot.promise p) ∧
      (∀ k, (elementAt w.oCache.aElements.items k ≠ Slot.empty ∨ k < iIndex ∨
          (clippedEnd w.oCache (iIndex : Int) (iLength : Int)).toNat ≤ k) →
        elementAt w1.oCache.aElements.items k = elementAt w.oCache.aElements.items k) ∧
      w1.oCache.sContext = w.oCache.sContext ∧
      w1.oCache.iMaxElements = w.oCache.iMaxElements ∧
      w1.settled = w.settled ∧
      ((∀ s ∈ w.settled, s.1 < w.requests.length) →
        ∀ p, w.requests.length ≤ p → w1.isSettled p = false) := by
  obtain ⟨w1, new, hr, hd⟩ := read_done w iIndex iLength
  refine ⟨w1, hr, ?_, ?_, ?_, ?_, ?_, hd.settled, ?_⟩
  rotate_right
  · intro hknown p hp
    simp only [World.isSettled, hd.settled, List.any_eq_false, beq_iff_eq]
    intro s hs heq
    have := hknown s hs
    omega
  · intro k hk1 hk2
    by_cases he : elementAt w.oCache.aElements.items k = Slot.empty
    · obtain ⟨q, hq, hqc⟩ := hd.covered k hk1 hk2 he
      obtain ⟨j, hj⟩ := List.mem_iff_getElem?.1 hq
      rw [hd.filled j q hj k hqc]
      simp
    · rw [hd.kept k]
      · exact he
      · intro q hq hqc
        obtain ⟨_, _, _, m4, _, _⟩ := hd.runs q hq
        exact he (m4 k hqc.1 hqc.2)
  · intro p q hp hpq k hk
    rw [hd.requests, List.getElem?_append_right hp] at hpq
    have := hd.filled (p - w.requests.length) q hpq k hk
    rw [this]
    congr 1
    omega
  · intro k hk
    apply hd.kept
    intro q hq hqc
    obtain ⟨m1, m2, m3, m4, _, _⟩ := hd.runs q hq
    unfold Request.covers at hqc
    rcases hk with hk | hk | hk
    · exact hk (m4 k hqc.1 hqc.2)
    · omega
    · omega
  · rw [hd.cache]
  · rw [hd.cache]

/-! ## Responses -/

theorem respond_same_store {w : World} {p : Nat} {q : Request} (oResult : ODataResponse)
    (hq : w.requests[p]? = some q) (hflight : w.isSettled p = false)
    (hsame : q.aElements = w.oCache.aElements.id) :
    respond w p oResult =
      { w with
        oCache := applyResult w.oCache q oResult
        settled := w.settled ++ [(p, Outcome.fulfilled)] } := by
  simp [respond, hq, hflight, hsame]

/-- C5: when the requestor answers request `p`, covering `[q.iStart, q.iEnd)`, with
exactly as many records as requested and `aElements` is still the array the
request captured, then afterwards slot `q.iStart + k` holds record `k` for every
`k < q.iEnd - q.iStart`, every slot outside the range is as before, `sContext` is
the context of the response and `iMaxElements` is as before. -/
theorem respond_full_response (w : World) (p : Nat) (q : Request) (oResult : ODataResponse)
    (hq : w.requests[p]? = some q) (hflight : w.isSettled p = false)
    (hsame : q.aElements = w.oCache.aElements.id)
    (hfull : (oResult.value.length : Int) = (q.iEnd : Int) - (q.iStart : Int)) :
    (∀ k, k < q.iEnd - q.iStart → ∃ r, oResult.value[k]? = some r ∧
      elementAt (respond w p oResult).oCache.aElements.items (q.iStart + k) = Slot.record r) ∧
    (∀ j, ¬ q.covers j → elementAt (respond w p oResult).oCache.aElements.items j =
      elementAt w.oCache.aElements.items j) ∧
    (respond w p oResult).oCache.sContext = oResult.context ∧
    (respond w p oResult).oCache.iMaxElements = w.oCache.iMaxElements := by
  have hn : ¬ ((oResult.value.length : Int) < (q.iEnd : Int) - (q.iStart : Int)) := by omega
  rw [respond_same_store oResult hq hflight hsame]
  refine ⟨?_, ?_, ?_, ?_⟩
  · intro k hk
    simp only [applyResult, hn, if_false, elementAt_storeLoop, Nat.add_zero]
    have hk2 : k < oResult.value.length := by omega
    refine ⟨oResult.value[k], List.getElem?_eq_getElem hk2, ?_⟩
    have h1 : q.iStart ≤ q.iStart + k ∧ q.iStart + k < q.iStart + oResult.value.length := by omega
    simp only [h1, and_self, if_true, Nat.add_sub_cancel_left, List.getElem?_eq_getElem hk2]
  · intro j hj
    unfold Request.covers at hj
    have h1 : ¬ (q.iStart ≤ j ∧ j < q.iStart + oResult.value.length) := by omega
    simp only [applyResult, hn, if_false, elementAt_storeLoop, Nat.add_zero, h1]
  · simp only [applyResult, hn, if_false]
  · simp only [applyResult, hn, if_false]

theorem respond_full_response_witness :
    (run (World.init (CollectionCache.create 0 "/~/Employees" "")) [Event.read 0 2]).requests[0]? =
      some ⟨0, 0, 2, "/~/Employees?$skip=0&$top=2", "GET"⟩ ∧
    (run (World.init (CollectionCache.create 0 "/~/Employees" ""))
      [Event.read 0 2]).isSettled 0 = false ∧
    (respond (run (World.init (CollectionCache.create 0 "/~/Employees" "")) [Event.read 0 2]) 0
      ⟨some "$metadata#TEAMS", ["a", "b"]⟩).oCache.sContext = some "$metadata#TEAMS" ∧
    (respond (run (World.init (CollectionCache.create 0 "/~/Employees" "")) [Event.read 0 2]) 0
      ⟨some "$metadata#TEAMS", ["a", "b"]⟩).oCache.iMaxElements =
      (run (World.init (CollectionCache.create 0 "/~/Employees" ""))
        [Event.read 0 2]).oCache.iMaxElements :=
  ⟨by decide, by decide,
    (respond_full_response
      (run (World.init (CollectionCache.create 0 "/~/Employees" "")) [Event.read 0 2]) 0
      ⟨0, 0, 2, "/~/Employees?$skip=0&$top=2", "GET"⟩ ⟨some "$metadata#TEAMS", ["a", "b"]⟩
      (by decide) (by decide) (by decide) (by decide)).2.2⟩

theorem respond_short_response_general (w : World) (p : Nat) (q : Request)
    (oResult : ODataResponse)
    (hq : w.requests[p]? = some q) (hflight : w.isSettled p = false)
    (hsame : q.aElements = w.oCache.aElements.id)
    (hshort : (oResult.value.length : Int) < (q.iEnd : Int) - (q.iStart : Int)) :
    (respond w p oResult).oCache.iMaxElements = ((q.iStart + oResult.value.length : Nat) : Int) ∧
    (∀ k, k < oResult.value.length → ∃ r, oResult.value[k]? = some r ∧
      elementAt (respond w p oResult).oCache.aElements.items (q.iStart + k) = Slot.record r) := by
  rw [respond_same_store oResult hq hflight hsame]
  refine ⟨by simp only [applyResult, hshort, if_true], ?_⟩
  intro k hk2
  simp only [applyResult, hshort, if_true, elementAt_storeLoop, Nat.add_zero]
  refine ⟨oResult.value[k], List.getElem?_eq_getElem hk2, ?_⟩
  have h1 : q.iStart ≤ q.iStart + k ∧ q.iStart + k < q.iStart + oResult.value.length := by omega
  simp only [h1, and_self, if_true, Nat.add_sub_cancel_left, List.getElem?_eq_getElem hk2]

/-! ## Ranges without gaps and ranges without data -/

theorem readDone_all_empty {w0 w : World} {iIndex iEnd : Nat} {new : List Request}
    (hd : ReadDone w0 iIndex iEnd w new) (hlt : iIndex < iEnd)
    (he : ∀ k, iIndex ≤ k → k < iEnd → elementAt w0.oCache.aElements.items k = Slot.empty) :
    ∃ q, new = [q] ∧ q.iStart = iIndex ∧ q.iEnd = iEnd := by
  have hall : ∀ q ∈ new, q.iStart = iIndex ∧ q.iEnd = iEnd := by
    intro q hq
    obtain ⟨m1, m2, m3, _, m5, m6⟩ := hd.runs q hq
    constructor
    · rcases m5 with h | h
      · exact h
      · by_contra hne
        exact h (he _ (by omega) (by omega))
    · rcases m6 with h | h
      · exact h
      · by_contra hne
        exact h (he _ (by omega) (by omega))
  obtain ⟨q, hq, _⟩ := hd.covered iIndex (Nat.le_refl _) hlt (he _ (Nat.le_refl _) hlt)
  match new, hd.sorted, hall, hq with
  | [q1], _, hall, _ => exact ⟨q1, rfl, hall q1 (List.mem_singleton.2 rfl)⟩
  | q1 :: q2 :: rest, hs, hall, _ =>
    have h1 := hall q1 (by simp)
    have h2 := hall q2 (by simp)
    have h3 : q1.iEnd < q2.iStart := by
      have := List.rel_of_pairwise_cons hs (List.mem_cons_self q2 rest)
      exact this
    omega

theorem readDone_none {w0 w : World} {iIndex iEnd : Nat} {new : List Request}
    (hd : ReadDone w0 iIndex iEnd w new)
    (he : ∀ k, iIndex ≤ k → k < iEnd → elementAt w0.oCache.aElements.items k ≠ Slot.empty) :
    new = [] ∧ w.oCache = w0.oCache := by
  have hnew : new = [] := by
    cases hn : new with
    | nil => rfl
    | cons q rest =>
      exfalso
      have hq : q ∈ new := by rw [hn]; simp
      obtain ⟨m1, m2, m3, m4, _, _⟩ := hd.runs q hq
      exact he q.iStart m1 (by omega) (m4 q.iStart (Nat.le_refl _) m2)
  refine ⟨hnew, ?_⟩
  have hlen := hd.length
  have hkept := hd.kept
  subst hnew
  simp only [List.map_nil, List.foldl_nil] at hlen
  have hitems : w.oCache.aElements.items = w0.oCache.aElements.items :=
    eq_of_elementAt hlen (fun k _ => hkept k (by simp))
  rw [hd.cache, hitems]

/-! ## Sequences of events -/

theorem Later.refl (w : World) : Later w w where
  requests := ⟨[], by simp⟩
  settled := ⟨[], by simp⟩
  reads := fun r rd h => ⟨rd, h, rfl, rfl, rfl, fun _ ho => ho⟩
  id := Nat.le_refl _
  sUrl := rfl
  oRequestor := rfl

theorem Later.trans {w1 w2 w3 : World} (h12 : Later w1 w2) (h23 : Later w2 w3) : Later w1 w3 where
  requests := by
    obtain ⟨a, ha⟩ := h12.requests
    obtain ⟨b, hb⟩ := h23.requests
    exact ⟨a ++ b, by rw [hb, ha, List.append_assoc]⟩
  settled := by
    obtain ⟨a, ha⟩ := h12.settled
    obtain ⟨b, hb⟩ := h23.settled
    exact ⟨a ++ b, by rw [hb, ha, List.append_assoc]⟩
  reads := by
    intro r rd h
    obtain ⟨rd2, h2, a1, a2, a3, a4⟩ := h12.reads r rd h
    obtain ⟨rd3, h3, b1, b2, b3, b4⟩ := h23.reads r rd2 h2
    exact ⟨rd3, h3, b1.trans a1, b2.trans a2, b3.trans a3, fun o ho => b4 o (a4 o ho)⟩
  id := Nat.le_trans h12.id h23.id
  sUrl := h23.sUrl.trans h12.sUrl
  oRequestor := h23.oRequestor.trans h12.oRequestor

theorem read_throws_or_nat (w : World) (iIndex iLength : Int) :
    (∃ e, CollectionCache.read w iIndex iLength = Except.error e) ∨
      ∃ a b : Nat, iIndex = (a : Int) ∧ iLength = (b : Int) := by
  by_cases h1 : iIndex < 0
  · exact Or.inl ⟨⟨"Illegal index " ++ ToString.toString iIndex ++ ", must be >= 0", false⟩,
      by simp only [CollectionCache.read, h1, if_true]⟩
  · by_cases h2 : iLength < 0
    · exact Or.inl ⟨⟨"Illegal length " ++ ToString.toString iLength ++ ", must be >= 0", false⟩,
        by simp only [CollectionCache.read, h1, h2, if_true, if_false]⟩
    · exact Or.inr ⟨iIndex.toNat, iLength.toNat, by omega, by omega⟩

theorem applyResult_frame (oCache : CollectionCache) (q : Request) (oResult : ODataResponse) :
    (applyResult oCache q oResult).aElements.id = oCache.aElements.id ∧
    (applyResult oCache q oResult).sUrl = oCache.sUrl ∧
    (applyResult oCache q oResult).oRequestor = oCache.oRequestor := by
  unfold applyResult
  simp only
  split <;> exact ⟨rfl, rfl, rfl⟩

theorem respond_cases (w : World) (p : Nat) (oResult : ODataResponse) :
    respond w p oResult = w ∨
    (∃ q, w.requests[p]? = some q ∧ w.isSettled p = false ∧
      q.aElements ≠ w.oCache.aElements.id ∧
      respond w p oResult =
        { w with settled := w.settled ++ [(p, Outcome.rejected (canceledError q.sUrl))] }) ∨
    (∃ q, w.requests[p]? = some q ∧ w.isSettled p = false ∧
      q.aElements = w.oCache.aElements.id ∧
      respond w p oResult =
        { w with
          oCache := applyResult w.oCache q oResult
          settled := w.settled ++ [(p, Outcome.fulfilled)] }) := by
  unfold respond
  cases hq : w.requests[p]? with
  | none => exact Or.inl rfl
  | some q =>
    simp only
    by_cases hs : w.isSettled p = true
    · simp [hs]
    · have hs2 : w.isSettled p = false := by simpa using hs
      by_cases hid : q.aElements = w.oCache.aElements.id
      · exact Or.inr (Or.inr ⟨q, rfl, hs2, hid, by simp [hs2, hid]⟩)
      · exact Or.inr (Or.inl ⟨q, rfl, hs2, hid, by simp [hs2, hid]⟩)

theorem reject_cases (w : World) (p : Nat) (oError : JSError) :
    reject w p oError = w ∨
    (∃ q oCache, w.requests[p]? = some q ∧ w.isSettled p = false ∧
      oCache.aElements.id = w.oCache.aElements.id ∧ oCache.sUrl = w.oCache.sUrl ∧
      oCache.oRequestor = w.oCache.oRequestor ∧
      (q.aElements ≠ w.oCache.aElements.id → oCache = w.oCache) ∧
      reject w p oError =
        { w with oCache := oCache, settled := w.settled ++ [(p, Outcome.rejected oError)] }) := by
  unfold reject
  cases hq : w.requests[p]? with
  | none => exact Or.inl rfl
  | some q =>
    simp only
    by_cases hs : w.isSettled p = true
    · simp [hs]
    · have hs2 : w.isSettled p = false := by simpa using hs
      refine Or.inr ⟨q, _, rfl, hs2, ?_, ?_, ?_, ?_, by simp only [hs2]; rfl⟩
      · split <;> rfl
      · split <;> rfl
      · split <;> rfl
      · intro hne
        simp only [hne, if_false]

theorem settle_cases (w : World) (r : Nat) :
    settle w r = w ∨
    (∃ rd e, w.reads[r]? = some rd ∧ rd.outcome = none ∧
      firstRejection w.settled rd.awaited = some e ∧
      settle w r = { w with reads := w.reads.set r { rd with outcome := some (Except.error e) } }) ∨
    (∃ rd, w.reads[r]? = some rd ∧ rd.outcome = none ∧
      firstRejection w.settled rd.awaited = none ∧ allFulfilled w.settled rd.awaited = true ∧
      settle w r = { w with reads := w.reads.set r { rd with
        outcome := some (Except.ok
          ⟨w.oCache.sContext, slice w.oCache.aElements.items rd.iIndex rd.iEnd⟩) } }) := by
  unfold settle
  cases hq : w.reads[r]? with
  | none => exact Or.inl rfl
  | some rd =>
    simp only
    cases ho : rd.outcome with
    | some o => simp
    | none =>
      simp only [Option.isSome_none, Bool.false_eq_true, if_false]
      cases hf : firstRejection w.settled rd.awaited with
      | some e => exact Or.inr (Or.inl ⟨rd, e, rfl, ho, hf, rfl⟩)
      | none =>
        simp only
        by_cases ha : allFulfilled w.settled rd.awaited = true
        · exact Or.inr (Or.inr ⟨rd, rfl, ho, hf, ha, by simp [ha]⟩)
        · simp [ha]

theorem readDone_later {w0 w : World} {iIndex iEnd : Nat} {new : List Request}
    (hd : ReadDone w0 iIndex iEnd w new) : Later w0 w where
  requests := ⟨new, hd.requests⟩
  settled := ⟨[], by simp [hd.settled]⟩
  reads := by
    intro r rd h
    refine ⟨rd, ?_, rfl, rfl, rfl, fun _ ho => ho⟩
    have hr : r < w0.reads.length := (List.getElem?_eq_some.1 h).1
    rw [hd.reads, List.getElem?_append_left hr]
    exact h
  id := by rw [hd.cache]
  sUrl := by rw [hd.cache]
  oRequestor := by rw [hd.cache]

theorem later_set_outcome (w : World) (r : Nat) (rd : Read) (o : Except JSError ReadValue)
    (h : w.reads[r]? = some rd) (hn : rd.outcome = none) :
    Later w { w with reads := w.reads.set r { rd with outcome := some o } } where
  requests := ⟨[], by simp⟩
  settled := ⟨[], by simp⟩
  reads := by
    intro r2 rd2 h2
    by_cases hr : r = r2
    · subst hr
      rw [h] at h2
      simp only [Option.some.injEq] at h2
      subst h2
      have hlt : r < w.reads.length := (List.getElem?_eq_some.1 h).1
      refine ⟨{ rd with outcome := some o }, by simp [List.getElem?_set, hlt], rfl, rfl, rfl, ?_⟩
      intro o2 ho2
      rw [hn] at ho2
      exact absurd ho2 (by simp)
    · refine ⟨rd2, ?_, rfl, rfl, rfl, fun _ ho => ho⟩
      simp only [List.getElem?_set, hr, if_false]
      exact h2
  id := Nat.le_refl _
  sUrl := rfl
  oRequestor := rfl

theorem step_later (w : World) (e : Event) : Later w (step w e) := by
  cases e with
  | read iIndex iLength =>
    simp only [step]
    rcases read_throws_or_nat w iIndex iLength with ⟨e, he⟩ | ⟨a, b, ha, hb⟩
    · rw [he]; exact Later.refl w
    · subst ha; subst hb
      obtain ⟨w1, new, hr, hd⟩ := read_done w a b
      rw [hr]
      exact readDone_later hd
  | refresh =>
    exact
      { requests := ⟨[], by simp [step]⟩, settled := ⟨[], by simp [step]⟩,
        reads := fun r rd h => ⟨rd, h, rfl, rfl, rfl, fun _ ho => ho⟩,
        id := by simp [step, CollectionCache.refresh], sUrl := rfl, oRequestor := rfl }
  | respond p oResult =>
    simp only [step]
    rcases respond_cases w p oResult with h | ⟨q, _, _, _, h⟩ | ⟨q, _, _, _, h⟩
    · rw [h]; exact Later.refl w
    · rw [h]
      exact
        { requests := ⟨[], by simp⟩, settled := ⟨_, rfl⟩,
          reads := fun r rd h => ⟨rd, h, rfl, rfl, rfl, fun _ ho => ho⟩,
          id := Nat.le_refl _, sUrl := rfl, oRequestor := rfl }
    · rw [h]
      have hf := applyResult_frame w.oCache q oResult
      exact
        { requests := ⟨[], by simp⟩, settled := ⟨_, rfl⟩,
          reads := fun r rd h => ⟨rd, h, rfl, rfl, rfl, fun _ ho => ho⟩,
          id := Nat.le_of_eq hf.1.symm, sUrl := hf.2.1, oRequestor := hf.2.2 }
  | reject p oError =>
    simp only [step]
    rcases reject_cases w p oError with h | ⟨q, oCache, _, _, h1, h2, h3, _, h⟩
    · rw [h]; exact Later.refl w
    · rw [h]
      exact
        { requests := ⟨[], by simp⟩, settled := ⟨_, rfl⟩,
          reads := fun r rd h => ⟨rd, h, rfl, rfl, rfl, fun _ ho => ho⟩,
          id := Nat.le_of_eq h1.symm, sUrl := h2, oRequestor := h3 }
  | settle r =>
    simp only [step]
    rcases settle_cases w r with h | ⟨rd, e, h1, h2, _, h⟩ | ⟨rd, h1, h2, _, _, h⟩
    · rw [h]; exact Later.refl w
    · rw [h]; exact later_set_outcome w r rd _ h1 h2
    · rw [h]; exact later_set_outcome w r rd _ h1 h2

theorem run_later (events : List Event) : ∀ w : World, Later w (run w events) := by
  induction events with
  | nil => intro w; exact Later.refl w
  | cons e events ih =>
    intro w
    exact Later.trans (step_later w e) (ih (step w e))

theorem not_settled_iff (w : World) (p : Nat) :
    w.isSettled p = false ↔ p ∉ w.settled.map Prod.fst := by
  simp only [World.isSettled, List.any_eq_false, beq_iff_eq, List.mem_map, Prod.exists,
    exists_and_right, exists_eq_right, not_exists]
  constructor
  · intro h o ho
    exact h (p, o) ho rfl
  · intro h s hs heq
    obtain ⟨a, o⟩ := s
    simp only at heq
    subst heq
    exact h o hs

theorem firstRejection_some {settled : List (Nat × Outcome)} {awaited : List Slot} {e : JSError}
    (h : firstRejection settled awaited = some e) :
    ∃ p, Slot.promise p ∈ awaited ∧ (p, Outcome.rejected e) ∈ settled := by
  unfold firstRejection at h
  obtain ⟨s, hs, hf⟩ := List.exists_of_findSome?_eq_some h
  obtain ⟨p, o⟩ := s
  cases o with
  | fulfilled => simp at hf
  | rejected e2 =>
    simp only at hf
    by_cases hm : Slot.promise p ∈ awaited
    · simp only [hm, if_true, Option.some.injEq] at hf
      subst hf
      exact ⟨p, hm, hs⟩
    · simp [hm] at hf

theorem firstRejection_isSome {settled : List (Nat × Outcome)} {awaited : List Slot} {p : Nat}
    {e : JSError} (hp : Slot.promise p ∈ awaited) (hs : (p, Outcome.rejected e) ∈ settled) :
    ∃ e2, firstRejection settled awaited = some e2 := by
  cases h : firstRejection settled awaited with
  | some e2 => exact ⟨e2, rfl⟩
  | none =>
    exfalso
    unfold firstRejection at h
    rw [List.findSome?_eq_none_iff] at h
    have := h _ hs
    simp [hp] at this

theorem firstRejection_append {settled : List (Nat × Outcome)} {awaited : List Slot}
    {e : JSError} (h : firstRejection settled awaited = some e) (more : List (Nat × Outcome)) :
    firstRejection (settled ++ more) awaited = some e := by
  unfold firstRejection at h ⊢
  rw [List.findSome?_append, h]
  rfl

theorem firstRejection_append_none {settled : List (Nat × Outcome)} {awaited : List Slot}
    (h : firstRejection settled awaited = none) (more : List (Nat × Outcome)) :
    firstRejection (settled ++ more) awaited = firstRejection more awaited := by
  unfold firstRejection at h ⊢
  rw [List.findSome?_append, h]
  rfl

theorem firstRejection_none {settled : List (Nat × Outcome)} {awaited : List Slot}
    (h : ∀ p e, Slot.promise p ∈ awaited → (p, Outcome.rejected e) ∉ settled) :
    firstRejection settled awaited = none := by
  cases hf : firstRejection settled awaited with
  | none => rfl
  | some e =>
    obtain ⟨p, hp, hs⟩ := firstRejection_some hf
    exact absurd hs (h p e hp)

theorem allFulfilled_true {settled : List (Nat × Outcome)} {awaited : List Slot}
    (h : allFulfilled settled awaited = true) (p : Nat) (hp : Slot.promise p ∈ awaited) :
    (p, Outcome.fulfilled) ∈ settled := by
  unfold allFulfilled at h
  rw [List.all_eq_true] at h
  have := h _ hp
  simpa using this

theorem sound_init (oCache : CollectionCache) : Sound (World.init oCache) where
  ids := by simp [World.init]
  nodup := by simp [World.init]
  known := by simp [World.init]
  resolved := by simp [World.init]
  failed := by simp [World.init]

theorem sound_set_outcome {w : World} (hs : Sound w) (r : Nat) (rd : Read)
    (o : Except JSError ReadValue)
    (hok : ∀ v, o = Except.ok v → ∀ p, Slot.promise p ∈ rd.awaited →
      (p, Outcome.fulfilled) ∈ w.settled)
    (herr : ∀ e, o = Except.error e → firstRejection w.settled rd.awaited = some e) :
    Sound { w with reads := w.reads.set r { rd with outcome := some o } } where
  ids := hs.ids
  nodup := hs.nodup
  known := hs.known
  resolved := by
    intro rd2 hrd2 v hv
    rcases List.mem_or_eq_of_mem_set hrd2 with hm | he
    · exact hs.resolved rd2 hm v hv
    · subst he
      simp only [Option.some.injEq] at hv
      exact hok v hv
  failed := by
    intro rd2 hrd2 e hv
    rcases List.mem_or_eq_of_mem_set hrd2 with hm | he
    · exact hs.failed rd2 hm e hv
    · subst he
      simp only [Option.some.injEq] at hv
      exact herr e hv

theorem sound_settled {w : World} (hs : Sound w) (oCache : CollectionCache)
    (hid : oCache.aElements.id = w.oCache.aElements.id) (p : Nat) (o : Outcome)
    (hp : p < w.requests.length) (hflight : w.isSettled p = false) :
    Sound { w with oCache := oCache, settled := w.settled ++ [(p, o)] } where
  ids := by
    intro q hq
    simp only
    rw [hid]
    exact hs.ids q hq
  nodup := by
    simp only [List.map_append, List.map_cons, List.map_nil]
    rw [List.nodup_append]
    refine ⟨hs.nodup, by simp, ?_⟩
    intro a ha hb
    simp only [List.mem_singleton] at hb
    subst hb
    exact (not_settled_iff w a).1 hflight ha
  known := by
    intro s h
    rcases List.mem_append.1 h with h | h
    · exact hs.known s h
    · simp only [List.mem_singleton] at h
      subst h
      exact hp
  resolved := by
    intro rd hrd v hv p2 hp2
    exact List.mem_append_left _ (hs.resolved rd hrd v hv p2 hp2)
  failed := by
    intro rd hrd e hv
    exact firstRejection_append (hs.failed rd hrd e hv) _

theorem readDone_sound {w0 w : World} {iIndex iEnd : Nat} {new : List Request}
    (hd : ReadDone w0 iIndex iEnd w new) (hs : Sound w0) : Sound w where
  ids := by
    intro q hq
    rw [hd.requests] at hq
    have hid : w.oCache.aElements.id = w0.oCache.aElements.id := by rw [hd.cache]
    rw [hid]
    rcases List.mem_append.1 hq with h | h
    · exact hs.ids q h
    · exact Nat.le_of_eq (hd.issued q h).1
  nodup := by rw [hd.settled]; exact hs.nodup
  known := by
    intro s h
    rw [hd.settled] at h
    rw [hd.requests, List.length_append]
    have := hs.known s h
    omega
  resolved := by
    intro rd hrd v hv p hp
    rw [hd.settled]
    rw [hd.reads] at hrd
    rcases List.mem_append.1 hrd with h | h
    · exact hs.resolved rd h v hv p hp
    · simp only [List.mem_singleton] at h
      subst h
      simp at hv
  failed := by
    intro rd hrd e hv
    rw [hd.settled]
    rw [hd.reads] at hrd
    rcases List.mem_append.1 hrd with h | h
    · exact hs.failed rd h e hv
    · simp only [List.mem_singleton] at h
      subst h
      simp at hv

theorem step_sound (w : World) (e : Event) (hs : Sound w) : Sound (step w e) := by
  cases e with
  | read iIndex iLength =>
    simp only [step]
    rcases read_throws_or_nat w iIndex iLength with ⟨e, he⟩ | ⟨a, b, ha, hb⟩
    · rw [he]; exact hs
    · subst ha; subst hb
      obtain ⟨w1, new, hr, hd⟩ := read_done w a b
      rw [hr]
      exact readDone_sound hd hs
  | refresh =>
    exact
      { ids := fun q hq => Nat.le_succ_of_le (hs.ids q hq), nodup := hs.nodup, known := hs.known,
        resolved := hs.resolved, failed := hs.failed }
  | respond p oResult =>
    simp only [step]
    rcases respond_cases w p oResult with h | ⟨q, h1, h2, _, h⟩ | ⟨q, h1, h2, _, h⟩
    · rw [h]; exact hs
    · rw [h]
      exact sound_settled hs w.oCache rfl p _ (List.getElem?_eq_some.1 h1).1 h2
    · rw [h]
      exact sound_settled hs _ (applyResult_frame w.oCache q oResult).1 p _
        (List.getElem?_eq_some.1 h1).1 h2
  | reject p oError =>
    simp only [step]
    rcases reject_cases w p oError with h | ⟨q, oCache, h1, h2, h3, _, _, _, h⟩
    · rw [h]; exact hs
    · rw [h]
      exact sound_settled hs oCache h3 p _ (List.getElem?_eq_some.1 h1).1 h2
  | settle r =>
    simp only [step]
    rcases settle_cases w r with h | ⟨rd, e, h1, h2, h3, h⟩ | ⟨rd, h1, h2, h3, h4, h⟩
    · rw [h]; exact hs
    · rw [h]
      refine sound_set_outcome hs r rd _ (fun v hv => by simp at hv) ?_
      intro e2 he2
      simp only [Except.error.injEq] at he2
      subst he2
      exact h3
    · rw [h]
      refine sound_set_outcome hs r rd _ ?_ (fun e he => by simp at he)
      intro v _ p hp
      exact allFulfilled_true h4 p hp

theorem run_sound (events : List Event) : ∀ w : World, Sound w → Sound (run w events) := by
  induction events with
  | nil => intro w hs; exact hs
  | cons e events ih =>
    intro w hs
    exact ih (step w e) (step_sound w e hs)

/-! ## Responses that arrive after a refresh -/

theorem later_request {w1 w2 : World} (h : Later w1 w2) {p : Nat} {q : Request}
    (hq : w1.requests[p]? = some q) : w2.requests[p]? = some q := by
  obtain ⟨new, hn⟩ := h.requests
  rw [hn, List.getElem?_append_left (List.getElem?_eq_some.1 hq).1]
  exact hq

theorem later_settled {w1 w2 : World} (h : Later w1 w2) {s : Nat × Outcome}
    (hs : s ∈ w1.settled) : s ∈ w2.settled := by
  obtain ⟨more, hm⟩ := h.settled
  rw [hm]
  exact List.mem_append_left _ hs

theorem stale_respond {w : World} {p : Nat} {q : Request} (oResult : ODataResponse)
    (hq : w.requests[p]? = some q) (hstale : q.aElements ≠ w.oCache.aElements.id) :
    (respond w p oResult).oCache = w.oCache ∧
    (w.isSettled p = false → respond w p oResult =
      { w with settled := w.settled ++ [(p, Outcome.rejected (canceledError q.sUrl))] }) := by
  rcases respond_cases w p oResult with h | ⟨q2, h1, h2, _, h⟩ | ⟨q2, h1, _, h3, _⟩
  · refine ⟨by rw [h], ?_⟩
    intro hf
    simp [respond, hq, hf, hstale]
  · rw [hq] at h1
    simp only [Option.some.injEq] at h1
    subst h1
    exact ⟨by rw [h], fun _ => h⟩
  · rw [hq] at h1
    simp only [Option.some.injEq] at h1
    subst h1
    exact absurd h3 hstale

theorem stale_reject {w : World} {p : Nat} {q : Request} (oError : JSError)
    (hq : w.requests[p]? = some q) (hstale : q.aElements ≠ w.oCache.aElements.id) :
    (reject w p oError).oCache = w.oCache := by
  rcases reject_cases w p oError with h | ⟨q2, oCache, h1, _, _, _, _, h6, h⟩
  · rw [h]
  · rw [hq] at h1
    simp only [Option.some.injEq] at h1
    subst h1
    rw [h]
    exact h6 hstale

theorem request_before_refresh_is_stale {w1 w2 : World} (hs : Sound w1)
    (hl : Later (step w1 Event.refresh) w2) {p : Nat} {q : Request}
    (hq : w1.requests[p]? = some q) :
    w2.requests[p]? = some q ∧ q.aElements ≠ w2.oCache.aElements.id := by
  refine ⟨later_request (Later.trans (step_later w1 Event.refresh) hl) hq, ?_⟩
  have h1 := hs.ids q (List.getElem?_mem hq)
  have h2 := hl.id
  simp only [step, CollectionCache.refresh] at h2
  omega

/-- C8: a response, success or failure, for a request that was issued before a
refresh leaves the whole cache object as it is (the array and its elements,
`sContext`, `iMaxElements`), whatever happened between the refresh and the
response; in particular what reads after the refresh have stored stays. -/
theorem stale_response_leaves_cache_unchanged (oCache : CollectionCache)
    (before after : List Event) (p : Nat) (oResult : ODataResponse) (oError : JSError)
    (hp : p < (run (World.init oCache) before).requests.length) :
    (step (run (step (run (World.init oCache) before) Event.refresh) after)
      (Event.respond p oResult)).oCache =
      (run (step (run (World.init oCache) before) Event.refresh) after).oCache ∧
    (step (run (step (run (World.init oCache) before) Event.refresh) after)
      (Event.reject p oError)).oCache =
      (run (step (run (World.init oCache) before) Event.refresh) after).oCache := by
  have hs := run_sound before _ (sound_init oCache)
  have hq : (run (World.init oCache) before).requests[p]? =
      some ((run (World.init oCache) before).requests[p]) := List.getElem?_eq_getElem hp
  obtain ⟨h1, h2⟩ := request_before_refresh_is_stale hs (run_later after _) hq
  exact ⟨(stale_respond oResult h1 h2).1, stale_reject oError h1 h2⟩

theorem stale_response_leaves_cache_unchanged_witness :
    0 < (run (World.init (CollectionCache.create 0 "/~/Employees" ""))
      [Event.read 0 10]).requests.length ∧
    (step (run (step (run (World.init (CollectionCache.create 0 "/~/Employees" ""))
        [Event.read 0 10]) Event.refresh) [Event.read 0 10, Event.respond 1 ⟨none, ["a", "b"]⟩])
      (Event.respond 0 ⟨none, ["x", "y", "z"]⟩)).oCache =
      (run (step (run (World.init (CollectionCache.create 0 "/~/Employees" ""))
        [Event.read 0 10]) Event.refresh)
        [Event.read 0 10, Event.respond 1 ⟨none, ["a", "b"]⟩]).oCache ∧
    (step (run (step (run (World.init (CollectionCache.create 0 "/~/Employees" ""))
        [Event.read 0 10]) Event.refresh) [Event.read 0 10, Event.respond 1 ⟨none, ["a", "b"]⟩])
      (Event.reject 0 ⟨"timeout", false⟩)).oCache =
      (run (step (run (World.init (CollectionCache.create 0 "/~/Employees" ""))
        [Event.read 0 10]) Event.refresh)
        [Event.read 0 10, Event.respond 1 ⟨none, ["a", "b"]⟩]).oCache :=
  ⟨by decide, stale_response_leaves_cache_unchanged (CollectionCache.create 0 "/~/Employees" "")
    [Event.read 0 10] [Event.read 0 10, Event.respond 1 ⟨none, ["a", "b"]⟩] 0
    ⟨none, ["x", "y", "z"]⟩ ⟨"timeout", false⟩ (by decide)⟩

/-! ## Refresh -/

theorem clippedEnd_unknown (oCache : CollectionCache) (iIndex iLength : Int)
    (h : oCache.iMaxElements = -1) : clippedEnd oCache iIndex iLength = iIndex + iLength := by
  have hn : ¬ (oCache.iMaxElements ≥ 0 ∧ iIndex + iLength > oCache.iMaxElements) := by omega
  simp only [clippedEnd, hn, if_false]

theorem elementAt_nil (k : Nat) : elementAt [] k = Slot.empty := by
  simp [elementAt]

theorem read_after_refresh (w : World) (iIndex iLength : Nat) (hlen : 0 < iLength) :
    ∃ w1 q, CollectionCache.read (step w Event.refresh) (iIndex : Int) (iLength : Int) =
        Except.ok w1 ∧
      w1.requests = w.requests ++ [q] ∧ q.iStart = iIndex ∧ q.iEnd = iIndex + iLength ∧
      q.aElements = w.oCache.aElements.id + 1 := by
  obtain ⟨w1, new, hr, hd⟩ := read_done (step w Event.refresh) iIndex iLength
  have hc : clippedEnd (step w Event.refresh).oCache (iIndex : Int) (iLength : Int) =
      ((iIndex + iLength : Nat) : Int) := by
    rw [clippedEnd_unknown _ _ _ rfl]
    omega
  rw [hc, Int.toNat_ofNat] at hd
  obtain ⟨q, hq, h1, h2⟩ := readDone_all_empty hd (by omega)
    (fun k _ _ => by simp [step, CollectionCache.refresh, elementAt_nil])
  subst hq
  refine ⟨w1, q, hr, hd.requests, h1, h2, ?_⟩
  exact (hd.issued q (List.mem_singleton.2 rfl)).1

/-- C10: `refresh()`, in any world a created cache can get into, sets `sContext` to
undefined and `iMaxElements` to -1, replaces `aElements` by a new empty array that
is neither the previous one nor one a logged request has captured, and keeps the
URL and the requestor; the object then equals the freshly constructed one up to
the identity of the empty array, and a following `read(iIndex, iLength)` with
`iLength > 0` issues exactly one request, for `[iIndex, iIndex + iLength)`. -/
theorem refresh_resets_to_construction_state (oRequestor : Nat) (sUrl sQuery : String)
    (events : List Event) (iIndex iLength : Nat) (hlen : 0 < iLength) :
    ((run (World.init (CollectionCache.create oRequestor sUrl sQuery))
        events).oCache.refresh.sContext = none ∧
      (run (World.init (CollectionCache.create oRequestor sUrl sQuery))
        events).oCache.refresh.iMaxElements = -1 ∧
      (run (World.init (CollectionCache.create oRequestor sUrl sQuery))
        events).oCache.refresh.aElements.items = [] ∧
      (run (World.init (CollectionCache.create oRequestor sUrl sQuery))
        events).oCache.refresh.sUrl =
        (run (World.init (CollectionCache.create oRequestor sUrl sQuery)) events).oCache.sUrl ∧
      (run (World.init (CollectionCache.create oRequestor sUrl sQuery))
        events).oCache.refresh.oRequestor =
        (run (World.init (CollectionCache.create oRequestor sUrl sQuery))
          events).oCache.oRequestor) ∧
    (run (World.init (CollectionCache.create oRequestor sUrl sQuery)) events).oCache.refresh =
      { CollectionCache.create oRequestor sUrl sQuery with
        aElements := ⟨(run (World.init (CollectionCache.create oRequestor sUrl sQuery))
          events).oCache.aElements.id + 1, []⟩ } ∧
    (run (World.init (CollectionCache.create oRequestor sUrl sQuery))
      events).oCache.refresh.aElements.id ≠
      (run (World.init (CollectionCache.create oRequestor sUrl sQuery))
        events).oCache.aElements.id ∧
    (∀ q ∈ (run (World.init (CollectionCache.create oRequestor sUrl sQuery)) events).requests,
      q.aElements ≠ (run (World.init (CollectionCache.create oRequestor sUrl sQuery))
        events).oCache.refresh.aElements.id) ∧
    ∃ w1 q, CollectionCache.read
        (step (run (World.init (CollectionCache.create oRequestor sUrl sQuery)) events)
          Event.refresh) (iIndex : Int) (iLength : Int) = Except.ok w1 ∧
      w1.requests =
        (run (World.init (CollectionCache.create oRequestor sUrl sQuery)) events).requests ++ [q] ∧
      q.iStart = iIndex ∧ q.iEnd = iIndex + iLength := by
  have hl := run_later events (World.init (CollectionCache.create oRequestor sUrl sQuery))
  have hs := run_sound events _ (sound_init (CollectionCache.create oRequestor sUrl sQuery))
  refine ⟨⟨rfl, rfl, rfl, rfl, rfl⟩, ?_, ?_, ?_, ?_⟩
  · have h1 : (run (World.init (CollectionCache.create oRequestor sUrl sQuery))
        events).oCache.sUrl = (CollectionCache.create oRequestor sUrl sQuery).sUrl := hl.sUrl
    have h2 : (run (World.init (CollectionCache.create oRequestor sUrl sQuery))
        events).oCache.oRequestor = (CollectionCache.create oRequestor sUrl sQuery).oRequestor :=
      hl.oRequestor
    simp only [CollectionCache.refresh, h1, h2]
    rfl
  · simp [CollectionCache.refresh]
  · intro q hq
    have := hs.ids q hq
    simp only [CollectionCache.refresh]
    omega
  · obtain ⟨w1, q, h1, h2, h3, h4, _⟩ := read_after_refresh
      (run (World.init (CollectionCache.create oRequestor sUrl sQuery)) events) iIndex iLength hlen
    exact ⟨w1, q, h1, h2, h3, h4⟩

theorem refresh_resets_to_construction_state_witness :
    0 < 10 ∧
    (run (World.init (CollectionCache.create 0 "/~/Employees" ""))
      [Event.read 0 20, Event.respond 0 ⟨some "$metadata#TEAMS", ["a", "b"]⟩]).oCache.refresh =
      { CollectionCache.create 0 "/~/Employees" "" with
        aElements := ⟨(run (World.init (CollectionCache.create 0 "/~/Employees" ""))
          [Event.read 0 20,
            Event.respond 0 ⟨some "$metadata#TEAMS", ["a", "b"]⟩]).oCache.aElements.id + 1, []⟩ } :=
  ⟨by decide, (refresh_resets_to_construction_state 0 "/~/Employees" ""
    [Event.read 0 20, Event.respond 0 ⟨some "$metadata#TEAMS", ["a", "b"]⟩] 0 10
    (by decide)).2.1⟩

/-! ## Reads in one synchronous turn -/

theorem readDone_covered_iff {w0 w : World} {iIndex iEnd : Nat} {new : List Request}
    (hd : ReadDone w0 iIndex iEnd w new) (k : Nat) :
    (∃ q ∈ new, q.covers k) ↔
      (elementAt w0.oCache.aElements.items k = Slot.empty ∧ iIndex ≤ k ∧ k < iEnd) := by
  constructor
  · rintro ⟨q, hq, hc⟩
    obtain ⟨m1, m2, m3, m4, _, _⟩ := hd.runs q hq
    unfold Request.covers at hc
    exact ⟨m4 k hc.1 hc.2, by omega, by omega⟩
  · rintro ⟨h1, h2, h3⟩
    exact hd.covered k h2 h3 h1

theorem readDone_nonempty_iff {w0 w : World} {iIndex iEnd : Nat} {new : List Request}
    (hd : ReadDone w0 iIndex iEnd w new) (k : Nat) :
    elementAt w.oCache.aElements.items k ≠ Slot.empty ↔
      (elementAt w0.oCache.aElements.items k ≠ Slot.empty ∨ (iIndex ≤ k ∧ k < iEnd)) := by
  by_cases hc : ∃ q ∈ new, q.covers k
  · obtain ⟨q, hq, hqc⟩ := hc
    obtain ⟨j, hj⟩ := List.mem_iff_getElem?.1 hq
    have h1 := hd.filled j q hj k hqc
    have h2 := (readDone_covered_iff hd k).1 ⟨q, hq, hqc⟩
    rw [h1]
    simp [h2.2]
  · have h1 := hd.kept k (fun q hq hqc => hc ⟨q, hq, hqc⟩)
    rw [h1]
    constructor
    · intro h; exact Or.inl h
    · rintro (h | h)
      · exact h
      · intro he
        exact hc ((readDone_covered_iff hd k).2 ⟨he, h⟩)

theorem eq_of_sorted_of_mem_iff {l1 l2 : List Nat} (h1 : l1.Pairwise (· < ·))
    (h2 : l2.Pairwise (· < ·)) (h : ∀ k, k ∈ l1 ↔ k ∈ l2) : l1 = l2 := by
  have n1 : l1.Nodup := h1.imp (fun hab => Nat.ne_of_lt hab)
  have n2 : l2.Nodup := h2.imp (fun hab => Nat.ne_of_lt hab)
  exact List.eq_of_perm_of_sorted ((List.perm_ext_iff_of_nodup n1 n2).2 h) h1 h2

theorem readDone_count {w0 w : World} {iIndex iLength : Nat} {new : List Request}
    (hd : ReadDone w0 iIndex (iIndex + iLength) w new) (earlier : List (Nat × Nat))
    (hcov : ∀ k, elementAt w0.oCache.aElements.items k ≠ Slot.empty ↔ inRanges earlier k = true) :
    new.length = missingRuns earlier (iIndex, iLength) := by
  have hempty : ∀ k, elementAt w0.oCache.aElements.items k = Slot.empty ↔
      inRanges earlier k = false := by
    intro k
    have := hcov k
    constructor
    · intro h
      by_contra hne
      exact (this.2 (by simpa using hne)) h
    · intro h
      by_contra hne
      have := this.1 hne
      simp [h] at this
  have hl1 : (new.map Request.iStart).Pairwise (· < ·) := by
    rw [List.pairwise_map]
    refine hd.sorted.imp_of_mem ?_
    intro a b ha _ hab
    obtain ⟨_, m2, _⟩ := hd.runs a ha
    omega
  have hl2 : (((List.range iLength).filter (fun d =>
      !inRanges earlier (iIndex + d) && (d == 0 || inRanges earlier (iIndex + d - 1)))).map
        (fun d => iIndex + d)).Pairwise (· < ·) := by
    refine List.Pairwise.map _ ?_ ((List.pairwise_lt_range iLength).filter _)
    intro a b hab
    omega
  have hmem : ∀ k, k ∈ new.map Request.iStart ↔
      k ∈ ((List.range iLength).filter (fun d =>
        !inRanges earlier (iIndex + d) && (d == 0 || inRanges earlier (iIndex + d - 1)))).map
          (fun d => iIndex + d) := by
    intro k
    simp only [List.mem_map, List.mem_filter, List.mem_range, Bool.and_eq_true,
      Bool.not_eq_eq_eq_not, Bool.not_true, Bool.or_eq_true, beq_iff_eq]
    constructor
    · rintro ⟨q, hq, rfl⟩
      obtain ⟨m1, m2, m3, m4, m5, _⟩ := hd.runs q hq
      refine ⟨q.iStart - iIndex, ⟨by omega, ?_, ?_⟩, by omega⟩
      · have e : iIndex + (q.iStart - iIndex) = q.iStart := by omega
        rw [e]
        exact (hempty _).1 (m4 _ (Nat.le_refl _) m2)
      · rcases m5 with h | h
        · left; omega
        · right
          have e : iIndex + (q.iStart - iIndex) = q.iStart := by omega
          rw [e]
          exact (hcov _).1 h
    · rintro ⟨d, ⟨hd1, hd2, hd3⟩, rfl⟩
      obtain ⟨q, hq, hqc⟩ := hd.covered (iIndex + d) (by omega) (by omega) ((hempty _).2 hd2)
      refine ⟨q, hq, ?_⟩
      obtain ⟨m1, m2, m3, m4, m5, _⟩ := hd.runs q hq
      unfold Request.covers at hqc
      by_contra hne
      have hlt : q.iStart < iIndex + d := by omega
      rcases hd3 with h | h
      · omega
      · have := (hempty _).1 (m4 (iIndex + d - 1) (by omega) (by omega))
        rw [h] at this
        exact absurd this (by simp)
  have := congrArg List.length (eq_of_sorted_of_mem_iff hl1 hl2 hmem)
  simp only [List.length_map] at this
  rw [this]
  rfl

theorem inRanges_append (earlier : List (Nat × Nat)) (r : Nat × Nat) (k : Nat) :
    inRanges (earlier ++ [r]) k = (inRanges earlier k || (decide (r.1 ≤ k) && decide (k < r.1 + r.2))) := by
  simp [inRanges, List.any_append]

theorem inRanges_cons (r : Nat × Nat) (reads : List (Nat × Nat)) (k : Nat) :
    inRanges (r :: reads) k = ((decide (r.1 ≤ k) && decide (k < r.1 + r.2)) || inRanges reads k) := by
  simp [inRanges]

theorem inRanges_iff (reads : List (Nat × Nat)) (k : Nat) :
    inRanges reads k = true ↔ ∃ r ∈ reads, r.1 ≤ k ∧ k < r.1 + r.2 := by
  simp [inRanges]

theorem reads_requests (reads : List (Nat × Nat)) :
    ∀ (earlier : List (Nat × Nat)) (w : World), w.oCache.iMaxElements = -1 →
      (∀ k, elementAt w.oCache.aElements.items k ≠ Slot.empty ↔ inRanges earlier k = true) →
      ∃ new, (run w (reads.map readEvent)).requests = w.requests ++ new ∧
        List.Pairwise (fun a b => ∀ k, ¬ (a.covers k ∧ b.covers k)) new ∧
        (∀ k, (∃ q ∈ new, q.covers k) ↔ (inRanges earlier k = false ∧ inRanges reads k = true)) ∧
        new.length = missingRunsTotal earlier reads := by
  induction reads with
  | nil =>
    intro earlier w _ _
    exact ⟨[], by simp [run], List.Pairwise.nil, by simp [inRanges], rfl⟩
  | cons r reads ih =>
    intro earlier w hmax hcov
    obtain ⟨w1, new1, hr, hd⟩ := read_done w r.1 r.2
    have hc : clippedEnd w.oCache (r.1 : Int) (r.2 : Int) = ((r.1 + r.2 : Nat) : Int) := by
      rw [clippedEnd_unknown _ _ _ hmax]
      omega
    rw [hc, Int.toNat_ofNat] at hd
    have hstep : step w (readEvent r) = w1 := by
      simp only [step, readEvent, hr]
    have hmax1 : w1.oCache.iMaxElements = -1 := by rw [hd.cache]; exact hmax
    have hcov1 : ∀ k, elementAt w1.oCache.aElements.items k ≠ Slot.empty ↔
        inRanges (earlier ++ [r]) k = true := by
      intro k
      rw [readDone_nonempty_iff hd k, hcov k, inRanges_append]
      simp
    obtain ⟨new2, h1, h2, h3, h4⟩ := ih (earlier ++ [r]) w1 hmax1 hcov1
    have hempty : ∀ k, elementAt w.oCache.aElements.items k = Slot.empty ↔
        inRanges earlier k = false := by
      intro k
      have := hcov k
      constructor
      · intro h
        by_contra hne
        exact (this.2 (by simpa using hne)) h
      · intro h
        by_contra hne
        have := this.1 hne
        simp [h] at this
    refine ⟨new1 ++ new2, ?_, ?_, ?_, ?_⟩
    · simp only [List.map_cons, run, List.foldl_cons] at h1 ⊢
      rw [hstep, h1, hd.requests, List.append_assoc]
    · rw [List.pairwise_append]
      refine ⟨?_, h2, ?_⟩
      · refine hd.sorted.imp_of_mem ?_
        intro a b ha hb hab k hk
        unfold Request.covers at hk
        omega
      · intro a ha b hb k hk
        have ha2 := (readDone_covered_iff hd k).1 ⟨a, ha, hk.1⟩
        have hb2 := (h3 k).1 ⟨b, hb, hk.2⟩
        rw [inRanges_append] at hb2
        have : decide (r.1 ≤ k) = true ∧ decide (k < r.1 + r.2) = true := by
          simp [ha2.2.1, ha2.2.2]
        simp [this.1, this.2] at hb2
    · intro k
      rw [inRanges_cons]
      constructor
      · rintro ⟨q, hq, hqc⟩
        rcases List.mem_append.1 hq with hq | hq
        · have ha2 := (readDone_covered_iff hd k).1 ⟨q, hq, hqc⟩
          refine ⟨(hempty k).1 ha2.1, ?_⟩
          simp [ha2.2.1, ha2.2.2]
        · have hb2 := (h3 k).1 ⟨q, hq, hqc⟩
          rw [inRanges_append] at hb2
          simp only [Bool.or_eq_false_iff] at hb2
          exact ⟨hb2.1.1, by simp [hb2.2]⟩
      · rintro ⟨he, hin⟩
        by_cases hk : r.1 ≤ k ∧ k < r.1 + r.2
        · obtain ⟨q, hq, hqc⟩ :=
            (readDone_covered_iff hd k).2 ⟨(hempty k).2 he, hk.1, hk.2⟩
          exact ⟨q, List.mem_append_left _ hq, hqc⟩
        · have hk2 : (decide (r.1 ≤ k) && decide (k < r.1 + r.2)) = false := by
            simpa using hk
          rw [hk2, Bool.false_or] at hin
          obtain ⟨q, hq, hqc⟩ := (h3 k).2 ⟨by rw [inRanges_append, he, hk2]; rfl, hin⟩
          exact ⟨q, List.mem_append_right _ hq, hqc⟩
    · rw [List.length_append, h4, readDone_count hd earlier hcov]
      rfl

theorem countP_le_one_of_disjoint (new : List Request) (k : Nat)
    (h : List.Pairwise (fun a b => ∀ k, ¬ (a.covers k ∧ b.covers k)) new) :
    new.countP (fun q => decide (q.covers k)) ≤ 1 := by
  induction new with
  | nil => simp
  | cons q rest ih =>
    rw [List.pairwise_cons] at h
    have ih2 := ih h.2
    by_cases hq : q.covers k
    · have hz : rest.countP (fun q => decide (q.covers k)) = 0 := by
        rw [List.countP_eq_zero]
        intro b hb
        have := h.1 b hb k
        simp only [decide_eq_true_eq]
        intro hbk
        exact this ⟨hq, hbk⟩
      simp [List.countP_cons, hq, hz]
    · simp [List.countP_cons, hq, ih2]

/-- C2: starting from a cache whose array is empty and whose `iMaxElements` is
unknown (freshly created or refreshed), for every sequence of reads with no other
event in between, the ranges of the requests issued are pairwise disjoint, an index
is in the range of a request exactly if it is in the range of a read, no index is
in the range of two requests, and the number of requests is the number of missing
sub-ranges of the reads, each read counted against the reads before it. -/
theorem reads_in_one_turn_request_each_index_once (w : World) (reads : List (Nat × Nat))
    (hempty : w.oCache.aElements.items = []) (hmax : w.oCache.iMaxElements = -1) :
    ∃ new, (run w (reads.map readEvent)).requests = w.requests ++ new ∧
      List.Pairwise (fun a b => ∀ k, ¬ (a.covers k ∧ b.covers k)) new ∧
      (∀ k, (∃ q ∈ new, q.covers k) ↔ ∃ r ∈ reads, r.1 ≤ k ∧ k < r.1 + r.2) ∧
      (∀ k, new.countP (fun q => decide (q.covers k)) ≤ 1) ∧
      new.length = missingRunsTotal [] reads := by
  obtain ⟨new, h1, h2, h3, h4⟩ := reads_requests reads [] w hmax
    (fun k => by rw [hempty]; simp [elementAt_nil, inRanges])
  refine ⟨new, h1, h2, ?_, fun k => countP_le_one_of_disjoint new k h2, h4⟩
  intro k
  rw [h3 k, ← inRanges_iff]
  simp [inRanges]

theorem reads_in_one_turn_request_each_index_once_witness :
    (World.init (CollectionCache.create 0 "/~/Employees" "")).oCache.aElements.items = [] ∧
    (World.init (CollectionCache.create 0 "/~/Employees" "")).oCache.iMaxElements = -1 ∧
    missingRunsTotal [] [(7, 2), (5, 6)] = 3 ∧
    ∃ new, (run (World.init (CollectionCache.create 0 "/~/Employees" ""))
        ([(7, 2), (5, 6)].map readEvent)).requests =
        (World.init (CollectionCache.create 0 "/~/Employees" "")).requests ++ new ∧
      List.Pairwise (fun a b => ∀ k, ¬ (a.covers k ∧ b.covers k)) new ∧
      (∀ k, (∃ q ∈ new, q.covers k) ↔ ∃ r ∈ [(7, 2), (5, 6)], r.1 ≤ k ∧ k < r.1 + r.2) ∧
      (∀ k, new.countP (fun q => decide (q.covers k)) ≤ 1) ∧
      new.length = missingRunsTotal [] [(7, 2), (5, 6)] :=
  ⟨rfl, rfl, by decide, reads_in_one_turn_request_each_index_once
    (World.init (CollectionCache.create 0 "/~/Employees" "")) [(7, 2), (5, 6)] rfl rfl⟩

/-! ## A short response -/

theorem elementAt_map_record (value : List Record) (k : Nat) (h : k < value.length) :
    elementAt (value.map Slot.record) k = Slot.record value[k] := by
  simp [elementAt_eq, List.getElem?_map, List.getElem?_eq_getElem h]

theorem slice_all (a : List Slot) : slice a 0 a.length = a := by
  simp [slice]

theorem allFulfilled_records (settled : List (Nat × Outcome)) (value : List Record) :
    allFulfilled settled (value.map Slot.record) = true := by
  simp [allFulfilled, List.all_map]

theorem firstRejection_records (settled : List (Nat × Outcome)) (value : List Record) :
    firstRejection settled (value.map Slot.record) = none := by
  unfold firstRejection
  rw [List.findSome?_eq_none_iff]
  intro s _
  cases s.2 with
  | fulfilled => rfl
  | rejected e => simp

theorem short_read_scenario (oRequestor : Nat) (sUrl sQuery : String) (iLength : Nat)
    (oResult : ODataResponse) (hshort : oResult.value.length < iLength) :
    (run (World.init (CollectionCache.create oRequestor sUrl sQuery))
      [Event.read 0 iLength, Event.respond 0 oResult]).oCache.iMaxElements =
        (oResult.value.length : Int) ∧
    (run (World.init (CollectionCache.create oRequestor sUrl sQuery))
      [Event.read 0 iLength, Event.respond 0 oResult]).requests.length = 1 ∧
    (run (World.init (CollectionCache.create oRequestor sUrl sQuery))
      [Event.read 0 iLength, Event.respond 0 oResult, Event.read 0 iLength]).requests.length = 1 ∧
    ((run (World.init (CollectionCache.create oRequestor sUrl sQuery))
      [Event.read 0 iLength, Event.respond 0 oResult, Event.read 0 iLength,
        Event.settle 1]).reads[1]?).map (fun rd => rd.outcome) =
      some (some (Except.ok ⟨oResult.context, oResult.value.map Slot.record⟩)) := by
  -- the first read issues one request for the whole range
  obtain ⟨w1, new, hr, hd⟩ :=
    read_done (World.init (CollectionCache.create oRequestor sUrl sQuery)) 0 iLength
  have hc : clippedEnd (World.init (CollectionCache.create oRequestor sUrl sQuery)).oCache
      ((0 : Nat) : Int) (iLength : Int) = (iLength : Int) := by
    rw [clippedEnd_unknown _ _ _ rfl]
    omega
  rw [hc, Int.toNat_ofNat] at hd
  obtain ⟨q, hq, hq1, hq2⟩ := readDone_all_empty hd (by omega)
    (fun k _ _ => by simp [World.init, CollectionCache.create, elementAt_nil])
  subst hq
  obtain ⟨qa, qs, qe, qu, qm⟩ := q
  simp only at hq1 hq2
  have hq2s : iLength = qe := hq2.symm
  subst hq1
  subst hq2s
  have hreq1 : w1.requests = [⟨qa, 0, iLength, qu, qm⟩] := by rw [hd.requests]; rfl
  have hset1 : w1.settled = [] := hd.settled
  have hid : qa = w1.oCache.aElements.id := by
    have := (hd.issued _ (List.mem_singleton.2 rfl)).1
    simp only at this
    rw [this, hd.cache]
  have hlen1 : w1.oCache.aElements.items.length = iLength := by
    rw [hd.length]
    simp [World.init, CollectionCache.create]
  have hstep1 : step (World.init (CollectionCache.create oRequestor sUrl sQuery))
      (Event.read 0 iLength) = w1 := by
    have := hr
    simp only [Nat.cast_zero] at this
    simp only [step, this]
  -- the short response
  have hq0 : w1.requests[0]? = some ⟨qa, 0, iLength, qu, qm⟩ := by rw [hreq1]; rfl
  have hfl : w1.isSettled 0 = false := by simp [World.isSettled, hset1]
  have hstep2 : step w1 (Event.respond 0 oResult) =
      { w1 with
        oCache := applyResult w1.oCache ⟨qa, 0, iLength, qu, qm⟩ oResult
        settled := w1.settled ++ [(0, Outcome.fulfilled)] } :=
    respond_same_store oResult hq0 hfl hid
  have hlt : ((oResult.value.length : Nat) : Int) < (iLength : Int) - ((0 : Nat) : Int) := by
    omega
  have hmax2 : (applyResult w1.oCache ⟨qa, 0, iLength, qu, qm⟩ oResult).iMaxElements = (oResult.value.length : Int) := by
    simp only [applyResult, hlt, if_true, Nat.zero_add]
  have hctx2 : (applyResult w1.oCache ⟨qa, 0, iLength, qu, qm⟩ oResult).sContext = oResult.context := by
    simp only [applyResult, hlt, if_true]
  have hitems2 : (applyResult w1.oCache ⟨qa, 0, iLength, qu, qm⟩ oResult).aElements.items =
      oResult.value.map Slot.record := by
    simp only [applyResult, hlt, if_true, Nat.zero_add]
    apply eq_of_elementAt
    · rw [length_storeLoop, length_splice, hlen1, List.length_map]
      have e : ((iLength : Int) - ((0 : Nat) : Int) - (oResult.value.length : Int)).toNat =
          iLength - oResult.value.length := by omega
      rw [e]
      split
      · rename_i hnil
        simp [hnil]
      · simp only [Nat.zero_add]
        omega
    · intro k hk
      rw [length_storeLoop, length_splice, hlen1] at hk
      have e : ((iLength : Int) - ((0 : Nat) : Int) - (oResult.value.length : Int)).toNat =
          iLength - oResult.value.length := by omega
      rw [e] at hk
      have hk2 : k < oResult.value.length := by
        split at hk
        · rename_i hnil
          simp [hnil] at hk
        · simp only [Nat.zero_add] at hk
          omega
      rw [elementAt_storeLoop, elementAt_map_record _ _ hk2]
      have h1 : 0 + 0 ≤ k ∧ k < 0 + 0 + oResult.value.length := by omega
      simp only [h1, and_self, if_true, Nat.add_zero, Nat.sub_zero,
        List.getElem?_eq_getElem hk2]
  -- the second read is clipped and finds no empty slot
  obtain ⟨w3, new3, hr3, hd3⟩ := read_done
    { w1 with
      oCache := applyResult w1.oCache ⟨qa, 0, iLength, qu, qm⟩ oResult
      settled := w1.settled ++ [(0, Outcome.fulfilled)] } 0 iLength
  have hc3 : clippedEnd (applyResult w1.oCache ⟨qa, 0, iLength, qu, qm⟩ oResult) ((0 : Nat) : Int) (iLength : Int) =
      (oResult.value.length : Int) := by
    have hn : (applyResult w1.oCache ⟨qa, 0, iLength, qu, qm⟩ oResult).iMaxElements ≥ 0 ∧
        ((0 : Nat) : Int) + (iLength : Int) > (applyResult w1.oCache ⟨qa, 0, iLength, qu, qm⟩ oResult).iMaxElements := by
      rw [hmax2]; omega
    simp only [clippedEnd]
    rw [if_pos hn, hmax2]
  simp only [hc3, Int.toNat_ofNat] at hd3
  obtain ⟨hnew3, hcache3⟩ := readDone_none hd3 (by
    intro k _ hk
    simp only [hitems2]
    rw [elementAt_map_record _ _ hk]
    simp)
  subst hnew3
  have hstep3 : step { w1 with
      oCache := applyResult w1.oCache ⟨qa, 0, iLength, qu, qm⟩ oResult
      settled := w1.settled ++ [(0, Outcome.fulfilled)] } (Event.read 0 iLength) = w3 := by
    have := hr3
    simp only [Nat.cast_zero] at this
    simp only [step, this]
  have hreq3 : w3.requests = [⟨qa, 0, iLength, qu, qm⟩] := by rw [hd3.requests]; simp [hreq1]
  have hreads3 : w3.reads = w1.reads ++
      [⟨0, oResult.value.length, oResult.value.map Slot.record, none⟩] := by
    rw [hd3.reads, hcache3]
    simp only [hitems2]
    have := slice_all (oResult.value.map Slot.record)
    rw [List.length_map] at this
    rw [this]
  have hreads1 : w1.reads = [⟨0, iLength, slice w1.oCache.aElements.items 0 iLength, none⟩] := by
    rw [hd.reads]; rfl
  refine ⟨?_, ?_, ?_, ?_⟩
  · simp only [run, List.foldl_cons, List.foldl_nil, hstep1, hstep2, hmax2]
  · simp only [run, List.foldl_cons, List.foldl_nil, hstep1, hstep2, hreq1, List.length_singleton]
  · simp only [run, List.foldl_cons, List.foldl_nil, hstep1, hstep2, hstep3, hreq3,
      List.length_singleton]
  · simp only [run, List.foldl_cons, List.foldl_nil, hstep1, hstep2, hstep3]
    have hget : w3.reads[1]? =
        some ⟨0, oResult.value.length, oResult.value.map Slot.record, none⟩ := by
      rw [hreads3, hreads1]; rfl
    have hsettle : step w3 (Event.settle 1) =
        { w3 with
          reads := w3.reads.set 1
            ⟨0, oResult.value.length, oResult.value.map Slot.record,
              some (Except.ok ⟨w3.oCache.sContext,
                slice w3.oCache.aElements.items 0 oResult.value.length⟩)⟩ } := by
      simp only [step, settle, hget, firstRejection_records, allFulfilled_records]
      rfl
    rw [hsettle]
    have hl : 1 < w3.reads.length := by rw [hreads3, hreads1]; simp
    simp only [List.getElem?_set, hl, if_true, Option.map_some']
    rw [hcache3]
    simp only [hctx2, hitems2]
    have := slice_all (oResult.value.map Slot.record)
    rw [List.length_map] at this
    rw [this]

/-- C6: when the requestor answers request `p`, starting at `q.iStart`, with fewer
records than requested and `aElements` is still the array the request captured,
`iMaxElements` becomes `q.iStart` plus the number of records and the records
occupy the slots from `q.iStart` on; and on a fresh cache, after `read(0, 26)` is
answered with 10 records, `iMaxElements` is 10 and a later `read(0, 26)` issues no
request and resolves to exactly those 10 records. -/
theorem short_response_sets_iMaxElements (w : World) (p : Nat) (q : Request)
    (oResult : ODataResponse)
    (hq : w.requests[p]? = some q) (hflight : w.isSettled p = false)
    (hsame : q.aElements = w.oCache.aElements.id)
    (hshort : (oResult.value.length : Int) < (q.iEnd : Int) - (q.iStart : Int)) :
    ((respond w p oResult).oCache.iMaxElements = ((q.iStart + oResult.value.length : Nat) : Int) ∧
      ∀ k, k < oResult.value.length → ∃ r, oResult.value[k]? = some r ∧
        elementAt (respond w p oResult).oCache.aElements.items (q.iStart + k) = Slot.record r) ∧
    ∀ (oRequestor : Nat) (sUrl sQuery : String) (oResult10 : ODataResponse),
      oResult10.value.length = 10 →
      (run (World.init (CollectionCache.create oRequestor sUrl sQuery))
        [Event.read 0 26, Event.respond 0 oResult10]).oCache.iMaxElements = 10 ∧
      (run (World.init (CollectionCache.create oRequestor sUrl sQuery))
        [Event.read 0 26, Event.respond 0 oResult10]).requests.length = 1 ∧
      (run (World.init (CollectionCache.create oRequestor sUrl sQuery))
        [Event.read 0 26, Event.respond 0 oResult10, Event.read 0 26]).requests.length = 1 ∧
      ((run (World.init (CollectionCache.create oRequestor sUrl sQuery))
        [Event.read 0 26, Event.respond 0 oResult10, Event.read 0 26,
          Event.settle 1]).reads[1]?).map (fun rd => rd.outcome) =
        some (some (Except.ok ⟨oResult10.context, oResult10.value.map Slot.record⟩)) := by
  refine ⟨respond_short_response_general w p q oResult hq hflight hsame hshort, ?_⟩
  intro oRequestor sUrl sQuery oResult10 h10
  have h := short_read_scenario oRequestor sUrl sQuery 26 oResult10 (by omega)
  rw [h10] at h
  exact h

theorem short_response_sets_iMaxElements_witness :
    (run (World.init (CollectionCache.create 0 "/~/Employees" "")) [Event.read 0 26]).requests[0]? =
      some ⟨0, 0, 26, "/~/Employees?$skip=0&$top=26", "GET"⟩ ∧
    (run (World.init (CollectionCache.create 0 "/~/Employees" ""))
      [Event.read 0 26]).isSettled 0 = false ∧
    (respond (run (World.init (CollectionCache.create 0 "/~/Employees" "")) [Event.read 0 26]) 0
      ⟨some "$metadata#TEAMS", ["a", "b", "c", "d", "e", "f", "g", "h", "i", "j"]⟩).oCache.iMaxElements =
        ((0 + 10 : Nat) : Int) :=
  ⟨by decide, by decide,
    (short_response_sets_iMaxElements
      (run (World.init (CollectionCache.create 0 "/~/Employees" "")) [Event.read 0 26]) 0
      ⟨0, 0, 26, "/~/Employees?$skip=0&$top=26", "GET"⟩
      ⟨some "$metadata#TEAMS", ["a", "b", "c", "d", "e", "f", "g", "h", "i", "j"]⟩
      (by decide) (by decide) (by decide) (by decide)).1.1⟩

/-! ## A refresh while a request is in flight -/

theorem settled_unique {settled : List (Nat × Outcome)} (hn : (settled.map Prod.fst).Nodup)
    {p : Nat} {o1 o2 : Outcome} (h1 : (p, o1) ∈ settled) (h2 : (p, o2) ∈ settled) : o1 = o2 := by
  induction settled with
  | nil => simp at h1
  | cons s rest ih =>
    simp only [List.map_cons, List.nodup_cons, List.mem_map, not_exists, not_and] at hn
    rcases List.mem_cons.1 h1 with e1 | m1
    · rcases List.mem_cons.1 h2 with e2 | m2
      · rw [← e2] at e1
        exact (Prod.mk.inj e1).2
      · exact absurd (by rw [← e1]) (hn.1 (p, o2) m2)
    · rcases List.mem_cons.1 h2 with e2 | m2
      · exact absurd (by rw [← e2]) (hn.1 (p, o1) m1)
      · exact ih hn.2 m1 m2

theorem mem_slice_of_elementAt {a : List Slot} {k iStart iEnd : Nat} {s : Slot}
    (h : elementAt a k = s) (hs : s ≠ Slot.empty) (h1 : iStart ≤ k) (h2 : k < iEnd) :
    s ∈ slice a iStart iEnd := by
  have hk : k < a.length := by
    by_contra hge
    rw [elementAt_eq, List.getElem?_eq_none (by omega)] at h
    exact hs h.symm
  rw [elementAt_eq, List.getElem?_eq_getElem hk] at h
  simp only [Option.getD_some] at h
  unfold slice
  rw [List.mem_iff_getElem?]
  refine ⟨k - iStart, ?_⟩
  rw [List.getElem?_drop, List.getElem?_take]
  have e : iStart + (k - iStart) = k := by omega
  simp only [e, h2, if_true, List.getElem?_eq_getElem hk, h]

theorem readDone_awaits {w0 w : World} {iIndex iEnd : Nat} {new : List Request}
    (hd : ReadDone w0 iIndex iEnd w new) {j : Nat} {q : Request} (hj : new[j]? = some q) :
    w.requests[w0.requests.length + j]? = some q ∧
    ∃ rd, w.reads[w0.reads.length]? = some rd ∧ rd.outcome = none ∧
      Slot.promise (w0.requests.length + j) ∈ rd.awaited := by
  constructor
  · rw [hd.requests, List.getElem?_append_right (by omega)]
    simpa using hj
  · refine ⟨⟨iIndex, iEnd, slice w.oCache.aElements.items iIndex iEnd, none⟩, ?_, rfl, ?_⟩
    · rw [hd.reads]
      simp
    · obtain ⟨m1, m2, m3, _, _, _⟩ := hd.runs q (List.getElem?_mem hj)
      exact mem_slice_of_elementAt (hd.filled j q hj q.iStart ⟨Nat.le_refl _, m2⟩) (by simp) m1
        (by omega)

theorem read_ok_done {w0 w1 : World} {iIndex iLength : Nat}
    (h : CollectionCache.read w0 (iIndex : Int) (iLength : Int) = Except.ok w1) :
    ∃ new, ReadDone w0 iIndex (clippedEnd w0.oCache (iIndex : Int) (iLength : Int)).toNat w1 new := by
  obtain ⟨w2, new, hr, hd⟩ := read_done w0 iIndex iLength
  rw [h] at hr
  simp only [Except.ok.injEq] at hr
  subst hr
  exact ⟨new, hd⟩

theorem canceled_in_flight {w0 w1 w2 w3 : World} {iIndex iLength p : Nat}
    (between after later : List Event) (oResult : ODataResponse) (hs : Sound w0)
    (h1 : CollectionCache.read w0 (iIndex : Int) (iLength : Int) = Except.ok w1)
    (hp1 : w0.requests.length ≤ p) (hp2 : p < w1.requests.length)
    (h2 : w2 = run (step (run w1 between) Event.refresh) after)
    (hflight : w2.isSettled p = false)
    (h3 : w3 = run (step w2 (Event.respond p oResult)) later) :
    Sound w3 ∧
    ∃ q rd more, w1.requests[p]? = some q ∧ w3.reads[w0.reads.length]? = some rd ∧
      Slot.promise p ∈ rd.awaited ∧
      w3.settled = w2.settled ++ (p, Outcome.rejected (canceledError q.sUrl)) :: more := by
  obtain ⟨new, hd⟩ := read_ok_done h1
  have hs1 : Sound w1 := readDone_sound hd hs
  have hsb : Sound (run w1 between) := run_sound between w1 hs1
  have hs2 : Sound w2 := by
    rw [h2]
    exact run_sound after _ (step_sound _ _ hsb)
  have hs3 : Sound w3 := by
    rw [h3]
    exact run_sound later _ (step_sound _ _ hs2)
  have hj : ∃ q, new[p - w0.requests.length]? = some q := by
    have : p - w0.requests.length < new.length := by
      have := congrArg List.length hd.requests
      rw [List.length_append] at this
      omega
    exact ⟨_, List.getElem?_eq_getElem this⟩
  obtain ⟨q, hq⟩ := hj
  obtain ⟨hq1, rd1, hrd1, _, hmem⟩ := readDone_awaits hd hq
  have e : w0.requests.length + (p - w0.requests.length) = p := by omega
  rw [e] at hq1 hmem
  have hqb : (run w1 between).requests[p]? = some q := later_request (run_later between w1) hq1
  have hl2 : Later (step (run w1 between) Event.refresh) w2 := by
    rw [h2]
    exact run_later after _
  obtain ⟨hq2, hstale⟩ := request_before_refresh_is_stale hsb hl2 hqb
  have hresp := (stale_respond oResult hq2 hstale).2 hflight
  have hl3 : Later (step w2 (Event.respond p oResult)) w3 := by
    rw [h3]
    exact run_later later _
  obtain ⟨more, hmore⟩ := hl3.settled
  have hset : w3.settled = w2.settled ++ (p, Outcome.rejected (canceledError q.sUrl)) :: more := by
    rw [hmore]
    simp only [step, hresp, List.append_assoc, List.singleton_append]
  have hl13 : Later w1 w3 :=
    Later.trans (run_later between w1)
      (Later.trans (step_later _ Event.refresh)
        (Later.trans hl2 (Later.trans (step_later w2 _) hl3)))
  obtain ⟨rd, hrd, _, _, haw, _⟩ := hl13.reads _ rd1 hrd1
  exact ⟨hs3, q, rd, more, hq1, hrd, by rw [haw]; exact hmem, hset⟩

/-- C9 (amended): when a read in a world a cache can get into has issued request
`p`, `refresh()` is called while `p` is in flight and the requestor then answers `p`
successfully, the promise of `p` is rejected with an error whose `canceled` is true
and whose message is "Refresh canceled processing of pending request: " followed by
the URL of `p`; the promise the read returned never resolves with data, it is
rejected as soon as its reaction runs, with the error of the awaited promise that
was rejected first, and that is the canceled error of `p` unless another awaited
promise had been rejected before the requestor answered `p`. -/
theorem refresh_cancels_read_in_flight (oCache : CollectionCache)
    (before between after later : List Event) (iIndex iLength p : Nat) (oResult : ODataResponse)
    (w1 w2 w3 : World)
    (h1 : CollectionCache.read (run (World.init oCache) before) (iIndex : Int) (iLength : Int) =
      Except.ok w1)
    (hp1 : (run (World.init oCache) before).requests.length ≤ p) (hp2 : p < w1.requests.length)
    (h2 : w2 = run (step (run w1 between) Event.refresh) after)
    (hflight : w2.isSettled p = false)
    (h3 : w3 = run (step w2 (Event.respond p oResult)) later) :
    ∃ q rd, w1.requests[p]? = some q ∧
      w3.reads[(run (World.init oCache) before).reads.length]? = some rd ∧
      (p, Outcome.rejected
        ⟨"Refresh canceled processing of pending request: " ++ q.sUrl, true⟩) ∈ w3.settled ∧
      (∀ v, rd.outcome ≠ some (Except.ok v)) ∧
      (∀ e, rd.outcome = some (Except.error e) →
        firstRejection w3.settled rd.awaited = some e) ∧
      ((∀ p2 e2, Slot.promise p2 ∈ rd.awaited → (p2, Outcome.rejected e2) ∉ w2.settled) →
        ∀ e, rd.outcome = some (Except.error e) →
          e = ⟨"Refresh canceled processing of pending request: " ++ q.sUrl, true⟩) ∧
      ∃ rd2 e, (step w3 (Event.settle (run (World.init oCache) before).reads.length)).reads[
          (run (World.init oCache) before).reads.length]? = some rd2 ∧
        rd2.outcome = some (Except.error e) := by
  have hs := run_sound before _ (sound_init oCache)
  obtain ⟨hs3, q, rd, more, hq, hrd, hmem, hset⟩ :=
    canceled_in_flight between after later oResult hs h1 hp1 hp2 h2 hflight h3
  have hin : (p, Outcome.rejected (canceledError q.sUrl)) ∈ w3.settled := by
    rw [hset]
    simp
  have hrdm : rd ∈ w3.reads := List.getElem?_mem hrd
  have hnever : ∀ v, rd.outcome ≠ some (Except.ok v) := by
    intro v hv
    have hf := hs3.resolved rd hrdm v hv p hmem
    have := settled_unique hs3.nodup hf hin
    simp at this
  refine ⟨q, rd, hq, hrd, hin, hnever, hs3.failed rd hrdm, ?_, ?_⟩
  · intro hfirst e he
    have hf := hs3.failed rd hrdm e he
    rw [hset, firstRejection_append_none (firstRejection_none hfirst)] at hf
    simp only [firstRejection, List.findSome?_cons, hmem, if_true, Option.some.injEq] at hf
    exact hf.symm
  · rcases settle_cases w3 (run (World.init oCache) before).reads.length with
      h | ⟨rd', e, h1', _, _, h⟩ | ⟨rd', h1', _, h3', _, _⟩
    · simp only [step, h]
      cases ho : rd.outcome with
      | none =>
        exfalso
        obtain ⟨e2, he2⟩ := firstRejection_isSome hmem hin
        simp [settle, hrd, ho, he2] at h
        have := congrArg (fun w => w.reads[(run (World.init oCache) before).reads.length]?) h
        simp only [List.getElem?_set, (List.getElem?_eq_some.1 hrd).1, if_true, hrd] at this
        simp only [Option.some.injEq] at this
        have := congrArg Read.outcome this
        simp [ho] at this
      | some o =>
        cases o with
        | ok v => exact absurd ho (hnever v)
        | error e => exact ⟨rd, e, hrd, ho⟩
    · rw [hrd] at h1'
      simp only [Option.some.injEq] at h1'
      subst h1'
      refine ⟨{ rd with outcome := some (Except.error e) }, e, ?_, rfl⟩
      simp only [step, h, List.getElem?_set, (List.getElem?_eq_some.1 hrd).1, if_true]
    · exfalso
      rw [hrd] at h1'
      simp only [Option.some.injEq] at h1'
      subst h1'
      obtain ⟨e2, he2⟩ := firstRejection_isSome hmem hin
      rw [he2] at h3'
      simp at h3'

theorem refresh_cancels_read_in_flight_witness :
    CollectionCache.read (run (World.init (CollectionCache.create 0 "/~/Employees" "")) [])
      ((0 : Nat) : Int) ((10 : Nat) : Int) =
      Except.ok (step (World.init (CollectionCache.create 0 "/~/Employees" "")) (Event.read 0 10)) ∧
    (run (World.init (CollectionCache.create 0 "/~/Employees" "")) []).requests.length ≤ 0 ∧
    0 < (step (World.init (CollectionCache.create 0 "/~/Employees" ""))
      (Event.read 0 10)).requests.length ∧
    (run (step (run (step (World.init (CollectionCache.create 0 "/~/Employees" ""))
      (Event.read 0 10)) []) Event.refresh) [Event.read 0 10]).isSettled 0 = false ∧
    ∃ q rd, (step (World.init (CollectionCache.create 0 "/~/Employees" ""))
        (Event.read 0 10)).requests[0]? = some q ∧
      (run (step (run (step (run (step (World.init (CollectionCache.create 0 "/~/Employees" ""))
        (Event.read 0 10)) []) Event.refresh) [Event.read 0 10])
          (Event.respond 0 ⟨some "$metadata#TEAMS", ["a", "b"]⟩)) [Event.settle 0]).reads[
            (run (World.init (CollectionCache.create 0 "/~/Employees" "")) []).reads.length]? =
        some rd ∧
      ∀ v, rd.outcome ≠ some (Except.ok v) := by
  refine ⟨rfl, by decide, by decide, by decide, ?_⟩
  obtain ⟨q, rd, h1, h2, _, h4, _⟩ := refresh_cancels_read_in_flight
    (CollectionCache.create 0 "/~/Employees" "") [] [] [Event.read 0 10] [Event.settle 0] 0 10 0
    ⟨some "$metadata#TEAMS", ["a", "b"]⟩
    (step (World.init (CollectionCache.create 0 "/~/Employees" "")) (Event.read 0 10))
    (run (step (run (step (World.init (CollectionCache.create 0 "/~/Employees" ""))
      (Event.read 0 10)) []) Event.refresh) [Event.read 0 10])
    (run (step (run (step (run (step (World.init (CollectionCache.create 0 "/~/Employees" ""))
        (Event.read 0 10)) []) Event.refresh) [Event.read 0 10])
          (Event.respond 0 ⟨some "$metadata#TEAMS", ["a", "b"]⟩)) [Event.settle 0])
    rfl (by decide) (by decide) rfl (by decide) rfl
  exact ⟨q, rd, h1, h2, h4⟩

/-- C9 as stated fails: the second read issues request 1, `refresh()` is called
while requests 0 and 1 are in flight, the requestor rejects request 0 with its own
error and then answers request 1 successfully; the promise of request 1 is rejected
with the canceled error, but the promise the second read returned is rejected with
the error of request 0, whose `canceled` is not true. -/
theorem refresh_in_flight_read_fails_with_transport_error :
    (run (World.init (CollectionCache.create 0 "/~/Employees" ""))
      [Event.read 0 2]).requests.length = 1 ∧
    (run (World.init (CollectionCache.create 0 "/~/Employees" ""))
      [Event.read 0 2, Event.read 0 4]).requests.length = 2 ∧
    (run (World.init (CollectionCache.create 0 "/~/Employees" ""))
      [Event.read 0 2, Event.read 0 4, Event.refresh,
        Event.reject 0 ⟨"Service Unavailable", false⟩]).isSettled 1 = false ∧
    (run (World.init (CollectionCache.create 0 "/~/Employees" ""))
      [Event.read 0 2, Event.read 0 4, Event.refresh,
        Event.reject 0 ⟨"Service Unavailable", false⟩,
        Event.respond 1 ⟨some "$metadata#TEAMS", ["c", "d"]⟩]).settled =
      [(0, Outcome.rejected ⟨"Service Unavailable", false⟩),
        (1, Outcome.rejected ⟨"Refresh canceled processing of pending request: " ++
          "/~/Employees?$skip=2&$top=2", true⟩)] ∧
    ((run (World.init (CollectionCache.create 0 "/~/Employees" ""))
      [Event.read 0 2, Event.read 0 4, Event.refresh,
        Event.reject 0 ⟨"Service Unavailable", false⟩,
        Event.respond 1 ⟨some "$metadata#TEAMS", ["c", "d"]⟩,
        Event.settle 1]).reads[1]?).map (fun rd => rd.outcome) =
      some (some (Except.error ⟨"Service Unavailable", false⟩)) := by
  decide

/-- C3: evaluation at a failing input.  A read of a range whose slots are all
resolved returns its promise, `refresh()` and `read(0, 1)` follow in the same
synchronous turn, then the reaction of the first promise runs: it resolves with the
slice of the new array, which holds the pending promise of request 1 and no
record. -/
theorem read_resolves_with_pending_promise_after_refresh :
    (run (World.init (CollectionCache.create 0 "/~/Employees" ""))
      [Event.read 0 2, Event.respond 0 ⟨some "$metadata#TEAMS", ["a", "b"]⟩, Event.settle 0,
        Event.read 0 2, Event.refresh, Event.read 0 1]).isSettled 1 = false ∧
    ((run (World.init (CollectionCache.create 0 "/~/Employees" ""))
      [Event.read 0 2, Event.respond 0 ⟨some "$metadata#TEAMS", ["a", "b"]⟩, Event.settle 0,
        Event.read 0 2, Event.refresh, Event.read 0 1,
        Event.settle 1]).reads[1]?).map (fun rd => rd.outcome) =
      some (some (Except.ok ⟨none, [Slot.promise 1]⟩)) := by
  decide

/-- C4: evaluation at a failing input.  `read(0, 2)` and `read(2, 1)` are issued,
then request 0 is answered with one record: `iMaxElements` becomes 1, and the
promise of request 1 moves from index 2 to index 1, which is not below
`iMaxElements`. -/
theorem short_response_moves_pending_slot_beyond_bound :
    elementAt (run (World.init (CollectionCache.create 0 "/~/Employees" ""))
      [Event.read 0 2, Event.read 2 1]).oCache.aElements.items 2 = Slot.promise 1 ∧
    (run (World.init (CollectionCache.create 0 "/~/Employees" ""))
      [Event.read 0 2, Event.read 2 1,
        Event.respond 0 ⟨some "$metadata#TEAMS", ["a"]⟩]).oCache.iMaxElements = 1 ∧
    (run (World.init (CollectionCache.create 0 "/~/Employees" ""))
      [Event.read 0 2, Event.read 2 1,
        Event.respond 0 ⟨some "$metadata#TEAMS", ["a"]⟩]).oCache.aElements.items =
      [Slot.record "a", Slot.promise 1] ∧
    (run (World.init (CollectionCache.create 0 "/~/Employees" ""))
      [Event.read 0 2, Event.read 2 1,
        Event.respond 0 ⟨some "$metadata#TEAMS", ["a"]⟩]).isSettled 1 = false := by
  decide

/-! ## Arguments of read -/

/-- C13: `read(iIndex, iLength)` with a negative `iIndex` throws the error with
message "Illegal index <iIndex>, must be >= 0", with a non-negative `iIndex` and a
negative `iLength` it throws "Illegal length <iLength>, must be >= 0"; a call that
throws issues no request and leaves the cache and everything else as it is; with
both arguments non-negative the call does not throw. -/
theorem read_throws_exactly_on_negative_arguments (w : World) (iIndex iLength : Int) :
    (iIndex < 0 → CollectionCache.read w iIndex iLength =
      Except.error ⟨"Illegal index " ++ ToString.toString iIndex ++ ", must be >= 0", false⟩) ∧
    (0 ≤ iIndex → iLength < 0 → CollectionCache.read w iIndex iLength =
      Except.error ⟨"Illegal length " ++ ToString.toString iLength ++ ", must be >= 0", false⟩) ∧
    (iIndex < 0 ∨ iLength < 0 → step w (Event.read iIndex iLength) = w) ∧
    (0 ≤ iIndex → 0 ≤ iLength → ∃ w1, CollectionCache.read w iIndex iLength = Except.ok w1) := by
  refine ⟨?_, ?_, ?_, ?_⟩
  · intro h
    simp only [CollectionCache.read, h, if_true]
  · intro h1 h2
    have h1n : ¬ iIndex < 0 := by omega
    simp only [CollectionCache.read, h1n, h2, if_true, if_false]
  · intro h
    by_cases h1 : iIndex < 0
    · simp only [step, CollectionCache.read, h1, if_true]
    · have h2 : iLength < 0 := by omega
      simp only [step, CollectionCache.read, h1, h2, if_true, if_false]
  · intro h1 h2
    obtain ⟨w1, _, hr, _⟩ := read_done w iIndex.toNat iLength.toNat
    rw [Int.toNat_of_nonneg h1, Int.toNat_of_nonneg h2] at hr
    exact ⟨w1, hr⟩

theorem read_throws_exactly_on_negative_arguments_witness :
    CollectionCache.read (World.init (CollectionCache.create 0 "/~/Employees" "")) (-1) 1 =
      Except.error ⟨"Illegal index -1, must be >= 0", false⟩ ∧
    CollectionCache.read (World.init (CollectionCache.create 0 "/~/Employees" "")) 1 (-1) =
      Except.error ⟨"Illegal length -1, must be >= 0", false⟩ ∧
    (run (World.init (CollectionCache.create 0 "/~/Employees" ""))
      [Event.read (-1) 1, Event.read 1 (-1)]).requests = [] :=
  ⟨(read_throws_exactly_on_negative_arguments
      (World.init (CollectionCache.create 0 "/~/Employees" "")) (-1) 1).1 (by decide),
    (read_throws_exactly_on_negative_arguments
      (World.init (CollectionCache.create 0 "/~/Employees" "")) 1 (-1)).2.1 (by decide)
      (by decide),
    by decide⟩

/-! ## A response with more records than requested -/

/-- C15 as stated fails: `read(0, 1)` is answered with the two records "a" and "b";
slot 1, which is not below the end 1 of the request, is written with "b", and a
later `read(0, 2)` issues no request and resolves with both records. -/
theorem longer_response_writes_beyond_the_request :
    (run (World.init (CollectionCache.create 0 "/~/Employees" ""))
      [Event.read 0 1]).oCache.aElements.items = [Slot.promise 0] ∧
    (run (World.init (CollectionCache.create 0 "/~/Employees" ""))
      [Event.read 0 1, Event.respond 0 ⟨some "$metadata#TEAMS", ["a", "b"]⟩]).oCache.aElements.items =
      [Slot.record "a", Slot.record "b"] ∧
    (run (World.init (CollectionCache.create 0 "/~/Employees" ""))
      [Event.read 0 1, Event.respond 0 ⟨some "$metadata#TEAMS", ["a", "b"]⟩, Event.settle 0,
        Event.read 0 2, Event.settle 1]).requests.length = 1 ∧
    ((run (World.init (CollectionCache.create 0 "/~/Employees" ""))
      [Event.read 0 1, Event.respond 0 ⟨some "$metadata#TEAMS", ["a", "b"]⟩, Event.settle 0,
        Event.read 0 2, Event.settle 1]).reads[1]?).map (fun rd => rd.outcome) =
      some (some (Except.ok ⟨some "$metadata#TEAMS", [Slot.record "a", Slot.record "b"]⟩)) := by
  decide

/-! ## The URL of a request -/

theorem logged_init (oCache : CollectionCache) : Logged (World.init oCache) where
  urls := by simp [World.init]
  sliced := by simp [World.init]

theorem logged_same_logs {w w2 : World} (hl : Logged w) (hr : w2.requests = w.requests)
    (hd : w2.reads = w.reads) (hu : w2.oCache.sUrl = w.oCache.sUrl) : Logged w2 where
  urls := by rw [hr, hu]; exact hl.urls
  sliced := by rw [hd]; exact hl.sliced

theorem readDone_logged {w0 w : World} {iIndex iEnd : Nat} {new : List Request}
    (hd : ReadDone w0 iIndex iEnd w new) (hl : Logged w0) : Logged w where
  urls := by
    intro q hq
    have hu : w.oCache.sUrl = w0.oCache.sUrl := by rw [hd.cache]
    rw [hd.requests] at hq
    rw [hu]
    rcases List.mem_append.1 hq with h | h
    · exact hl.urls q h
    · exact ⟨(hd.runs q h).2.1, (hd.issued q h).2⟩
  sliced := by
    intro rd hrd v hv
    rw [hd.reads] at hrd
    rcases List.mem_append.1 hrd with h | h
    · exact hl.sliced rd h v hv
    · simp only [List.mem_singleton] at h
      subst h
      simp at hv

theorem logged_set_outcome {w : World} (hl : Logged w) (r : Nat) (rd : Read)
    (o : Except JSError ReadValue)
    (hok : ∀ v, o = Except.ok v → ∃ a, v.value = slice a rd.iIndex rd.iEnd) :
    Logged { w with reads := w.reads.set r { rd with outcome := some o } } where
  urls := hl.urls
  sliced := by
    intro rd2 hrd2 v hv
    rcases List.mem_or_eq_of_mem_set hrd2 with hm | he
    · exact hl.sliced rd2 hm v hv
    · subst he
      simp only [Option.some.injEq] at hv
      exact hok v hv

theorem step_logged (w : World) (e : Event) (hl : Logged w) : Logged (step w e) := by
  cases e with
  | read iIndex iLength =>
    simp only [step]
    rcases read_throws_or_nat w iIndex iLength with ⟨e, he⟩ | ⟨a, b, ha, hb⟩
    · rw [he]; exact hl
    · subst ha; subst hb
      obtain ⟨w1, new, hr, hd⟩ := read_done w a b
      rw [hr]
      exact readDone_logged hd hl
  | refresh => exact logged_same_logs hl rfl rfl rfl
  | respond p oResult =>
    simp only [step]
    rcases respond_cases w p oResult with h | ⟨q, _, _, _, h⟩ | ⟨q, _, _, _, h⟩
    · rw [h]; exact hl
    · rw [h]; exact logged_same_logs hl rfl rfl rfl
    · rw [h]; exact logged_same_logs hl rfl rfl (applyResult_frame w.oCache q oResult).2.1
  | reject p oError =>
    simp only [step]
    rcases reject_cases w p oError with h | ⟨q, oCache, _, _, _, h2, _, _, h⟩
    · rw [h]; exact hl
    · rw [h]; exact logged_same_logs hl rfl rfl h2
  | settle r =>
    simp only [step]
    rcases settle_cases w r with h | ⟨rd, e, _, _, _, h⟩ | ⟨rd, _, _, _, _, h⟩
    · rw [h]; exact hl
    · rw [h]
      exact logged_set_outcome hl r rd _ (fun v hv => by simp at hv)
    · rw [h]
      refine logged_set_outcome hl r rd _ ?_
      intro v hv
      simp only [Except.ok.injEq] at hv
      subst hv
      exact ⟨_, rfl⟩

theorem run_logged (events : List Event) : ∀ w : World, Logged w → Logged (run w events) := by
  induction events with
  | nil => intro w hl; exact hl
  | cons e events ih =>
    intro w hl
    exact ih (step w e) (step_logged w e hl)

theorem requestElements_get (w : World) (iStart iEnd : Nat)
    (h : ∀ q ∈ w.requests, q.sMethod = "GET") :
    ∀ q ∈ (requestElements w iStart iEnd).requests, q.sMethod = "GET" := by
  intro q hq
  simp only [requestElements, List.mem_append, List.mem_singleton] at hq
  rcases hq with hq | hq
  · exact h q hq
  · rw [hq]

theorem readLoop_get : ∀ (n : Nat) (w : World) (iGapStart : Int) (i : Nat),
    (∀ q ∈ w.requests, q.sMethod = "GET") →
    ∀ q ∈ (readLoop w iGapStart i n).1.requests, q.sMethod = "GET" := by
  intro n
  induction n with
  | zero => intro w iGapStart i h; exact h
  | succ n ih =>
    intro w iGapStart i h
    simp only [readLoop]
    split
    · split
      · exact ih _ _ _ (requestElements_get w _ _ h)
      · exact ih _ _ _ h
    · split
      · exact ih _ _ _ h
      · exact ih _ _ _ h

theorem read_get {w w1 : World} {iIndex iLength : Int}
    (hr : CollectionCache.read w iIndex iLength = Except.ok w1)
    (h : ∀ q ∈ w.requests, q.sMethod = "GET") : ∀ q ∈ w1.requests, q.sMethod = "GET" := by
  unfold CollectionCache.read at hr
  split at hr
  · simp at hr
  · split at hr
    · simp at hr
    · simp only [Except.ok.injEq] at hr
      subst hr
      simp only
      split
      · exact requestElements_get _ _ _ (readLoop_get _ _ _ _ h)
      · exact readLoop_get _ _ _ _ h

theorem step_get (w : World) (e : Event) (h : ∀ q ∈ w.requests, q.sMethod = "GET") :
    ∀ q ∈ (step w e).requests, q.sMethod = "GET" := by
  cases e with
  | read iIndex iLength =>
    simp only [step]
    cases hr : CollectionCache.read w iIndex iLength with
    | error e => exact h
    | ok w1 => exact read_get hr h
  | refresh => exact h
  | respond p oResult =>
    simp only [step]
    rcases respond_cases w p oResult with h2 | ⟨q, _, _, _, h2⟩ | ⟨q, _, _, _, h2⟩ <;>
      rw [h2] <;> exact h
  | reject p oError =>
    simp only [step]
    rcases reject_cases w p oError with h2 | ⟨q, oCache, _, _, _, _, _, _, h2⟩ <;>
      rw [h2] <;> exact h
  | settle r =>
    simp only [step]
    rcases settle_cases w r with h2 | ⟨rd, e, _, _, _, h2⟩ | ⟨rd, _, _, _, _, h2⟩ <;>
      rw [h2] <;> exact h

theorem run_get (events : List Event) : ∀ w : World,
    (∀ q ∈ w.requests, q.sMethod = "GET") →
    ∀ q ∈ (run w events).requests, q.sMethod = "GET" := by
  induction events with
  | nil => intro w h; exact h
  | cons e events ih =>
    intro w h
    exact ih (step w e) (step_get w e h)

/-- C18: in every world a cache created with URL `sUrl` and built query string
`sQuery` can get into, every logged request, for a gap `[q.iStart, q.iEnd)`, is a call
of the requestor with the method "GET", has a non-empty range and the URL `sUrl`,
followed by `sQuery`, followed by "&" if `sQuery` is not empty and by "?" otherwise,
followed by "$skip=", `q.iStart`, "&$top=" and `q.iEnd - q.iStart`; the prefix is the
URL the constructor stored, which no event changes. -/
theorem every_request_url_is_prefix_skip_top (oRequestor : Nat) (sUrl sQuery : String)
    (events : List Event) :
    (run (World.init (CollectionCache.create oRequestor sUrl sQuery)) events).oCache.sUrl =
      sUrl ++ (sQuery ++ (if sQuery.length ≠ 0 then "&" else "?")) ∧
    ∀ q ∈ (run (World.init (CollectionCache.create oRequestor sUrl sQuery)) events).requests,
      q.sMethod = "GET" ∧ q.iStart < q.iEnd ∧
      q.sUrl = sUrl ++ (sQuery ++ (if sQuery.length ≠ 0 then "&" else "?")) ++ "$skip=" ++
        toString q.iStart ++ "&$top=" ++ toString (q.iEnd - q.iStart) := by
  have hl := run_logged events _ (logged_init (CollectionCache.create oRequestor sUrl sQuery))
  have hg := run_get events (World.init (CollectionCache.create oRequestor sUrl sQuery))
    (by simp [World.init])
  have hu : (run (World.init (CollectionCache.create oRequestor sUrl sQuery)) events).oCache.sUrl =
      (CollectionCache.create oRequestor sUrl sQuery).sUrl :=
    (run_later events (World.init (CollectionCache.create oRequestor sUrl sQuery))).sUrl
  refine ⟨hu, ?_⟩
  intro q hq
  obtain ⟨h1, h2⟩ := hl.urls q hq
  refine ⟨hg q hq, h1, ?_⟩
  rw [h2, hu]
  have e : (q.iEnd : Int) - (q.iStart : Int) = ((q.iEnd - q.iStart : Nat) : Int) := by omega
  rw [e]
  rfl

/-! ## Reads of an empty range -/

theorem slice_empty (a : List Slot) {iStart iEnd : Nat} (h : iEnd ≤ iStart) :
    slice a iStart iEnd = [] := by
  simp only [slice, List.drop_eq_nil_iff, List.length_take]
  omega

theorem length_slice_le (a : List Slot) (iStart iEnd : Nat) :
    (slice a iStart iEnd).length ≤ iEnd - iStart := by
  simp only [slice, List.length_drop, List.length_take]
  omega

theorem allFulfilled_of_settled {settled : List (Nat × Outcome)} {awaited : List Slot}
    (h : ∀ p, Slot.promise p ∈ awaited → (p, Outcome.fulfilled) ∈ settled) :
    allFulfilled settled awaited = true := by
  unfold allFulfilled
  rw [List.all_eq_true]
  intro s hs
  cases s with
  | empty => rfl
  | record r => rfl
  | promise p => simpa using h p hs

theorem settle_resolves {w : World} {r : Nat} {rd : Read} (hrd : w.reads[r]? = some rd)
    (hnone : firstRejection w.settled rd.awaited = none)
    (hall : allFulfilled w.settled rd.awaited = true)
    (herr : ∀ e, rd.outcome ≠ some (Except.error e)) :
    ∃ rd2 v, (settle w r).reads[r]? = some rd2 ∧ rd2.outcome = some (Except.ok v) ∧
      rd2.iIndex = rd.iIndex ∧ rd2.iEnd = rd.iEnd ∧ (settle w r).oCache = w.oCache ∧
      (settle w r).requests = w.requests ∧
      (rd.outcome = none →
        v = ⟨w.oCache.sContext, slice w.oCache.aElements.items rd.iIndex rd.iEnd⟩) := by
  have hlt : r < w.reads.length := (List.getElem?_eq_some.1 hrd).1
  cases ho : rd.outcome with
  | some o =>
    cases o with
    | error e => exact absurd ho (herr e)
    | ok v =>
      have hs : settle w r = w := by simp [settle, hrd, ho]
      rw [hs]
      exact ⟨rd, v, hrd, ho, rfl, rfl, rfl, rfl, fun h => by simp at h⟩
  | none =>
    have hs : settle w r = { w with reads := w.reads.set r { rd with
        outcome := some (Except.ok
          ⟨w.oCache.sContext, slice w.oCache.aElements.items rd.iIndex rd.iEnd⟩) } } := by
      simp [settle, hrd, ho, hnone, hall]
    rw [hs]
    refine ⟨{ rd with outcome := some (Except.ok
        ⟨w.oCache.sContext, slice w.oCache.aElements.items rd.iIndex rd.iEnd⟩) },
      ⟨w.oCache.sContext, slice w.oCache.aElements.items rd.iIndex rd.iEnd⟩, ?_, rfl, rfl, rfl,
      rfl, rfl, fun _ => rfl⟩
    simp [List.getElem?_set, hlt]

theorem clippedEnd_le (oCache : CollectionCache) (iIndex iLength : Nat) :
    (clippedEnd oCache (iIndex : Int) (iLength : Int)).toNat ≤ iIndex + iLength ∧
    (0 ≤ oCache.iMaxElements →
      (clippedEnd oCache (iIndex : Int) (iLength : Int)) ≤ oCache.iMaxElements) := by
  unfold clippedEnd
  simp only
  split <;> constructor <;> omega

theorem read_value_bounded {w0 w1 w2 : World} {iIndex iLength : Nat} (hs : Sound w0)
    (hl : Logged w0)
    (h1 : CollectionCache.read w0 (iIndex : Int) (iLength : Int) = Except.ok w1)
    (later : List Event) (h2 : w2 = run w1 later) :
    Sound w2 ∧ ∃ rd, w2.reads[w0.reads.length]? = some rd ∧ rd.iIndex = iIndex ∧
      rd.iEnd = (clippedEnd w0.oCache (iIndex : Int) (iLength : Int)).toNat ∧
      rd.awaited = slice w1.oCache.aElements.items iIndex
        (clippedEnd w0.oCache (iIndex : Int) (iLength : Int)).toNat ∧
      ∀ v, rd.outcome = some (Except.ok v) →
        v.value.length ≤ (clippedEnd w0.oCache (iIndex : Int) (iLength : Int)).toNat - iIndex := by
  obtain ⟨new, hd⟩ := read_ok_done h1
  have hs2 : Sound w2 := by rw [h2]; exact run_sound later _ (readDone_sound hd hs)
  have hl2 : Logged w2 := by rw [h2]; exact run_logged later _ (readDone_logged hd hl)
  have hrd1 : w1.reads[w0.reads.length]? = some ⟨iIndex,
      (clippedEnd w0.oCache (iIndex : Int) (iLength : Int)).toNat,
      slice w1.oCache.aElements.items iIndex
        (clippedEnd w0.oCache (iIndex : Int) (iLength : Int)).toNat, none⟩ := by
    rw [hd.reads]; simp
  have hlater : Later w1 w2 := by rw [h2]; exact run_later later w1
  obtain ⟨rd, hrd, a1, a2, a3, _⟩ := hlater.reads _ _ hrd1
  refine ⟨hs2, rd, hrd, a1, a2, a3, ?_⟩
  intro v hv
  obtain ⟨a, ha⟩ := hl2.sliced rd (List.getElem?_mem hrd) v hv
  rw [ha, a1, a2]
  exact length_slice_le a _ _

/-- C14: in every world a cache can get into, a `read` whose clipped range is empty
(`iLength` is 0, or `iMaxElements` is known and not above `iIndex`) returns a
promise, issues no request and leaves the cache as it is; whatever happens later,
that promise is never rejected, it is resolved once its reaction has run, and its
value holds no element.  When `iMaxElements` is known and not below `iIndex`, the
value a `read` resolves with holds at most `iMaxElements - iIndex` elements. -/
theorem read_of_empty_clipped_range (oCache : CollectionCache) (before later : List Event)
    (iIndex iLength : Nat) :
    ((iLength = 0 ∨ (0 ≤ (run (World.init oCache) before).oCache.iMaxElements ∧
        (run (World.init oCache) before).oCache.iMaxElements ≤ (iIndex : Int))) →
      ∃ w1, CollectionCache.read (run (World.init oCache) before) (iIndex : Int) (iLength : Int) =
          Except.ok w1 ∧
        w1.requests = (run (World.init oCache) before).requests ∧
        w1.oCache = (run (World.init oCache) before).oCache ∧
        ∃ rd, (run w1 later).reads[(run (World.init oCache) before).reads.length]? = some rd ∧
          (∀ e, rd.outcome ≠ some (Except.error e)) ∧
          (∀ v, rd.outcome = some (Except.ok v) → v.value = []) ∧
          ∃ rd2 context, (step (run w1 later)
              (Event.settle (run (World.init oCache) before).reads.length)).reads[
                (run (World.init oCache) before).reads.length]? = some rd2 ∧
            rd2.outcome = some (Except.ok ⟨context, []⟩)) ∧
    ((iIndex : Int) ≤ (run (World.init oCache) before).oCache.iMaxElements →
      ∀ w1, CollectionCache.read (run (World.init oCache) before) (iIndex : Int) (iLength : Int) =
          Except.ok w1 →
        ∀ rd v, (run w1 later).reads[(run (World.init oCache) before).reads.length]? = some rd →
          rd.outcome = some (Except.ok v) →
          (v.value.length : Int) ≤
            (run (World.init oCache) before).oCache.iMaxElements - (iIndex : Int)) := by
  have hs := run_sound before _ (sound_init oCache)
  have hl := run_logged before _ (logged_init oCache)
  constructor
  · intro hempty
    obtain ⟨w1, new, hr, hd⟩ := read_done (run (World.init oCache) before) iIndex iLength
    have hce : (clippedEnd (run (World.init oCache) before).oCache (iIndex : Int)
        (iLength : Int)).toNat ≤ iIndex := by
      unfold clippedEnd
      simp only
      split <;> omega
    obtain ⟨hnew, hcache⟩ := readDone_none hd (fun k h1 h2 => by omega)
    subst hnew
    obtain ⟨hs2, rd, hrd, a1, a2, a3, a4⟩ := read_value_bounded hs hl hr later rfl
    have haw : rd.awaited = [] := by rw [a3]; exact slice_empty _ hce
    have herr : ∀ e, rd.outcome ≠ some (Except.error e) := by
      intro e he
      obtain ⟨p, hp, _⟩ := firstRejection_some (hs2.failed rd (List.getElem?_mem hrd) e he)
      rw [haw] at hp
      simp at hp
    have hval : ∀ v, rd.outcome = some (Except.ok v) → v.value = [] := by
      intro v hv
      have := a4 v hv
      exact List.length_eq_zero.1 (by omega)
    refine ⟨w1, hr, by rw [hd.requests]; simp, hcache, rd, hrd, herr, hval, ?_⟩
    obtain ⟨rd2, v, b1, b2, b3, b4, _, _, b7⟩ := settle_resolves hrd
      (firstRejection_none (fun p e hp => by rw [haw] at hp; simp at hp))
      (allFulfilled_of_settled (fun p hp => by rw [haw] at hp; simp at hp)) herr
    refine ⟨rd2, v.context, b1, ?_⟩
    rw [b2]
    have hv0 : v.value = [] := by
      cases ho : rd.outcome with
      | none =>
        rw [b7 ho]
        exact slice_empty _ (by rw [a1, a2]; exact hce)
      | some o =>
        have hsame : settle (run w1 later) (run (World.init oCache) before).reads.length =
            run w1 later := by simp [settle, hrd, ho]
        rw [hsame, hrd] at b1
        simp only [Option.some.injEq] at b1
        subst b1
        exact hval v b2
    cases v with
    | mk c val =>
      simp only at hv0
      rw [hv0]
  · intro hmax w1 hr rd v hrd hv
    obtain ⟨_, rd', hrd', _, _, _, a4⟩ := read_value_bounded hs hl hr later rfl
    rw [hrd] at hrd'
    simp only [Option.some.injEq] at hrd'
    subst hrd'
    have h1 := a4 v hv
    have h2 := (clippedEnd_le (run (World.init oCache) before).oCache iIndex iLength).2
      (by omega)
    omega

theorem read_of_empty_clipped_range_witness :
    (0 ≤ (run (World.init (CollectionCache.create 0 "/~/Employees" ""))
        [Event.read 0 5, Event.respond 0 ⟨none, ["a", "b"]⟩]).oCache.iMaxElements ∧
      (run (World.init (CollectionCache.create 0 "/~/Employees" ""))
        [Event.read 0 5, Event.respond 0 ⟨none, ["a", "b"]⟩]).oCache.iMaxElements ≤ ((4 : Nat) : Int)) ∧
    ∃ w1, CollectionCache.read (run (World.init (CollectionCache.create 0 "/~/Employees" ""))
        [Event.read 0 5, Event.respond 0 ⟨none, ["a", "b"]⟩]) ((4 : Nat) : Int) ((5 : Nat) : Int) =
          Except.ok w1 ∧
      w1.requests = (run (World.init (CollectionCache.create 0 "/~/Employees" ""))
        [Event.read 0 5, Event.respond 0 ⟨none, ["a", "b"]⟩]).requests := by
  refine ⟨by decide, ?_⟩
  obtain ⟨w1, h1, h2, _⟩ := (read_of_empty_clipped_range
    (CollectionCache.create 0 "/~/Employees" "")
    [Event.read 0 5, Event.respond 0 ⟨none, ["a", "b"]⟩] [] 4 5).1 (Or.inr (by decide))
  exact ⟨w1, h1, h2⟩

/-! ## Reading a resolved range twice -/

theorem mem_slice {a : List Slot} {iStart iEnd : Nat} {s : Slot} (h : s ∈ slice a iStart iEnd) :
    ∃ k, iStart ≤ k ∧ k < iEnd ∧ k < a.length ∧ elementAt a k = s := by
  unfold slice at h
  obtain ⟨n, hn⟩ := List.mem_iff_getElem?.1 h
  rw [List.getElem?_drop, List.getElem?_take] at hn
  by_cases hlt : iStart + n < iEnd
  · simp only [hlt, if_true] at hn
    have hlen : iStart + n < a.length := (List.getElem?_eq_some.1 hn).1
    exact ⟨iStart + n, by omega, hlt, hlen, by rw [elementAt_eq, hn]; rfl⟩
  · simp [hlt] at hn

theorem set_last (l : List Read) (rd rd2 : Read) :
    (l ++ [rd]).set l.length rd2 = l ++ [rd2] := by
  induction l with
  | nil => rfl
  | cons x xs ih => simp [List.set, ih]

theorem read_resolved_range (w : World) (iIndex iLength : Nat)
    (hres : ∀ k, iIndex ≤ k →
      k < (clippedEnd w.oCache (iIndex : Int) (iLength : Int)).toNat →
      ∃ r, elementAt w.oCache.aElements.items k = Slot.record r) :
    (run w [Event.read (iIndex : Int) (iLength : Int), Event.settle w.reads.length]).requests =
      w.requests ∧
    (run w [Event.read (iIndex : Int) (iLength : Int), Event.settle w.reads.length]).oCache =
      w.oCache ∧
    (run w [Event.read (iIndex : Int) (iLength : Int), Event.settle w.reads.length]).settled =
      w.settled ∧
    (run w [Event.read (iIndex : Int) (iLength : Int), Event.settle w.reads.length]).reads =
      w.reads ++ [⟨iIndex, (clippedEnd w.oCache (iIndex : Int) (iLength : Int)).toNat,
        slice w.oCache.aElements.items iIndex
          (clippedEnd w.oCache (iIndex : Int) (iLength : Int)).toNat,
        some (Except.ok ⟨w.oCache.sContext, slice w.oCache.aElements.items iIndex
          (clippedEnd w.oCache (iIndex : Int) (iLength : Int)).toNat⟩)⟩] ∧
    ∀ s ∈ slice w.oCache.aElements.items iIndex
        (clippedEnd w.oCache (iIndex : Int) (iLength : Int)).toNat, ∃ r, s = Slot.record r := by
  have hrec : ∀ s ∈ slice w.oCache.aElements.items iIndex
      (clippedEnd w.oCache (iIndex : Int) (iLength : Int)).toNat, ∃ r, s = Slot.record r := by
    intro s hs
    obtain ⟨k, h1, h2, _, h4⟩ := mem_slice hs
    obtain ⟨r, hr⟩ := hres k h1 h2
    exact ⟨r, by rw [← h4, hr]⟩
  obtain ⟨w1, new, hr, hd⟩ := read_done w iIndex iLength
  obtain ⟨hnew, hcache⟩ := readDone_none hd (fun k h1 h2 => by
    obtain ⟨r, hr⟩ := hres k h1 h2
    rw [hr]
    simp)
  subst hnew
  have hstep : step w (Event.read (iIndex : Int) (iLength : Int)) = w1 := by
    simp only [step, hr]
  have hreads : w1.reads = w.reads ++ [⟨iIndex,
      (clippedEnd w.oCache (iIndex : Int) (iLength : Int)).toNat,
      slice w.oCache.aElements.items iIndex
        (clippedEnd w.oCache (iIndex : Int) (iLength : Int)).toNat, none⟩] := by
    rw [hd.reads, hcache]
  have hget : w1.reads[w.reads.length]? = some ⟨iIndex,
      (clippedEnd w.oCache (iIndex : Int) (iLength : Int)).toNat,
      slice w.oCache.aElements.items iIndex
        (clippedEnd w.oCache (iIndex : Int) (iLength : Int)).toNat, none⟩ := by
    rw [hreads]; simp
  have hnop : ∀ p, Slot.promise p ∉ slice w.oCache.aElements.items iIndex
      (clippedEnd w.oCache (iIndex : Int) (iLength : Int)).toNat := by
    intro p hp
    obtain ⟨r, hr⟩ := hrec _ hp
    simp at hr
  have hsettle : settle w1 w.reads.length = World.mk w1.oCache w1.requests w1.settled
      (w1.reads.set w.reads.length
        ⟨iIndex, (clippedEnd w.oCache (iIndex : Int) (iLength : Int)).toNat,
          slice w.oCache.aElements.items iIndex
            (clippedEnd w.oCache (iIndex : Int) (iLength : Int)).toNat,
          some (Except.ok ⟨w1.oCache.sContext, slice w1.oCache.aElements.items iIndex
            (clippedEnd w.oCache (iIndex : Int) (iLength : Int)).toNat⟩)⟩) := by
    simp only [settle, hget, Option.isSome_none, Bool.false_eq_true, if_false,
      firstRejection_none (fun p e hp => absurd hp (hnop p)),
      allFulfilled_of_settled (fun p hp => absurd hp (hnop p)), if_true]
  have hrun : run w [Event.read (iIndex : Int) (iLength : Int), Event.settle w.reads.length] =
      settle w1 w.reads.length := by
    simp only [run, List.foldl_cons, List.foldl_nil, step, hr]
  rw [hrun, hsettle]
  refine ⟨by rw [hd.requests]; simp, hcache, hd.settled, ?_, hrec⟩
  simp only [hreads, set_last, hcache]

/-- C16: when every slot of the clipped range of `read(iIndex, iLength)` holds a record, reading
the range twice (each promise settling before the next step) issues no request at all, leaves the
cache as it was, and both promises resolve with the same value: the records of the range in
array order. -/
theorem read_of_resolved_range_twice (w : World) (iIndex iLength : Nat)
    (hres : ∀ k, iIndex ≤ k →
      k < (clippedEnd w.oCache (iIndex : Int) (iLength : Int)).toNat →
      ∃ r, elementAt w.oCache.aElements.items k = Slot.record r) :
    (run w [Event.read (iIndex : Int) (iLength : Int), Event.settle w.reads.length]).requests =
      w.requests ∧
    (run w [Event.read (iIndex : Int) (iLength : Int), Event.settle w.reads.length,
      Event.read (iIndex : Int) (iLength : Int), Event.settle (w.reads.length + 1)]).requests =
      w.requests ∧
    (run w [Event.read (iIndex : Int) (iLength : Int), Event.settle w.reads.length,
      Event.read (iIndex : Int) (iLength : Int), Event.settle (w.reads.length + 1)]).oCache =
      w.oCache ∧
    (run w [Event.read (iIndex : Int) (iLength : Int), Event.settle w.reads.length,
      Event.read (iIndex : Int) (iLength : Int), Event.settle (w.reads.length + 1)]).reads =
      w.reads ++ List.replicate 2 ⟨iIndex,
        (clippedEnd w.oCache (iIndex : Int) (iLength : Int)).toNat,
        slice w.oCache.aElements.items iIndex
          (clippedEnd w.oCache (iIndex : Int) (iLength : Int)).toNat,
        some (Except.ok ⟨w.oCache.sContext, slice w.oCache.aElements.items iIndex
          (clippedEnd w.oCache (iIndex : Int) (iLength : Int)).toNat⟩)⟩ ∧
    ∀ s ∈ slice w.oCache.aElements.items iIndex
        (clippedEnd w.oCache (iIndex : Int) (iLength : Int)).toNat, ∃ r, s = Slot.record r := by
  obtain ⟨h1, h2, h3, h4, h5⟩ := read_resolved_range w iIndex iLength hres
  have hlen : (run w [Event.read (iIndex : Int) (iLength : Int),
      Event.settle w.reads.length]).reads.length = w.reads.length + 1 := by
    rw [h4]; simp
  have hsplit : run w [Event.read (iIndex : Int) (iLength : Int), Event.settle w.reads.length,
      Event.read (iIndex : Int) (iLength : Int), Event.settle (w.reads.length + 1)] =
      run (run w [Event.read (iIndex : Int) (iLength : Int), Event.settle w.reads.length])
        [Event.read (iIndex : Int) (iLength : Int),
          Event.settle (run w [Event.read (iIndex : Int) (iLength : Int),
            Event.settle w.reads.length]).reads.length] := by
    rw [hlen]; rfl
  obtain ⟨g1, g2, _, g4, _⟩ := read_resolved_range
    (run w [Event.read (iIndex : Int) (iLength : Int), Event.settle w.reads.length])
    iIndex iLength (by rw [h2]; exact hres)
  rw [hsplit]
  refine ⟨h1, by rw [g1, h1], by rw [g2, h2], ?_, h5⟩
  rw [g4, h2, h4, List.append_assoc]
  rfl

/-- Witness for C16: the first 2 records of a cache holding 3 records are read twice. -/
theorem read_of_resolved_range_twice_witness :
    (run ⟨⟨0, "/Employees?", some "ctx", -1,
        ⟨0, [Slot.record "a", Slot.record "b", Slot.record "c"]⟩⟩, [], [], []⟩
      [Event.read 0 2, Event.settle 0, Event.read 0 2, Event.settle 1]).requests = [] ∧
    (run ⟨⟨0, "/Employees?", some "ctx", -1,
        ⟨0, [Slot.record "a", Slot.record "b", Slot.record "c"]⟩⟩, [], [], []⟩
      [Event.read 0 2, Event.settle 0, Event.read 0 2, Event.settle 1]).reads =
      List.replicate 2 ⟨0, 2, [Slot.record "a", Slot.record "b"],
        some (Except.ok ⟨some "ctx", [Slot.record "a", Slot.record "b"]⟩)⟩ :=
  have h := read_of_resolved_range_twice ⟨⟨0, "/Employees?", some "ctx", -1,
      ⟨0, [Slot.record "a", Slot.record "b", Slot.record "c"]⟩⟩, [], [], []⟩ 0 2
    (by
      intro k _ hk
      have hk2 : k < 2 := hk
      interval_cases k
      · exact ⟨"a", rfl⟩
      · exact ⟨"b", rfl⟩)
  ⟨h.2.1, h.2.2.2.1⟩

/-! ## A failing request and the slots of other requests -/

/-- C12: evaluation at a failing input.  `read(0, 2)`, `read(2, 2)` and `read(4, 1)` are
issued, request 0 is answered with one record, then request 1 fails.  Before the failure
index 3 holds the pending promise of request 2 and index 1 the promise of request 1; the
failure reaction fills the indexes 2 and 3 with `undefined`: it wipes the promise of request 2,
which is still in flight, and leaves the promise of the failed request at index 1. -/
theorem failure_wipes_slot_of_another_request :
    (run (World.init (CollectionCache.create 0 "/~/Employees" ""))
      [Event.read 0 2, Event.read 2 2, Event.read 4 1,
        Event.respond 0 ⟨some "$metadata#TEAMS", ["a"]⟩]).oCache.aElements.items =
      [Slot.record "a", Slot.promise 1, Slot.promise 1, Slot.promise 2] ∧
    (run (World.init (CollectionCache.create 0 "/~/Employees" ""))
      [Event.read 0 2, Event.read 2 2, Event.read 4 1,
        Event.respond 0 ⟨some "$metadata#TEAMS", ["a"]⟩,
        Event.reject 1 ⟨"500 Internal Server Error", false⟩]).oCache.aElements.items =
      [Slot.record "a", Slot.promise 1, Slot.empty, Slot.empty] ∧
    (run (World.init (CollectionCache.create 0 "/~/Employees" ""))
      [Event.read 0 2, Event.read 2 2, Event.read 4 1,
        Event.respond 0 ⟨some "$metadata#TEAMS", ["a"]⟩,
        Event.reject 1 ⟨"500 Internal Server Error", false⟩]).isSettled 2 = false ∧
    (run (World.init (CollectionCache.create 0 "/~/Employees" ""))
      [Event.read 0 2, Event.read 2 2, Event.read 4 1,
        Event.respond 0 ⟨some "$metadata#TEAMS", ["a"]⟩,
        Event.reject 1 ⟨"500 Internal Server Error", false⟩]).requests[2]? =
      some ⟨0, 4, 5, "/~/Employees?$skip=4&$top=1", "GET"⟩ := by
  decide

/-! ## A refresh after read has returned -/

theorem run_snoc (w : World) (events : List Event) (e : Event) :
    run w (events ++ [e]) = step (run w events) e := by
  simp only [run, List.foldl_append, List.foldl_cons, List.foldl_nil]

theorem read_resolved_step (w : World) (iIndex iLength : Nat)
    (hres : ∀ k, iIndex ≤ k →
      k < (clippedEnd w.oCache (iIndex : Int) (iLength : Int)).toNat →
      ∃ r, elementAt w.oCache.aElements.items k = Slot.record r) :
    (step w (Event.read (iIndex : Int) (iLength : Int))).requests = w.requests ∧
    (step w (Event.read (iIndex : Int) (iLength : Int))).oCache = w.oCache ∧
    (step w (Event.read (iIndex : Int) (iLength : Int))).settled = w.settled ∧
    (step w (Event.read (iIndex : Int) (iLength : Int))).reads = w.reads ++
      [⟨iIndex, (clippedEnd w.oCache (iIndex : Int) (iLength : Int)).toNat,
        slice w.oCache.aElements.items iIndex
          (clippedEnd w.oCache (iIndex : Int) (iLength : Int)).toNat, none⟩] ∧
    ∀ p, Slot.promise p ∉ slice w.oCache.aElements.items iIndex
      (clippedEnd w.oCache (iIndex : Int) (iLength : Int)).toNat := by
  obtain ⟨w1, new, hr, hd⟩ := read_done w iIndex iLength
  obtain ⟨hnew, hcache⟩ := readDone_none hd (fun k h1 h2 => by
    obtain ⟨r, hr⟩ := hres k h1 h2
    rw [hr]
    simp)
  subst hnew
  have hstep : step w (Event.read (iIndex : Int) (iLength : Int)) = w1 := by
    simp only [step, hr]
  rw [hstep]
  refine ⟨by rw [hd.requests]; simp, hcache, hd.settled, by rw [hd.reads, hcache], ?_⟩
  intro p hp
  obtain ⟨k, h1, h2, _, h4⟩ := mem_slice hp
  obtain ⟨r, hr⟩ := hres k h1 h2
  rw [hr] at h4
  simp at h4

theorem resolved_read_never_fails {w : World} (hs : Sound w) (iIndex iLength : Nat)
    (hres : ∀ k, iIndex ≤ k →
      k < (clippedEnd w.oCache (iIndex : Int) (iLength : Int)).toNat →
      ∃ r, elementAt w.oCache.aElements.items k = Slot.record r) (events : List Event) :
    ∃ rd v, (run (step w (Event.read (iIndex : Int) (iLength : Int)))
        (events ++ [Event.settle w.reads.length])).reads[w.reads.length]? = some rd ∧
      rd.outcome = some (Except.ok v) := by
  obtain ⟨_, _, _, h4, h5⟩ := read_resolved_step w iIndex iLength hres
  have hs1 : Sound (step w (Event.read (iIndex : Int) (iLength : Int))) := step_sound _ _ hs
  have hs2 := run_sound events _ hs1
  have hl2 := run_later events (step w (Event.read (iIndex : Int) (iLength : Int)))
  have hget : (step w (Event.read (iIndex : Int) (iLength : Int))).reads[w.reads.length]? =
      some ⟨iIndex, (clippedEnd w.oCache (iIndex : Int) (iLength : Int)).toNat,
        slice w.oCache.aElements.items iIndex
          (clippedEnd w.oCache (iIndex : Int) (iLength : Int)).toNat, none⟩ := by
    rw [h4]; simp
  obtain ⟨rd2, hrd2, _, _, haw, _⟩ := hl2.reads _ _ hget
  have hnop : ∀ p, Slot.promise p ∉ rd2.awaited := by
    rw [haw]; exact h5
  have hnone : firstRejection (run (step w (Event.read (iIndex : Int) (iLength : Int)))
      events).settled rd2.awaited = none :=
    firstRejection_none (fun p e hp => absurd hp (hnop p))
  obtain ⟨rd3, v, g1, g2, _⟩ := settle_resolves hrd2 hnone
    (allFulfilled_of_settled (fun p hp => absurd hp (hnop p)))
    (by
      intro e he
      have := hs2.failed rd2 (List.getElem?_mem hrd2) e he
      rw [hnone] at this
      simp at this)
  rw [run_snoc]
  exact ⟨rd3, v, g1, g2⟩

theorem settle_fails {w : World} (hs : Sound w) {r p : Nat} {rd : Read} {e : JSError}
    (hrd : w.reads[r]? = some rd) (hp : Slot.promise p ∈ rd.awaited)
    (hin : (p, Outcome.rejected e) ∈ w.settled) :
    ∃ rd2 e2, (settle w r).reads[r]? = some rd2 ∧ rd2.outcome = some (Except.error e2) := by
  have hnever : ∀ v, rd.outcome ≠ some (Except.ok v) := by
    intro v hv
    have hf := hs.resolved rd (List.getElem?_mem hrd) v hv p hp
    have := settled_unique hs.nodup hf hin
    simp at this
  rcases settle_cases w r with h | ⟨rd1, e1, h1, _, _, h⟩ | ⟨rd1, h1, _, h3, _, _⟩
  · rw [h]
    cases ho : rd.outcome with
    | none =>
      exfalso
      obtain ⟨e2, he2⟩ := firstRejection_isSome hp hin
      have : settle w r ≠ w := by
        intro hw
        simp only [settle, hrd, ho, Option.isSome_none, Bool.false_eq_true, if_false, he2] at hw
        have hr := congrArg (fun x => (x.reads[r]?).map (fun y => y.outcome)) hw
        simp only [List.getElem?_set, (List.getElem?_eq_some.1 hrd).1, if_true, hrd,
          Option.map_some', ho] at hr
        simp at hr
      exact this h
    | some o =>
      cases o with
      | ok v => exact absurd ho (hnever v)
      | error e2 => exact ⟨rd, e2, hrd, ho⟩
  · rw [hrd] at h1
    simp only [Option.some.injEq] at h1
    subst h1
    refine ⟨{ rd with outcome := some (Except.error e1) }, e1, ?_, rfl⟩
    simp only [h, List.getElem?_set, (List.getElem?_eq_some.1 hrd).1, if_true]
  · exfalso
    rw [hrd] at h1
    simp only [Option.some.injEq] at h1
    subst h1
    obtain ⟨e2, he2⟩ := firstRejection_isSome hp hin
    rw [he2] at h3
    simp at h3

/-- C27: evaluation at a failing input.  `read(0, 2)` is answered with two records and
settles; a second `read(0, 2)` finds both slots resolved, issues no request and returns a
promise that is still pending; `refresh()` is called before the reaction of that promise runs.
The promise is not rejected with an error whose `canceled` is true: it resolves, with the
context `undefined` and no record. -/
theorem refresh_after_read_of_resolved_range_resolves :
    (run (World.init (CollectionCache.create 0 "/~/Employees" ""))
      [Event.read 0 2, Event.respond 0 ⟨some "$metadata#TEAMS", ["a", "b"]⟩, Event.settle 0,
        Event.read 0 2]).requests.length = 1 ∧
    ((run (World.init (CollectionCache.create 0 "/~/Employees" ""))
      [Event.read 0 2, Event.respond 0 ⟨some "$metadata#TEAMS", ["a", "b"]⟩, Event.settle 0,
        Event.read 0 2]).reads[1]?).map (fun rd => rd.outcome) = some none ∧
    ((run (World.init (CollectionCache.create 0 "/~/Employees" ""))
      [Event.read 0 2, Event.respond 0 ⟨some "$metadata#TEAMS", ["a", "b"]⟩, Event.settle 0,
        Event.read 0 2, Event.refresh, Event.settle 1]).reads[1]?).map (fun rd => rd.outcome) =
      some (some (Except.ok ⟨none, []⟩)) := by
  decide

/-! ## The known length under several short responses -/

/-- C29: evaluation at a failing input.  `read(0, 2)` and `read(4, 1)` are issued in one turn
against a collection that holds the single record "a".  The answer to request 0 carries one
record and sets `iMaxElements` to 1; the answer to request 1 carries no record and sets
`iMaxElements` to 4, although it was known to be 1 and no refresh happened. -/
theorem later_short_response_increases_iMaxElements :
    (run (World.init (CollectionCache.create 0 "/~/Employees" ""))
      [Event.read 0 2, Event.read 4 1]).requests.map (fun q => (q.iStart, q.iEnd)) =
      [(0, 2), (4, 5)] ∧
    (run (World.init (CollectionCache.create 0 "/~/Employees" ""))
      [Event.read 0 2, Event.read 4 1,
        Event.respond 0 ⟨some "$metadata#TEAMS", ["a"]⟩]).oCache.iMaxElements = 1 ∧
    (run (World.init (CollectionCache.create 0 "/~/Employees" ""))
      [Event.read 0 2, Event.read 4 1,
        Event.respond 0 ⟨some "$metadata#TEAMS", ["a"]⟩,
        Event.respond 1 ⟨some "$metadata#TEAMS", []⟩]).oCache.iMaxElements = 4 ∧
    (run (World.init (CollectionCache.create 0 "/~/Employees" ""))
      [Event.read 0 2, Event.read 4 1,
        Event.respond 0 ⟨some "$metadata#TEAMS", ["a"]⟩,
        Event.respond 1 ⟨some "$metadata#TEAMS", []⟩]).oCache.aElements.id = 0 ∧
    (run (World.init (CollectionCache.create 0 "/~/Employees" ""))
      [Event.read 0 2, Event.read 4 1,
        Event.respond 0 ⟨some "$metadata#TEAMS", ["a"]⟩,
        Event.respond 1 ⟨some "$metadata#TEAMS", []⟩]).settled =
      [(0, Outcome.fulfilled), (1, Outcome.fulfilled)] := by
  decide

/-! ## A request that fails at the requestor -/

theorem reject_same_store {w : World} {p : Nat} {q : Request} (oError : JSError)
    (hq : w.requests[p]? = some q) (hf : w.isSettled p = false)
    (hid : q.aElements = w.oCache.aElements.id) :
    reject w p oError = World.mk
      { w.oCache with
        aElements := { w.oCache.aElements with
          items := fill w.oCache.aElements.items Slot.empty q.iStart q.iEnd } }
      w.requests (w.settled ++ [(p, Outcome.rejected oError)]) w.reads := by
  simp [reject, hq, hf, hid]

theorem read_of_empty_range_issues_one_request (w : World) (iStart iEnd : Nat)
    (hlt : iStart < iEnd)
    (hclip : w.oCache.iMaxElements = -1 ∨ (iEnd : Int) ≤ w.oCache.iMaxElements)
    (he : ∀ k, iStart ≤ k → k < iEnd → elementAt w.oCache.aElements.items k = Slot.empty) :
    ∃ w4 q2, CollectionCache.read w (iStart : Int) ((iEnd - iStart : Nat) : Int) = Except.ok w4 ∧
      w4.requests = w.requests ++ [q2] ∧ q2.iStart = iStart ∧ q2.iEnd = iEnd ∧
      q2.sUrl = w.oCache.sUrl ++ "$skip=" ++ toString iStart ++ "&$top=" ++
        toString ((iEnd : Int) - (iStart : Int)) := by
  obtain ⟨w4, new, hr, hd⟩ := read_done w iStart (iEnd - iStart)
  have hc : (clippedEnd w.oCache (iStart : Int) ((iEnd - iStart : Nat) : Int)).toNat = iEnd := by
    have hn : ¬ (w.oCache.iMaxElements ≥ 0 ∧
        (iStart : Int) + ((iEnd - iStart : Nat) : Int) > w.oCache.iMaxElements) := by omega
    simp only [clippedEnd, hn, if_false]
    omega
  rw [hc] at hd
  obtain ⟨q2, hq2, g1, g2⟩ := readDone_all_empty hd hlt he
  refine ⟨w4, q2, hr, by rw [hd.requests, hq2], g1, g2, ?_⟩
  have := (hd.issued q2 (by rw [hq2]; simp)).2
  rw [this, g1, g2]

/-- C11 (amended): a read in a world a cache can get into has issued request `p` for the range
`[q.iStart, q.iEnd)`; no refresh happens and the requestor then rejects `p` with `oError`.
Every slot of the range becomes empty and every slot outside it stays as it is; the promise of
`p` is rejected with `oError` itself; the promise the read returned never resolves with data, it
is rejected as soon as its reaction runs, with the error of the awaited promise that was
rejected first, and that is `oError` unless another awaited promise had been rejected before;
and a read of the same range right after the failure issues exactly one request, with the same
range and the same URL, provided `iMaxElements` is unknown or not below the end of the range. -/
theorem failed_request_resets_its_range (oCache : CollectionCache) (before between : List Event)
    (iIndex iLength p : Nat) (oError : JSError) (w0 w1 w2 : World)
    (h0 : w0 = run (World.init oCache) before)
    (h1 : CollectionCache.read w0 (iIndex : Int) (iLength : Int) = Except.ok w1)
    (hp1 : w0.requests.length ≤ p) (hp2 : p < w1.requests.length)
    (h2 : w2 = run w1 between)
    (hsame : w2.oCache.aElements.id = w1.oCache.aElements.id)
    (hflight : w2.isSettled p = false) :
    ∃ q, w1.requests[p]? = some q ∧ q.iStart < q.iEnd ∧
      (∀ k, q.iStart ≤ k → k < q.iEnd →
        elementAt (reject w2 p oError).oCache.aElements.items k = Slot.empty) ∧
      (∀ k, ¬ (q.iStart ≤ k ∧ k < q.iEnd) →
        elementAt (reject w2 p oError).oCache.aElements.items k =
          elementAt w2.oCache.aElements.items k) ∧
      (reject w2 p oError).settled = w2.settled ++ [(p, Outcome.rejected oError)] ∧
      (∀ later : List Event, ∃ rd,
        (run (reject w2 p oError) later).reads[w0.reads.length]? = some rd ∧
        (∀ v, rd.outcome ≠ some (Except.ok v)) ∧
        (∀ e, rd.outcome = some (Except.error e) →
          firstRejection (run (reject w2 p oError) later).settled rd.awaited = some e) ∧
        ((∀ p2 e2, Slot.promise p2 ∈ rd.awaited → (p2, Outcome.rejected e2) ∉ w2.settled) →
          ∀ e, rd.outcome = some (Except.error e) → e = oError) ∧
        ∃ rd2 e, (settle (run (reject w2 p oError) later) w0.reads.length).reads[
            w0.reads.length]? = some rd2 ∧
          rd2.outcome = some (Except.error e)) ∧
      ((reject w2 p oError).oCache.iMaxElements = -1 ∨
          (q.iEnd : Int) ≤ (reject w2 p oError).oCache.iMaxElements →
        ∃ w4 q2, CollectionCache.read (reject w2 p oError) (q.iStart : Int)
            ((q.iEnd - q.iStart : Nat) : Int) = Except.ok w4 ∧
          w4.requests = (reject w2 p oError).requests ++ [q2] ∧
          q2.iStart = q.iStart ∧ q2.iEnd = q.iEnd ∧ q2.sUrl = q.sUrl) := by
  have hs : Sound w0 := by
    rw [h0]
    exact run_sound before _ (sound_init oCache)
  obtain ⟨new, hd⟩ := read_ok_done h1
  have hs1 : Sound w1 := readDone_sound hd hs
  have hs2 : Sound w2 := by
    rw [h2]
    exact run_sound between _ hs1
  have hl12 : Later w1 w2 := by
    rw [h2]
    exact run_later between _
  have hj : ∃ q, new[p - w0.requests.length]? = some q := by
    have : p - w0.requests.length < new.length := by
      have := congrArg List.length hd.requests
      rw [List.length_append] at this
      omega
    exact ⟨_, List.getElem?_eq_getElem this⟩
  obtain ⟨q, hq⟩ := hj
  have hqm : q ∈ new := List.getElem?_mem hq
  obtain ⟨hq1, rd1, hrd1, _, hmem⟩ := readDone_awaits hd hq
  have e : w0.requests.length + (p - w0.requests.length) = p := by omega
  rw [e] at hq1 hmem
  obtain ⟨_, hlt, _, _, _, _⟩ := hd.runs q hqm
  obtain ⟨hqid, hqurl⟩ := hd.issued q hqm
  have hq2 : w2.requests[p]? = some q := later_request hl12 hq1
  have hid : q.aElements = w2.oCache.aElements.id := by
    rw [hsame, hqid, hd.cache]
  have hrej := reject_same_store oError hq2 hflight hid
  have hstep : step w2 (Event.reject p oError) = reject w2 p oError := rfl
  have hs3 : Sound (reject w2 p oError) := by
    rw [← hstep]
    exact step_sound _ _ hs2
  have hl23 : Later w2 (reject w2 p oError) := by
    rw [← hstep]
    exact step_later _ _
  have hsettled : (reject w2 p oError).settled = w2.settled ++ [(p, Outcome.rejected oError)] := by
    rw [hrej]
  have hitems : (reject w2 p oError).oCache.aElements.items =
      fill w2.oCache.aElements.items Slot.empty q.iStart q.iEnd := by
    rw [hrej]
  have hempty : ∀ k, q.iStart ≤ k → k < q.iEnd →
      elementAt (reject w2 p oError).oCache.aElements.items k = Slot.empty := by
    intro k k1 k2
    rw [hitems, elementAt_fill]
    simp [k1, k2]
  refine ⟨q, hq1, hlt, hempty, ?_, hsettled, ?_, ?_⟩
  · intro k hk
    rw [hitems, elementAt_fill]
    simp only [hk, if_false]
  · intro later
    have hsl : Sound (run (reject w2 p oError) later) := run_sound later _ hs3
    have hl3l : Later (reject w2 p oError) (run (reject w2 p oError) later) := run_later later _
    obtain ⟨rd, hrd, _, _, haw, _⟩ :=
      (Later.trans hl12 (Later.trans hl23 hl3l)).reads _ rd1 hrd1
    have hmem2 : Slot.promise p ∈ rd.awaited := by rw [haw]; exact hmem
    obtain ⟨more, hmore⟩ := hl3l.settled
    have hset : (run (reject w2 p oError) later).settled =
        w2.settled ++ (p, Outcome.rejected oError) :: more := by
      rw [hmore, hsettled]
      simp
    have hin : (p, Outcome.rejected oError) ∈ (run (reject w2 p oError) later).settled := by
      rw [hset]
      simp
    have hrdm : rd ∈ (run (reject w2 p oError) later).reads := List.getElem?_mem hrd
    refine ⟨rd, hrd, ?_, hsl.failed rd hrdm, ?_, settle_fails hsl hrd hmem2 hin⟩
    · intro v hv
      have hf := hsl.resolved rd hrdm v hv p hmem2
      have := settled_unique hsl.nodup hf hin
      simp at this
    · intro hfirst e2 he2
      have hf := hsl.failed rd hrdm e2 he2
      rw [hset, firstRejection_append_none (firstRejection_none hfirst)] at hf
      simp only [firstRejection, List.findSome?_cons, hmem2, if_true, Option.some.injEq] at hf
      exact hf.symm
  · intro hclip
    obtain ⟨w4, q2, g1, g2, g3, g4, g5⟩ :=
      read_of_empty_range_issues_one_request (reject w2 p oError) q.iStart q.iEnd hlt hclip hempty
    refine ⟨w4, q2, g1, g2, g3, g4, ?_⟩
    rw [g5, hqurl, hl23.sUrl, hl12.sUrl]
    have : w1.oCache.sUrl = w0.oCache.sUrl := by rw [hd.cache]
    rw [this]

/-- Witness for C11 (amended): the request of `read(0, 2)` on a new cache fails. -/
theorem failed_request_resets_its_range_witness :
    CollectionCache.read (World.init (CollectionCache.create 0 "/~/Employees" ""))
      ((0 : Nat) : Int) ((2 : Nat) : Int) =
      Except.ok (step (World.init (CollectionCache.create 0 "/~/Employees" "")) (Event.read 0 2)) ∧
    ∃ q, (step (World.init (CollectionCache.create 0 "/~/Employees" ""))
        (Event.read 0 2)).requests[0]? = some q ∧ q.iStart < q.iEnd ∧
      (∀ k, q.iStart ≤ k → k < q.iEnd →
        elementAt (reject (step (World.init (CollectionCache.create 0 "/~/Employees" ""))
          (Event.read 0 2)) 0 ⟨"Service Unavailable", false⟩).oCache.aElements.items k =
          Slot.empty) ∧
      (reject (step (World.init (CollectionCache.create 0 "/~/Employees" ""))
        (Event.read 0 2)) 0 ⟨"Service Unavailable", false⟩).settled =
        (step (World.init (CollectionCache.create 0 "/~/Employees" ""))
          (Event.read 0 2)).settled ++ [(0, Outcome.rejected ⟨"Service Unavailable", false⟩)] := by
  refine ⟨rfl, ?_⟩
  obtain ⟨q, g1, g2, g3, _, g5, _⟩ := failed_request_resets_its_range
    (CollectionCache.create 0 "/~/Employees" "") [] [] 0 2 0 ⟨"Service Unavailable", false⟩
    (World.init (CollectionCache.create 0 "/~/Employees" ""))
    (step (World.init (CollectionCache.create 0 "/~/Employees" "")) (Event.read 0 2))
    (step (World.init (CollectionCache.create 0 "/~/Employees" "")) (Event.read 0 2))
    rfl rfl (by decide) (by decide) rfl rfl (by decide)
  exact ⟨q, g1, g2, g3, g5⟩

/-- C11 as stated fails, in two ways.  First: `read(0, 2)` issues request 0 and `read(0, 4)`
issues request 1 for the range `[2, 4)`; both requests fail, request 0 first; the promise of
the second read is rejected with the error of request 0, not with the error the requestor
produced for request 1.  Second: `read(0, 2)` and `read(2, 2)` are issued, request 0 is answered
with one record, so that `iMaxElements` is 1, then request 1 fails; a later `read(2, 2)` issues
no request. -/
theorem failed_request_error_and_retry :
    (run (World.init (CollectionCache.create 0 "/~/Employees" ""))
      [Event.read 0 2, Event.read 0 4]).requests.map (fun q => (q.iStart, q.iEnd)) =
      [(0, 2), (2, 4)] ∧
    ((run (World.init (CollectionCache.create 0 "/~/Employees" ""))
      [Event.read 0 2, Event.read 0 4, Event.reject 0 ⟨"Service Unavailable", false⟩,
        Event.reject 1 ⟨"Gateway Timeout", false⟩, Event.settle 1]).reads[1]?).map
        (fun rd => rd.outcome) =
      some (some (Except.error ⟨"Service Unavailable", false⟩)) ∧
    (run (World.init (CollectionCache.create 0 "/~/Employees" ""))
      [Event.read 0 2, Event.read 2 2, Event.respond 0 ⟨some "$metadata#TEAMS", ["a"]⟩,
        Event.reject 1 ⟨"Gateway Timeout", false⟩]).requests.map (fun q => (q.iStart, q.iEnd)) =
      [(0, 2), (2, 4)] ∧
    (run (World.init (CollectionCache.create 0 "/~/Employees" ""))
      [Event.read 0 2, Event.read 2 2, Event.respond 0 ⟨some "$metadata#TEAMS", ["a"]⟩,
        Event.reject 1 ⟨"Gateway Timeout", false⟩]).oCache.iMaxElements = 1 ∧
    (run (World.init (CollectionCache.create 0 "/~/Employees" ""))
      [Event.read 0 2, Event.read 2 2, Event.respond 0 ⟨some "$metadata#TEAMS", ["a"]⟩,
        Event.reject 1 ⟨"Gateway Timeout", false⟩, Event.read 2 2]).requests.length = 2 := by
  decide

/-! ## Reads issued one after the other -/

theorem settle_frame (w : World) (r : Nat) :
    (settle w r).oCache = w.oCache ∧ (settle w r).requests = w.requests ∧
    (settle w r).settled = w.settled ∧
    ∀ old rd, w.reads = old ++ [rd] → r = old.length →
      ∃ rd2, (settle w r).reads = old ++ [rd2] := by
  rcases settle_cases w r with h | ⟨rd1, e, _, _, _, h⟩ | ⟨rd1, _, _, _, _, h⟩
  · rw [h]
    exact ⟨rfl, rfl, rfl, fun old rd ho _ => ⟨rd, ho⟩⟩
  · rw [h]
    refine ⟨rfl, rfl, rfl, ?_⟩
    intro old rd ho hr
    subst hr
    exact ⟨_, by rw [ho, set_last]⟩
  · rw [h]
    refine ⟨rfl, rfl, rfl, ?_⟩
    intro old rd ho hr
    subst hr
    exact ⟨_, by rw [ho, set_last]⟩

theorem settle_last_settled {w : World} {old : List Read} {rd rd2 : Read}
    (ho : w.reads = old ++ [rd]) (hold : ∀ x ∈ old, x.outcome ≠ none)
    (h2 : (settle w old.length).reads[old.length]? = some rd2) (hsome : rd2.outcome ≠ none) :
    (settle w old.length).reads.length = old.length + 1 ∧
    ∀ x ∈ (settle w old.length).reads, x.outcome ≠ none := by
  obtain ⟨_, _, _, h⟩ := settle_frame w old.length
  obtain ⟨rd3, h3⟩ := h old rd ho rfl
  rw [h3] at h2 ⊢
  simp only [List.getElem?_concat_length, Option.some.injEq] at h2
  subst h2
  refine ⟨by simp, ?_⟩
  intro x hx
  rcases List.mem_append.1 hx with h | h
  · exact hold x h
  · simp only [List.mem_singleton] at h
    rw [h]
    exact hsome

theorem sequentialRead_eq (w : World) (iIndex iLength : Nat)
    (answer : Except JSError ODataResponse) :
    sequentialRead w iIndex iLength answer =
      settle (match answer with
        | Except.ok oResult =>
          respond (step w (Event.read (iIndex : Int) (iLength : Int))) w.requests.length oResult
        | Except.error oError =>
          reject (step w (Event.read (iIndex : Int) (iLength : Int))) w.requests.length oError)
        w.reads.length := by
  cases answer <;> rfl

theorem answer_unknown_request (w1 : World) (p : Nat) (answer : Except JSError ODataResponse)
    (h : w1.requests[p]? = none) :
    (match answer with
      | Except.ok oResult => respond w1 p oResult
      | Except.error oError => reject w1 p oError) = w1 := by
  cases answer <;> simp [respond, reject, h]

theorem sequentialRead_sound {w : World} (hs : Sound w) (iIndex iLength : Nat)
    (answer : Except JSError ODataResponse) : Sound (sequentialRead w iIndex iLength answer) :=
  run_sound _ _ hs

theorem sequentialRead_empty {w : World} {done : List (Nat × Nat)} (hinv : Sequential w done)
    (iIndex iLength : Nat) (answer : Except JSError ODataResponse)
    (hc : ¬ (iIndex : Int) < clippedEnd w.oCache (iIndex : Int) (iLength : Int)) :
    Sequential (sequentialRead w iIndex iLength answer) (done ++ [(iIndex, iLength)]) ∧
    (step w (Event.read (iIndex : Int) (iLength : Int))).requests = w.requests ∧
    (sequentialRead w iIndex iLength answer).requests = w.requests ∧
    (sequentialRead w iIndex iLength answer).reads.length = w.reads.length + 1 ∧
    (sequentialRead w iIndex iLength answer).oCache = w.oCache := by
  have he : (clippedEnd w.oCache (iIndex : Int) (iLength : Int)).toNat ≤ iIndex := by omega
  obtain ⟨g1, g2, g3, g4, g5⟩ := read_resolved_step w iIndex iLength
    (fun k h1 h2 => absurd h2 (by omega))
  have hnone : (step w (Event.read (iIndex : Int) (iLength : Int))).requests[
      w.requests.length]? = none := by
    rw [g1]
    simp
  have heq : sequentialRead w iIndex iLength answer =
      settle (step w (Event.read (iIndex : Int) (iLength : Int))) w.reads.length := by
    rw [sequentialRead_eq, answer_unknown_request _ _ _ hnone]
  obtain ⟨f1, f2, f3, _⟩ := settle_frame (step w (Event.read (iIndex : Int) (iLength : Int)))
    w.reads.length
  have hget : (step w (Event.read (iIndex : Int) (iLength : Int))).reads[w.reads.length]? =
      some ⟨iIndex, (clippedEnd w.oCache (iIndex : Int) (iLength : Int)).toNat,
        slice w.oCache.aElements.items iIndex
          (clippedEnd w.oCache (iIndex : Int) (iLength : Int)).toNat, none⟩ := by
    rw [g4]; simp
  obtain ⟨rd2, v, k1, k2, _⟩ := settle_resolves hget
    (firstRejection_none (fun p e hp => absurd hp (g5 p)))
    (allFulfilled_of_settled (fun p hp => absurd hp (g5 p)))
    (by intro e he; simp at he)
  obtain ⟨m1, m2⟩ := settle_last_settled g4 hinv.settledAll k1 (by rw [k2]; simp)
  have hcache : (sequentialRead w iIndex iLength answer).oCache = w.oCache := by
    rw [heq, f1, g2]
  refine ⟨⟨sequentialRead_sound hinv.sound _ _ _, by rw [heq]; exact m2, ?_⟩, g1,
    by rw [heq, f2, g1], by rw [heq]; exact m1, hcache⟩
  intro k hk hne
  rw [hcache] at hk hne
  rw [inRanges_append, hinv.inRange k hk hne]
  rfl

theorem sequentialRead_request {w : World} {done : List (Nat × Nat)} (hinv : Sequential w done)
    (iIndex iLength : Nat) (answer : Except JSError ODataResponse)
    (hdisj : ∀ d ∈ done, ∀ k, ¬ (d.1 ≤ k ∧ k < d.1 + d.2 ∧ iIndex ≤ k ∧ k < iIndex + iLength))
    (hlen : ∀ oResult, answer = Except.ok oResult → oResult.value.length ≤ iLength)
    (hc : (iIndex : Int) < clippedEnd w.oCache (iIndex : Int) (iLength : Int)) :
    Sequential (sequentialRead w iIndex iLength answer) (done ++ [(iIndex, iLength)]) ∧
    (∃ q, (step w (Event.read (iIndex : Int) (iLength : Int))).requests = w.requests ++ [q] ∧
      q.iStart = iIndex ∧
      q.iEnd = (clippedEnd w.oCache (iIndex : Int) (iLength : Int)).toNat) ∧
    (sequentialRead w iIndex iLength answer).requests =
      (step w (Event.read (iIndex : Int) (iLength : Int))).requests ∧
    (sequentialRead w iIndex iLength answer).reads.length = w.reads.length + 1 ∧
    ((∀ oResult, answer = Except.ok oResult → (clippedEnd w.oCache (iIndex : Int)
        (iLength : Int)).toNat - iIndex ≤ oResult.value.length) →
      (sequentialRead w iIndex iLength answer).oCache.iMaxElements = w.oCache.iMaxElements) := by
  have hlt : iIndex < (clippedEnd w.oCache (iIndex : Int) (iLength : Int)).toNat := by omega
  obtain ⟨hle, hmax⟩ := clippedEnd_le w.oCache iIndex iLength
  have hcond : ∀ k, k < (clippedEnd w.oCache (iIndex : Int) (iLength : Int)).toNat →
      (w.oCache.iMaxElements < 0 ∨ (k : Int) < w.oCache.iMaxElements) := by
    intro k hk
    by_cases h0 : w.oCache.iMaxElements < 0
    · exact Or.inl h0
    · have := hmax (by omega)
      right
      omega
  have hempty : ∀ k, iIndex ≤ k →
      k < (clippedEnd w.oCache (iIndex : Int) (iLength : Int)).toNat →
      elementAt w.oCache.aElements.items k = Slot.empty := by
    intro k k1 k2
    by_contra hne
    have hin := hinv.inRange k (hcond k k2) hne
    obtain ⟨d, hd, d1, d2⟩ := (inRanges_iff done k).1 hin
    exact hdisj d hd k ⟨d1, d2, k1, by omega⟩
  obtain ⟨w1, new, hr, hd⟩ := read_done w iIndex iLength
  have hstep : step w (Event.read (iIndex : Int) (iLength : Int)) = w1 := by
    simp only [step, hr]
  obtain ⟨q, hnew, hq1, hq2⟩ := readDone_all_empty hd hlt hempty
  subst hnew
  have hreq : w1.requests = w.requests ++ [q] := hd.requests
  have hqget : w1.requests[w.requests.length]? = some q := by
    rw [hreq]; simp
  have hflight : w1.isSettled w.requests.length = false := by
    rw [not_settled_iff, hd.settled]
    intro hmem
    obtain ⟨s, hs, hs2⟩ := List.mem_map.1 hmem
    have := hinv.sound.known s hs
    omega
  have hid : q.aElements = w1.oCache.aElements.id := by
    rw [(hd.issued q (by simp)).1, hd.cache]
  have hfilled : ∀ k, iIndex ≤ k →
      k < (clippedEnd w.oCache (iIndex : Int) (iLength : Int)).toNat →
      elementAt w1.oCache.aElements.items k = Slot.promise w.requests.length := by
    intro k k1 k2
    have := hd.filled 0 q (by simp) k ⟨by rw [hq1]; exact k1, by rw [hq2]; exact k2⟩
    simpa using this
  have hkept : ∀ k, ¬ (iIndex ≤ k ∧
      k < (clippedEnd w.oCache (iIndex : Int) (iLength : Int)).toNat) →
      elementAt w1.oCache.aElements.items k = elementAt w.oCache.aElements.items k := by
    intro k hk
    apply hd.kept k
    intro q2 hq2m
    simp only [List.mem_singleton] at hq2m
    subst hq2m
    intro hcov
    exact hk ⟨by rw [← hq1]; exact hcov.1, by rw [← hq2]; exact hcov.2⟩
  have hmax1 : w1.oCache.iMaxElements = w.oCache.iMaxElements := by rw [hd.cache]
  have hreads : w1.reads = w.reads ++ [⟨iIndex,
      (clippedEnd w.oCache (iIndex : Int) (iLength : Int)).toNat,
      slice w1.oCache.aElements.items iIndex
        (clippedEnd w.oCache (iIndex : Int) (iLength : Int)).toNat, none⟩] := hd.reads
  have hrdget : w1.reads[w.reads.length]? = some ⟨iIndex,
      (clippedEnd w.oCache (iIndex : Int) (iLength : Int)).toNat,
      slice w1.oCache.aElements.items iIndex
        (clippedEnd w.oCache (iIndex : Int) (iLength : Int)).toNat, none⟩ := by
    rw [hreads]; simp
  have hp : Slot.promise w.requests.length ∈ slice w1.oCache.aElements.items iIndex
      (clippedEnd w.oCache (iIndex : Int) (iLength : Int)).toNat :=
    mem_slice_of_elementAt (hfilled iIndex (Nat.le_refl _) hlt) (by simp) (Nat.le_refl _) hlt
  have honly : ∀ p2, Slot.promise p2 ∈ slice w1.oCache.aElements.items iIndex
      (clippedEnd w.oCache (iIndex : Int) (iLength : Int)).toNat → p2 = w.requests.length := by
    intro p2 hp2
    obtain ⟨k, k1, k2, _, k4⟩ := mem_slice hp2
    rw [hfilled k k1 k2] at k4
    simp only [Slot.promise.injEq] at k4
    exact k4.symm
  have hsound := sequentialRead_sound hinv.sound iIndex iLength answer
  rw [sequentialRead_eq] at hsound ⊢
  rw [hstep] at hsound ⊢
  refine ⟨?_, ⟨q, hreq, hq1, hq2⟩, ?_⟩
  · cases answer with
    | error oError =>
      simp only at hsound ⊢
      have hrej := reject_same_store oError hqget hflight hid
      have hs2 : Sound (reject w1 w.requests.length oError) := by
        have := step_sound w1 (Event.reject w.requests.length oError)
          (readDone_sound hd hinv.sound)
        exact this
      obtain ⟨f1, _, _, _⟩ := settle_frame (reject w1 w.requests.length oError) w.reads.length
      have hrdget2 : (reject w1 w.requests.length oError).reads[w.reads.length]? = some ⟨iIndex,
          (clippedEnd w.oCache (iIndex : Int) (iLength : Int)).toNat,
          slice w1.oCache.aElements.items iIndex
            (clippedEnd w.oCache (iIndex : Int) (iLength : Int)).toNat, none⟩ := by
        rw [hrej]; exact hrdget
      obtain ⟨rd2, e2, k1, k2⟩ := settle_fails hs2 hrdget2 hp
        (show (w.requests.length, Outcome.rejected oError) ∈
          (reject w1 w.requests.length oError).settled by rw [hrej]; simp)
      obtain ⟨m1, m2⟩ := settle_last_settled
        (show (reject w1 w.requests.length oError).reads = _ by rw [hrej]; exact hreads)
        hinv.settledAll k1 (by rw [k2]; simp)
      refine ⟨hsound, m2, ?_⟩
      intro k hk hne
      rw [f1, hrej] at hk hne
      simp only [elementAt_fill, hq1, hq2] at hne
      simp only [hmax1] at hk
      by_cases hin : iIndex ≤ k ∧ k < (clippedEnd w.oCache (iIndex : Int) (iLength : Int)).toNat
      · simp [hin] at hne
      · simp only [hin, if_false] at hne
        rw [hkept k hin] at hne
        rw [inRanges_append, hinv.inRange k hk hne]
        rfl
    | ok oResult =>
      simp only at hsound ⊢
      have hresp := respond_same_store oResult hqget hflight hid
      have hs2 : Sound (respond w1 w.requests.length oResult) := by
        have := step_sound w1 (Event.respond w.requests.length oResult)
          (readDone_sound hd hinv.sound)
        exact this
      obtain ⟨f1, _, _, _⟩ := settle_frame (respond w1 w.requests.length oResult) w.reads.length
      have hrdget2 : (respond w1 w.requests.length oResult).reads[w.reads.length]? =
          some ⟨iIndex, (clippedEnd w.oCache (iIndex : Int) (iLength : Int)).toNat,
            slice w1.oCache.aElements.items iIndex
              (clippedEnd w.oCache (iIndex : Int) (iLength : Int)).toNat, none⟩ := by
        rw [hresp]; exact hrdget
      have hin : (w.requests.length, Outcome.fulfilled) ∈
          (respond w1 w.requests.length oResult).settled := by rw [hresp]; simp
      obtain ⟨rd2, v, k1, k2, _⟩ := settle_resolves hrdget2
        (firstRejection_none (fun p2 e hp2 hrj => by
          have := honly p2 hp2
          subst this
          have := settled_unique hs2.nodup hin hrj
          simp at this))
        (allFulfilled_of_settled (fun p2 hp2 => by
          have := honly p2 hp2
          subst this
          exact hin))
        (by intro e he; simp at he)
      obtain ⟨m1, m2⟩ := settle_last_settled
        (show (respond w1 w.requests.length oResult).reads = _ by rw [hresp]; exact hreads)
        hinv.settledAll k1 (by rw [k2]; simp)
      refine ⟨hsound, m2, ?_⟩
      have hL := hlen oResult rfl
      intro k hk hne
      rw [f1, hresp] at hk hne
      simp only at hk hne
      rw [inRanges_append]
      by_cases hin2 : iIndex ≤ k ∧ k < iIndex + iLength
      · simp [hin2]
      · by_cases hshort : (oResult.value.length : Int) < (q.iEnd : Int) - (q.iStart : Int)
        · rw [hq1, hq2] at hshort
          simp only [applyResult, hq1, hq2, hshort, if_true, elementAt_storeLoop, Nat.add_zero,
            elementAt_splice] at hk hne
          have hk2 : k < iIndex := by
            rcases hk with hk | hk
            · omega
            · omega
          have c1 : ¬ (iIndex ≤ k ∧ k < iIndex + oResult.value.length) := by omega
          have c2 : k < iIndex + oResult.value.length := by omega
          simp only [c1, if_false] at hne
          simp only [c2, if_true] at hne
          rw [hkept k (by omega)] at hne
          rw [hinv.inRange k (hcond k (by omega)) hne]
          rfl
        · rw [hq1, hq2] at hshort
          simp only [applyResult, hq1, hq2, hshort, if_false, elementAt_storeLoop,
            Nat.add_zero] at hk hne
          have c1 : ¬ (iIndex ≤ k ∧ k < iIndex + oResult.value.length) := by omega
          simp only [c1, if_false] at hne
          rw [hkept k (by omega)] at hne
          rw [hmax1] at hk
          rw [hinv.inRange k hk hne]
          rfl
  · cases answer with
    | error oError =>
      simp only
      have hrej := reject_same_store oError hqget hflight hid
      obtain ⟨f1, f2, _, _⟩ := settle_frame (reject w1 w.requests.length oError) w.reads.length
      have hrdget2 : (reject w1 w.requests.length oError).reads[w.reads.length]? = some ⟨iIndex,
          (clippedEnd w.oCache (iIndex : Int) (iLength : Int)).toNat,
          slice w1.oCache.aElements.items iIndex
            (clippedEnd w.oCache (iIndex : Int) (iLength : Int)).toNat, none⟩ := by
        rw [hrej]; exact hrdget
      obtain ⟨_, _, _, f4⟩ := settle_frame (reject w1 w.requests.length oError) w.reads.length
      obtain ⟨rd3, h3⟩ := f4 _ _
        (show (reject w1 w.requests.length oError).reads = _ by rw [hrej]; exact hreads) rfl
      refine ⟨by rw [f2, hrej], by rw [h3]; simp, ?_⟩
      intro _
      rw [f1, hrej]
      exact hmax1
    | ok oResult =>
      simp only
      have hresp := respond_same_store oResult hqget hflight hid
      obtain ⟨f1, f2, _, f4⟩ := settle_frame (respond w1 w.requests.length oResult)
        w.reads.length
      obtain ⟨rd3, h3⟩ := f4 _ _
        (show (respond w1 w.requests.length oResult).reads = _ by rw [hresp]; exact hreads) rfl
      refine ⟨by rw [f2, hresp], by rw [h3]; simp, ?_⟩
      intro hfull
      have hL := hfull oResult rfl
      rw [f1, hresp]
      have hshort : ¬ (oResult.value.length : Int) <
          (((clippedEnd w.oCache (iIndex : Int) (iLength : Int)).toNat : Nat) : Int) -
            (iIndex : Int) := by
        omega
      simp only [applyResult, hq1, hq2, hshort, if_false]
      exact hmax1

theorem sequentialRead_spec {w : World} {done : List (Nat × Nat)} (hinv : Sequential w done)
    (iIndex iLength : Nat) (answer : Except JSError ODataResponse)
    (hdisj : ∀ d ∈ done, ∀ k, ¬ (d.1 ≤ k ∧ k < d.1 + d.2 ∧ iIndex ≤ k ∧ k < iIndex + iLength))
    (hlen : ∀ oResult, answer = Except.ok oResult → oResult.value.length ≤ iLength) :
    Sequential (sequentialRead w iIndex iLength answer) (done ++ [(iIndex, iLength)]) ∧
    (sequentialRead w iIndex iLength answer).requests.length = w.requests.length +
      (if (iIndex : Int) < clippedEnd w.oCache (iIndex : Int) (iLength : Int) then 1 else 0) ∧
    (sequentialRead w iIndex iLength answer).reads.length = w.reads.length + 1 ∧
    (w.oCache.iMaxElements = -1 → 0 < iLength →
      (∀ oResult, answer = Except.ok oResult → oResult.value.length = iLength) →
      (sequentialRead w iIndex iLength answer).oCache.iMaxElements = -1 ∧
      (sequentialRead w iIndex iLength answer).requests.length = w.requests.length + 1) := by
  by_cases hc : (iIndex : Int) < clippedEnd w.oCache (iIndex : Int) (iLength : Int)
  · obtain ⟨g1, ⟨q, g2, _, _⟩, g3, g4, g5⟩ :=
      sequentialRead_request hinv iIndex iLength answer hdisj hlen hc
    have hcount : (sequentialRead w iIndex iLength answer).requests.length =
        w.requests.length + 1 := by
      rw [g3, g2]
      simp
    refine ⟨g1, by simp only [hc, if_true]; exact hcount, g4, ?_⟩
    intro hmax hpos hfull
    refine ⟨?_, hcount⟩
    rw [← hmax]
    apply g5
    intro oResult ho
    rw [clippedEnd_unknown _ _ _ hmax, hfull oResult ho]
    omega
  · obtain ⟨g1, _, g3, g4, g5⟩ := sequentialRead_empty hinv iIndex iLength answer hc
    refine ⟨g1, by simp only [hc, if_false]; rw [g3]; rfl, g4, ?_⟩
    intro hmax hpos _
    exfalso
    rw [clippedEnd_unknown _ _ _ hmax] at hc
    omega

theorem sequentialReads_spec : ∀ (reads : List (Nat × Nat × Except JSError ODataResponse))
    (w : World) (done : List (Nat × Nat)), Sequential w done →
    reads.Pairwise (fun a b => ∀ k,
      ¬ (a.1 ≤ k ∧ k < a.1 + a.2.1 ∧ b.1 ≤ k ∧ k < b.1 + b.2.1)) →
    (∀ r ∈ reads, ∀ d ∈ done, ∀ k,
      ¬ (d.1 ≤ k ∧ k < d.1 + d.2 ∧ r.1 ≤ k ∧ k < r.1 + r.2.1)) →
    (∀ r ∈ reads, ∀ oResult, r.2.2 = Except.ok oResult → oResult.value.length ≤ r.2.1) →
    Sequential (sequentialReads w reads) (done ++ reads.map (fun r => (r.1, r.2.1))) ∧
    (sequentialReads w reads).requests.length = w.requests.length + nonEmptyReads w reads ∧
    nonEmptyReads w reads ≤ reads.length ∧
    (sequentialReads w reads).reads.length = w.reads.length + reads.length ∧
    (w.oCache.iMaxElements = -1 →
      (∀ r ∈ reads, 0 < r.2.1 ∧
        ∀ oResult, r.2.2 = Except.ok oResult → oResult.value.length = r.2.1) →
      nonEmptyReads w reads = reads.length) := by
  intro reads
  induction reads with
  | nil =>
    intro w done hinv _ _ _
    simp only [sequentialReads, List.map_nil, List.append_nil, nonEmptyReads, List.length_nil,
      Nat.add_zero, Nat.le_refl, true_and, and_true]
    exact ⟨hinv, fun _ _ => trivial⟩
  | cons r rest ih =>
    intro w done hinv hpair hdone hlen
    obtain ⟨hr, hrest⟩ := List.pairwise_cons.1 hpair
    obtain ⟨g1, g2, g3, g4⟩ := sequentialRead_spec hinv r.1 r.2.1 r.2.2
      (hdone r (List.mem_cons_self _ _)) (hlen r (List.mem_cons_self _ _))
    obtain ⟨k1, k2, k3, k4, k5⟩ := ih (sequentialRead w r.1 r.2.1 r.2.2)
      (done ++ [(r.1, r.2.1)]) g1 hrest
      (by
        intro x hx d hd k
        rcases List.mem_append.1 hd with h | h
        · exact hdone x (List.mem_cons_of_mem _ hx) d h k
        · simp only [List.mem_singleton] at h
          subst h
          exact hr x hx k)
      (fun x hx => hlen x (List.mem_cons_of_mem _ hx))
    simp only [sequentialReads, nonEmptyReads, List.map_cons, List.length_cons]
    refine ⟨?_, ?_, ?_, ?_, ?_⟩
    · have : done ++ (r.1, r.2.1) :: rest.map (fun r => (r.1, r.2.1)) =
          done ++ [(r.1, r.2.1)] ++ rest.map (fun r => (r.1, r.2.1)) := by simp
      rw [this]
      exact k1
    · rw [k2, g2]
      omega
    · split <;> omega
    · rw [k4, g3]
      omega
    · intro hmax hfull
      obtain ⟨f1, f2⟩ := hfull r (List.mem_cons_self _ _)
      obtain ⟨m1, m2⟩ := g4 hmax f1 f2
      have := k5 m1 (fun x hx => hfull x (List.mem_cons_of_mem _ hx))
      rw [this]
      rw [g2] at m2
      omega

theorem sequential_init (oCache : CollectionCache) (h : oCache.aElements.items = []) :
    Sequential (World.init oCache) [] where
  sound := sound_init oCache
  settledAll := by simp [World.init]
  inRange := by
    intro k _ hne
    exfalso
    apply hne
    simp only [World.init, h, elementAt_nil]

/-- C17 (amended): reads are issued one after the other on a newly created cache, no two of
their ranges overlapping, each request answered (with at most as many records as the read asked
for, or with an error) and each promise settled before the next read is issued.  Then every
promise returned has settled, and the number of requests equals the number of those reads whose
range, clipped to `iMaxElements` as known when the read is issued, is not empty; it is at most
the number of reads, and it equals the number of reads when every read has a positive length
and every answer is an error or carries exactly as many records as the read asked for. -/
theorem sequential_reads_request_count (oRequestor : Nat) (sUrl sQuery : String)
    (reads : List (Nat × Nat × Except JSError ODataResponse))
    (hpair : reads.Pairwise (fun a b => ∀ k,
      ¬ (a.1 ≤ k ∧ k < a.1 + a.2.1 ∧ b.1 ≤ k ∧ k < b.1 + b.2.1)))
    (hlen : ∀ r ∈ reads, ∀ oResult, r.2.2 = Except.ok oResult →
      oResult.value.length ≤ r.2.1) :
    (sequentialReads (World.init (CollectionCache.create oRequestor sUrl sQuery))
      reads).requests.length =
      nonEmptyReads (World.init (CollectionCache.create oRequestor sUrl sQuery)) reads ∧
    nonEmptyReads (World.init (CollectionCache.create oRequestor sUrl sQuery)) reads ≤
      reads.length ∧
    ((∀ r ∈ reads, 0 < r.2.1 ∧
        ∀ oResult, r.2.2 = Except.ok oResult → oResult.value.length = r.2.1) →
      (sequentialReads (World.init (CollectionCache.create oRequestor sUrl sQuery))
        reads).requests.length = reads.length) ∧
    (sequentialReads (World.init (CollectionCache.create oRequestor sUrl sQuery))
      reads).reads.length = reads.length ∧
    ∀ rd ∈ (sequentialReads (World.init (CollectionCache.create oRequestor sUrl sQuery))
      reads).reads, rd.outcome ≠ none := by
  obtain ⟨g1, g2, g3, g4, g5⟩ := sequentialReads_spec reads
    (World.init (CollectionCache.create oRequestor sUrl sQuery)) []
    (sequential_init _ rfl) hpair (fun _ _ d hd => by simp at hd) hlen
  have h0 : (World.init (CollectionCache.create oRequestor sUrl sQuery)).requests.length = 0 :=
    rfl
  have h1 : (World.init (CollectionCache.create oRequestor sUrl sQuery)).reads.length = 0 := rfl
  rw [h0, Nat.zero_add] at g2
  rw [h1, Nat.zero_add] at g4
  refine ⟨g2, g3, ?_, g4, g1.settledAll⟩
  intro hfull
  rw [g2]
  exact g5 rfl hfull

/-- Witness for C17 (amended): `read(0, 2)` is answered with two records, then `read(2, 2)`
fails; two requests are issued. -/
theorem sequential_reads_request_count_witness :
    (sequentialReads (World.init (CollectionCache.create 0 "/~/Employees" ""))
      [(0, 2, Except.ok ⟨some "$metadata#TEAMS", ["a", "b"]⟩),
        (2, 2, Except.error ⟨"Service Unavailable", false⟩)]).requests.length = 2 :=
  (sequential_reads_request_count 0 "/~/Employees" ""
    [(0, 2, Except.ok ⟨some "$metadata#TEAMS", ["a", "b"]⟩),
      (2, 2, Except.error ⟨"Service Unavailable", false⟩)]
    (by
      simp only [List.pairwise_cons, List.mem_singleton, List.not_mem_nil, List.Pairwise.nil,
        and_true, forall_eq, false_implies, implies_true]
      intro k
      omega)
    (by
      intro r hr oResult ho
      simp only [List.mem_cons, List.mem_singleton, List.not_mem_nil, or_false] at hr
      rcases hr with h | h
      · subst h
        simp only [Except.ok.injEq] at ho
        subst ho
        decide
      · subst h
        simp at ho)).2.2.1
    (by
      intro r hr
      simp only [List.mem_cons, List.mem_singleton, List.not_mem_nil, or_false] at hr
      rcases hr with h | h
      · subst h
        refine ⟨by decide, ?_⟩
        intro oResult ho
        simp only [Except.ok.injEq] at ho
        subst ho
        rfl
      · subst h
        refine ⟨by decide, ?_⟩
        intro oResult ho
        simp at ho)

/-- C17 as stated fails: the single read `read(0, 0)` issues no request; and of the two reads
`read(0, 2)`, answered with one record, and `read(2, 2)`, whose ranges do not overlap, the
second is clipped to the known length 1 and issues no request. -/
theorem sequential_reads_with_fewer_requests :
    (sequentialReads (World.init (CollectionCache.create 0 "/~/Employees" ""))
      [(0, 0, Except.ok ⟨some "$metadata#TEAMS", []⟩)]).requests.length = 0 ∧
    (sequentialReads (World.init (CollectionCache.create 0 "/~/Employees" ""))
      [(0, 0, Except.ok ⟨some "$metadata#TEAMS", []⟩)]).reads.map (fun rd => rd.outcome) =
      [some (Except.ok ⟨none, []⟩)] ∧
    (sequentialReads (World.init (CollectionCache.create 0 "/~/Employees" ""))
      [(0, 2, Except.ok ⟨some "$metadata#TEAMS", ["a"]⟩),
        (2, 2, Except.ok ⟨some "$metadata#TEAMS", []⟩)]).requests.length = 1 ∧
    (sequentialReads (World.init (CollectionCache.create 0 "/~/Employees" ""))
      [(0, 2, Except.ok ⟨some "$metadata#TEAMS", ["a"]⟩),
        (2, 2, Except.ok ⟨some "$metadata#TEAMS", []⟩)]).reads.map (fun rd => rd.outcome) =
      [some (Except.ok ⟨some "$metadata#TEAMS", [Slot.record "a"]⟩),
        some (Except.ok ⟨some "$metadata#TEAMS", []⟩)] := by
  decide

/-! ## The single cache -/

theorem singleSound_init (oCache : SingleCache) (h : oCache.oPromise = PromiseSlot.null) :
    SingleSound (SingleWorld.init oCache) where
  slot := by
    intro n hn
    simp [SingleWorld.init, h] at hn
  gets := by simp [SingleWorld.init]
  nodup := by simp [SingleWorld.init]
  known := by simp [SingleWorld.init]
  returned := by simp [SingleWorld.init]

theorem single_read_cases (w : SingleWorld) :
    (∃ n, w.oCache.oPromise = PromiseSlot.promise n ∧ w.oCache.oPromise.falsy = false ∧
      SingleCache.read w = { w with returned := w.returned ++ [PromiseSlot.promise n] }) ∨
    (w.oCache.oPromise.falsy = true ∧
      SingleCache.read w = { w with
        requests := w.requests ++ [⟨"GET", w.oCache.sUrl⟩]
        oCache := { w.oCache with oPromise := PromiseSlot.promise w.requests.length }
        returned := w.returned ++ [PromiseSlot.promise w.requests.length] }) := by
  unfold SingleCache.read
  cases h : w.oCache.oPromise with
  | promise n =>
    left
    refine ⟨n, rfl, rfl, ?_⟩
    simp [PromiseSlot.falsy, h]
  | null => exact Or.inr ⟨rfl, by simp [PromiseSlot.falsy]⟩
  | undefined => exact Or.inr ⟨rfl, by simp [PromiseSlot.falsy]⟩

theorem respondSingle_cases (w : SingleWorld) (p : Nat) (oResult : Record) :
    respondSingle w p oResult = w ∨
    ∃ q o, w.requests[p]? = some q ∧ w.isSettled p = false ∧
      o = (if w.oCache.oPromise ≠ PromiseSlot.promise p
        then SingleOutcome.rejected (canceledError q.sUrl)
        else SingleOutcome.fulfilled oResult) ∧
      respondSingle w p oResult = { w with settled := w.settled ++ [(p, o)] } := by
  unfold respondSingle
  cases hq : w.requests[p]? with
  | none => exact Or.inl rfl
  | some q =>
    simp only
    cases hs : w.isSettled p with
    | true => exact Or.inl (by simp)
    | false =>
      right
      refine ⟨q, _, rfl, rfl, rfl, ?_⟩
      by_cases hc : w.oCache.oPromise ≠ PromiseSlot.promise p
      · simp only [Bool.false_eq_true, if_false]
        rw [if_pos hc, if_pos hc]
      · simp only [Bool.false_eq_true, if_false]
        rw [if_neg hc, if_neg hc]

theorem rejectSingle_cases (w : SingleWorld) (p : Nat) (oError : JSError) :
    rejectSingle w p oError = w ∨
    ∃ q, w.requests[p]? = some q ∧ w.isSettled p = false ∧
      rejectSingle w p oError =
        { w with settled := w.settled ++ [(p, SingleOutcome.rejected oError)] } := by
  unfold rejectSingle
  cases hq : w.requests[p]? with
  | none => exact Or.inl rfl
  | some q =>
    simp only
    cases hs : w.isSettled p with
    | true => exact Or.inl (by simp)
    | false => exact Or.inr ⟨q, rfl, rfl, by simp⟩

theorem single_not_settled_iff (w : SingleWorld) (p : Nat) :
    w.isSettled p = false ↔ p ∉ w.settled.map Prod.fst := by
  simp only [SingleWorld.isSettled, List.any_eq_false, beq_iff_eq, List.mem_map, Prod.exists,
    exists_and_right, exists_eq_right, not_exists]
  constructor
  · intro h o ho
    exact h (p, o) ho rfl
  · intro h s hs heq
    obtain ⟨a, o⟩ := s
    simp only at heq
    subst heq
    exact h o hs

theorem singleSound_settle {w : SingleWorld} (hs : SingleSound w) {p : Nat} {q : SingleRequest}
    (o : SingleOutcome) (hq : w.requests[p]? = some q) (hf : w.isSettled p = false) :
    SingleSound { w with settled := w.settled ++ [(p, o)] } where
  slot := hs.slot
  gets := hs.gets
  nodup := by
    simp only [List.map_append, List.map_cons, List.map_nil]
    rw [List.nodup_append]
    refine ⟨hs.nodup, by simp, ?_⟩
    intro a ha hb
    simp only [List.mem_singleton] at hb
    subst hb
    exact (single_not_settled_iff w a).1 hf ha
  known := by
    intro s hs2
    simp only [List.mem_append, List.mem_singleton] at hs2
    rcases hs2 with h | h
    · exact hs.known s h
    · subst h
      exact (List.getElem?_eq_some.1 hq).1
  returned := hs.returned

theorem stepSingle_sound (w : SingleWorld) (e : SingleEvent) (hs : SingleSound w) :
    SingleSound (stepSingle w e) := by
  cases e with
  | read =>
    simp only [stepSingle]
    rcases single_read_cases w with ⟨n, hn, _, h⟩ | ⟨hn, h⟩
    · rw [h]
      refine ⟨hs.slot, hs.gets, hs.nodup, hs.known, ?_⟩
      intro x hx
      simp only [List.mem_append, List.mem_singleton] at hx
      rcases hx with hx | hx
      · exact hs.returned x hx
      · exact ⟨n, hx, hs.slot n hn⟩
    · rw [h]
      refine ⟨?_, ?_, hs.nodup, ?_, ?_⟩
      · intro n hn2
        simp only [PromiseSlot.promise.injEq] at hn2
        subst hn2
        simp
      · intro q hq
        simp only [List.mem_append, List.mem_singleton] at hq
        rcases hq with hq | hq
        · exact hs.gets q hq
        · exact hq
      · intro s hs2
        have := hs.known s hs2
        simp only [List.length_append, List.length_singleton]
        omega
      · intro x hx
        simp only [List.mem_append, List.mem_singleton] at hx
        simp only [List.length_append, List.length_singleton]
        rcases hx with hx | hx
        · obtain ⟨n, h1, h2⟩ := hs.returned x hx
          exact ⟨n, h1, by omega⟩
        · exact ⟨_, hx, by omega⟩
  | refresh =>
    simp only [stepSingle]
    refine ⟨?_, hs.gets, hs.nodup, hs.known, hs.returned⟩
    intro n hn
    simp [SingleCache.refresh] at hn
  | respond p oResult =>
    simp only [stepSingle]
    rcases respondSingle_cases w p oResult with h | ⟨q, o, hq, hf, _, h⟩
    · rw [h]; exact hs
    · rw [h]; exact singleSound_settle hs o hq hf
  | reject p oError =>
    simp only [stepSingle]
    rcases rejectSingle_cases w p oError with h | ⟨q, hq, hf, h⟩
    · rw [h]; exact hs
    · rw [h]; exact singleSound_settle hs _ hq hf

theorem runSingle_sound (events : List SingleEvent) :
    ∀ w : SingleWorld, SingleSound w → SingleSound (runSingle w events) := by
  induction events with
  | nil => intro w hs; exact hs
  | cons e events ih =>
    intro w hs
    exact ih (stepSingle w e) (stepSingle_sound w e hs)

theorem runSingle_append (w : SingleWorld) (a b : List SingleEvent) :
    runSingle w (a ++ b) = runSingle (runSingle w a) b := by
  simp only [runSingle, List.foldl_append]

theorem stepSingle_sUrl (w : SingleWorld) (e : SingleEvent) :
    (stepSingle w e).oCache.sUrl = w.oCache.sUrl := by
  cases e with
  | read =>
    simp only [stepSingle]
    rcases single_read_cases w with ⟨n, _, _, h⟩ | ⟨_, h⟩ <;> rw [h]
  | refresh => rfl
  | respond p oResult =>
    simp only [stepSingle]
    rcases respondSingle_cases w p oResult with h | ⟨_, _, _, _, _, h⟩ <;> rw [h]
  | reject p oError =>
    simp only [stepSingle]
    rcases rejectSingle_cases w p oError with h | ⟨_, _, _, h⟩ <;> rw [h]

theorem runSingle_sUrl (events : List SingleEvent) :
    ∀ w : SingleWorld, (runSingle w events).oCache.sUrl = w.oCache.sUrl := by
  induction events with
  | nil => intro w; rfl
  | cons e events ih =>
    intro w
    exact (ih (stepSingle w e)).trans (stepSingle_sUrl w e)

theorem single_request_count (events : List SingleEvent) :
    ∀ w : SingleWorld, (runSingle w events).requests.length = w.requests.length +
      firstReads w.oCache.oPromise.falsy events := by
  induction events with
  | nil => intro w; rfl
  | cons e events ih =>
    intro w
    have hrun : runSingle w (e :: events) = runSingle (stepSingle w e) events := rfl
    rw [hrun, ih]
    cases e with
    | read =>
      simp only [stepSingle, firstReads]
      rcases single_read_cases w with ⟨n, hn, hf, h⟩ | ⟨hf, h⟩
      · rw [h, hf]
        simp [hn, PromiseSlot.falsy]
      · rw [h, hf]
        simp only [List.length_append, List.length_singleton, PromiseSlot.falsy, if_true]
        omega
    | refresh =>
      simp only [stepSingle, firstReads, SingleCache.refresh, PromiseSlot.falsy]
    | respond p oResult =>
      simp only [stepSingle, firstReads]
      rcases respondSingle_cases w p oResult with h | ⟨_, _, _, _, _, h⟩ <;> rw [h]
    | reject p oError =>
      simp only [stepSingle, firstReads]
      rcases rejectSingle_cases w p oError with h | ⟨_, _, _, h⟩ <;> rw [h]

theorem countReads_cons (e : SingleEvent) (events : List SingleEvent) :
    countReads (e :: events) = countReads events + (if e = SingleEvent.read then 1 else 0) := by
  simp only [countReads, List.count_cons, beq_iff_eq]

theorem single_read_slot (w : SingleWorld) :
    (SingleCache.read w).oCache.oPromise.falsy = false ∧
    (SingleCache.read (SingleCache.read w)).oCache.oPromise =
      (SingleCache.read w).oCache.oPromise ∧
    (SingleCache.read w).returned = w.returned ++ [(SingleCache.read w).oCache.oPromise] := by
  rcases single_read_cases w with ⟨n, hn, hf, h⟩ | ⟨hf, h⟩
  · rcases single_read_cases (SingleCache.read w) with ⟨n2, hn2, hf2, h2⟩ | ⟨hf2, h2⟩
    · rw [h2]
      rw [h]
      exact ⟨by simp [hn, PromiseSlot.falsy], rfl, by simp [hn]⟩
    · rw [h] at hf2
      simp [hn, PromiseSlot.falsy] at hf2
  · rcases single_read_cases (SingleCache.read w) with ⟨n2, hn2, hf2, h2⟩ | ⟨hf2, h2⟩
    · rw [h2]
      rw [h]
      exact ⟨by simp [PromiseSlot.falsy], rfl, by simp⟩
    · rw [h] at hf2
      simp [PromiseSlot.falsy] at hf2

theorem single_read_of_truthy (w : SingleWorld) (h : w.oCache.oPromise.falsy = false) :
    SingleCache.read w = { w with returned := w.returned ++ [w.oCache.oPromise] } := by
  rcases single_read_cases w with ⟨n, hn, _, h2⟩ | ⟨hf, _⟩
  · rw [h2, hn]
  · rw [h] at hf
    simp at hf

theorem single_read_slot_congr (w1 w2 : SingleWorld) (h1 : w1.oCache = w2.oCache)
    (h2 : w1.requests = w2.requests) :
    (SingleCache.read w1).oCache.oPromise = (SingleCache.read w2).oCache.oPromise := by
  simp only [SingleCache.read, h1, h2]
  by_cases hf : w2.oCache.oPromise.falsy = true
  · simp only [hf, if_true]
  · simp only [hf, Bool.false_eq_true, if_false, h1]

theorem single_answer_frame (w : SingleWorld) (e : SingleEvent) (h1 : e ≠ SingleEvent.read)
    (h2 : e ≠ SingleEvent.refresh) :
    (stepSingle w e).oCache = w.oCache ∧ (stepSingle w e).requests = w.requests ∧
    (stepSingle w e).returned = w.returned := by
  cases e with
  | read => exact absurd rfl h1
  | refresh => exact absurd rfl h2
  | respond p oResult =>
    simp only [stepSingle]
    rcases respondSingle_cases w p oResult with h | ⟨_, _, _, _, _, h⟩ <;> rw [h] <;>
      exact ⟨rfl, rfl, rfl⟩
  | reject p oError =>
    simp only [stepSingle]
    rcases rejectSingle_cases w p oError with h | ⟨_, _, _, h⟩ <;> rw [h] <;>
      exact ⟨rfl, rfl, rfl⟩

theorem single_same_future (mid : List SingleEvent) :
    ∀ w : SingleWorld, SingleEvent.refresh ∉ mid →
      (runSingle w mid).returned = w.returned ++
        List.replicate (countReads mid) (SingleCache.read w).oCache.oPromise ∧
      (SingleCache.read (runSingle w mid)).oCache.oPromise =
        (SingleCache.read w).oCache.oPromise := by
  induction mid with
  | nil =>
    intro w _
    simp [runSingle, countReads]
  | cons e mid ih =>
    intro w hno
    have hno2 : SingleEvent.refresh ∉ mid := fun h => hno (List.mem_cons_of_mem _ h)
    have hrun : runSingle w (e :: mid) = runSingle (stepSingle w e) mid := rfl
    obtain ⟨k1, k2⟩ := ih (stepSingle w e) hno2
    rw [hrun, k1, k2, countReads_cons]
    by_cases he : e = SingleEvent.read
    · subst he
      obtain ⟨g1, g2, g3⟩ := single_read_slot w
      have hst : stepSingle w SingleEvent.read = SingleCache.read w := rfl
      rw [hst, g2, g3, if_pos rfl, List.replicate_succ, List.append_assoc]
      exact ⟨rfl, rfl⟩
    · have hr : e ≠ SingleEvent.refresh := by
        intro h
        subst h
        exact hno (List.mem_cons_self _ _)
      obtain ⟨f1, f2, f3⟩ := single_answer_frame w e he hr
      rw [single_read_slot_congr _ w f1 f2, f3, if_neg he]
      exact ⟨rfl, rfl⟩

theorem single_returned_length (events : List SingleEvent) :
    ∀ w : SingleWorld,
      (runSingle w events).returned.length = w.returned.length + countReads events := by
  induction events with
  | nil => intro w; rfl
  | cons e events ih =>
    intro w
    have hrun : runSingle w (e :: events) = runSingle (stepSingle w e) events := rfl
    rw [hrun, ih, countReads_cons]
    cases e with
    | read =>
      simp only [stepSingle, (single_read_slot w).2.2, List.length_append, List.length_singleton,
        if_true]
      omega
    | refresh => simp [stepSingle]
    | respond p oResult =>
      simp only [stepSingle]
      rcases respondSingle_cases w p oResult with h | ⟨_, _, _, _, _, h⟩ <;> rw [h] <;> simp
    | reject p oError =>
      simp only [stepSingle]
      rcases rejectSingle_cases w p oError with h | ⟨_, _, _, h⟩ <;> rw [h] <;> simp

/-- C19: for every sequence of events of a single cache created with URL `sUrl` and built
query string `sQuery` (calls of `read` and `refresh`, answers of the requestor), the number of
calls of the requestor equals the number of calls of `read` that are the first since creation or
since the most recent `refresh`; every call of the requestor is a GET of the URL of the cache,
which is `sUrl` followed by `sQuery`; every call of `read` returns a value; and between two
events with no `refresh` in between all calls of `read` return the same promise. -/
theorem single_requests_are_first_reads (oRequestor : Nat) (sUrl sQuery : String)
    (events : List SingleEvent) :
    (runSingle (SingleWorld.init (SingleCache.create oRequestor sUrl sQuery))
      events).requests.length = firstReads true events ∧
    (∀ q ∈ (runSingle (SingleWorld.init (SingleCache.create oRequestor sUrl sQuery))
      events).requests, q.sMethod = "GET" ∧ q.sUrl = sUrl ++ sQuery ∧
        q.sUrl = (runSingle (SingleWorld.init (SingleCache.create oRequestor sUrl sQuery))
          events).oCache.toString) ∧
    (runSingle (SingleWorld.init (SingleCache.create oRequestor sUrl sQuery))
      events).returned.length = countReads events ∧
    (∀ pre mid post : List SingleEvent, events = pre ++ mid ++ post →
      SingleEvent.refresh ∉ mid →
      ∃ n, (runSingle (SingleWorld.init (SingleCache.create oRequestor sUrl sQuery))
          (pre ++ mid)).returned =
        (runSingle (SingleWorld.init (SingleCache.create oRequestor sUrl sQuery))
          pre).returned ++ List.replicate (countReads mid) (PromiseSlot.promise n)) := by
  have hs := runSingle_sound events _
    (singleSound_init (SingleCache.create oRequestor sUrl sQuery) rfl)
  have hu := runSingle_sUrl events
    (SingleWorld.init (SingleCache.create oRequestor sUrl sQuery))
  refine ⟨?_, ?_, ?_, ?_⟩
  · rw [single_request_count]
    simp [SingleWorld.init, SingleCache.create, PromiseSlot.falsy]
  · intro q hq
    have := hs.gets q hq
    rw [this]
    exact ⟨rfl, hu, rfl⟩
  · rw [single_returned_length]
    simp [SingleWorld.init]
  · intro pre mid post _ hno
    rw [runSingle_append]
    obtain ⟨g1, _⟩ := single_same_future mid
      (runSingle (SingleWorld.init (SingleCache.create oRequestor sUrl sQuery)) pre) hno
    rw [g1]
    have hf := (single_read_slot
      (runSingle (SingleWorld.init (SingleCache.create oRequestor sUrl sQuery)) pre)).1
    cases hp : (SingleCache.read (runSingle (SingleWorld.init
        (SingleCache.create oRequestor sUrl sQuery)) pre)).oCache.oPromise with
    | promise n => exact ⟨n, rfl⟩
    | null => rw [hp] at hf; simp [PromiseSlot.falsy] at hf
    | undefined => rw [hp] at hf; simp [PromiseSlot.falsy] at hf

/-! ## A successful answer to a single cache -/

theorem single_settled_grows (events : List SingleEvent) :
    ∀ w : SingleWorld, ∃ more, (runSingle w events).settled = w.settled ++ more := by
  induction events with
  | nil => intro w; exact ⟨[], by simp [runSingle]⟩
  | cons e events ih =>
    intro w
    obtain ⟨more, hm⟩ := ih (stepSingle w e)
    have hrun : runSingle w (e :: events) = runSingle (stepSingle w e) events := rfl
    rw [hrun, hm]
    cases e with
    | read =>
      simp only [stepSingle]
      rcases single_read_cases w with ⟨n, _, _, h⟩ | ⟨_, h⟩ <;> rw [h] <;> exact ⟨more, rfl⟩
    | refresh => exact ⟨more, rfl⟩
    | respond p oResult =>
      simp only [stepSingle]
      rcases respondSingle_cases w p oResult with h | ⟨_, o, _, _, _, h⟩
      · rw [h]; exact ⟨more, rfl⟩
      · rw [h]; exact ⟨(p, o) :: more, by simp⟩
    | reject p oError =>
      simp only [stepSingle]
      rcases rejectSingle_cases w p oError with h | ⟨_, _, _, h⟩
      · rw [h]; exact ⟨more, rfl⟩
      · rw [h]; exact ⟨(p, SingleOutcome.rejected oError) :: more, by simp⟩

theorem single_slot_after (events : List SingleEvent) (N : Nat) :
    ∀ w : SingleWorld, N ≤ w.requests.length →
      (∀ m, w.oCache.oPromise = PromiseSlot.promise m → N ≤ m) →
      N ≤ (runSingle w events).requests.length ∧
      ∀ m, (runSingle w events).oCache.oPromise = PromiseSlot.promise m → N ≤ m := by
  induction events with
  | nil => intro w h1 h2; exact ⟨h1, h2⟩
  | cons e events ih =>
    intro w h1 h2
    have hrun : runSingle w (e :: events) = runSingle (stepSingle w e) events := rfl
    rw [hrun]
    by_cases he : e = SingleEvent.read
    · subst he
      apply ih
      · simp only [stepSingle]
        rcases single_read_cases w with ⟨n, _, _, h⟩ | ⟨_, h⟩ <;> rw [h]
        · exact h1
        · simp only [List.length_append, List.length_singleton]
          omega
      · simp only [stepSingle]
        rcases single_read_cases w with ⟨n, _, _, h⟩ | ⟨_, h⟩ <;> rw [h]
        · exact h2
        · intro m hm
          simp only [PromiseSlot.promise.injEq] at hm
          omega
    · by_cases hr : e = SingleEvent.refresh
      · subst hr
        apply ih
        · exact h1
        · intro m hm
          simp [stepSingle, SingleCache.refresh] at hm
      · obtain ⟨f1, f2, _⟩ := single_answer_frame w e he hr
        apply ih
        · rw [f2]; exact h1
        · rw [f1]; exact h2

theorem single_no_refresh (mid : List SingleEvent) (p : Nat) :
    ∀ w : SingleWorld, w.oCache.oPromise = PromiseSlot.promise p → SingleEvent.refresh ∉ mid →
      (runSingle w mid).requests = w.requests ∧ (runSingle w mid).oCache = w.oCache ∧
      (runSingle w mid).returned = w.returned ++
        List.replicate (countReads mid) (PromiseSlot.promise p) := by
  induction mid with
  | nil => intro w _ _; simp [runSingle, countReads]
  | cons e mid ih =>
    intro w hp hno
    have hno2 : SingleEvent.refresh ∉ mid := fun h => hno (List.mem_cons_of_mem _ h)
    have hrun : runSingle w (e :: mid) = runSingle (stepSingle w e) mid := rfl
    rw [hrun, countReads_cons]
    by_cases he : e = SingleEvent.read
    · subst he
      have hst : stepSingle w SingleEvent.read =
          { w with returned := w.returned ++ [PromiseSlot.promise p] } := by
        simp only [stepSingle]
        rw [single_read_of_truthy w (by rw [hp]; rfl), hp]
      obtain ⟨k1, k2, k3⟩ := ih (stepSingle w SingleEvent.read) (by rw [hst]; exact hp) hno2
      rw [k1, k2, k3, hst, if_pos rfl, List.replicate_succ, List.append_assoc]
      exact ⟨rfl, rfl, rfl⟩
    · have hr : e ≠ SingleEvent.refresh := by
        intro h
        subst h
        exact hno (List.mem_cons_self _ _)
      obtain ⟨f1, f2, f3⟩ := single_answer_frame w e he hr
      obtain ⟨k1, k2, k3⟩ := ih (stepSingle w e) (by rw [f1]; exact hp) hno2
      rw [k1, k2, k3, f1, f2, f3, if_neg he]
      exact ⟨rfl, rfl, rfl⟩

theorem single_settled_unique {settled : List (Nat × SingleOutcome)}
    (hn : (settled.map Prod.fst).Nodup) {p : Nat} {o1 o2 : SingleOutcome}
    (h1 : (p, o1) ∈ settled) (h2 : (p, o2) ∈ settled) : o1 = o2 := by
  induction settled with
  | nil => simp at h1
  | cons s rest ih =>
    simp only [List.map_cons, List.nodup_cons, List.mem_map, not_exists, not_and] at hn
    rcases List.mem_cons.1 h1 with e1 | m1
    · rcases List.mem_cons.1 h2 with e2 | m2
      · rw [← e2] at e1
        exact (Prod.mk.inj e1).2
      · exact absurd (by rw [← e1]) (hn.1 (p, o2) m2)
    · rcases List.mem_cons.1 h2 with e2 | m2
      · exact absurd (by rw [← e2]) (hn.1 (p, o1) m1)
      · exact ih hn.2 m1 m2

theorem respondSingle_settled {w : SingleWorld} (hs : SingleSound w) {p : Nat}
    (oResult : Record) (hp : p < w.requests.length) (hflight : w.isSettled p = false) :
    respondSingle w p oResult = { w with settled := w.settled ++
      [(p, if w.oCache.oPromise ≠ PromiseSlot.promise p
        then SingleOutcome.rejected (canceledError w.oCache.sUrl)
        else SingleOutcome.fulfilled oResult)] } := by
  rcases respondSingle_cases w p oResult with h | ⟨q, o, hq, _, ho, h⟩
  · exfalso
    have hq : w.requests[p]? = some (w.requests.get ⟨p, hp⟩) := List.getElem?_eq_getElem hp
    simp [respondSingle, hq, hflight] at h
    split at h
    · have := congrArg (fun x => x.settled.length) h
      simp at this
    · have := congrArg (fun x => x.settled.length) h
      simp at this
  · rw [h, ho]
    have := hs.gets q (List.getElem?_mem hq)
    rw [this]

theorem rejectSingle_settled {w : SingleWorld} {p : Nat} (oError : JSError)
    (hp : p < w.requests.length) (hflight : w.isSettled p = false) :
    rejectSingle w p oError =
      { w with settled := w.settled ++ [(p, SingleOutcome.rejected oError)] } := by
  have hq : w.requests[p]? = some (w.requests.get ⟨p, hp⟩) := List.getElem?_eq_getElem hp
  simp [rejectSingle, hq, hflight]

/-- C20: in a world `w` a single cache created with URL `sUrl` and built query string `sQuery`
can get into, the requestor answers call `p`, still pending, successfully with `oResult`.  If
the cache still stores promise `p`, that promise is fulfilled with `oResult` itself; otherwise
it is rejected with the error whose `canceled` is true and whose message is "Refresh canceled
processing of pending request: " followed by the URL of the cache.  The promise keeps that
outcome whatever happens later.  The cache does not store promise `p` any more once `refresh`
was called after call `p` was made, whether or not a newer `read` followed; and it still stores
promise `p`, which the `read` that made call `p` returned, when no `refresh` was called since
that `read`. -/
theorem single_success_answer (oRequestor : Nat) (sUrl sQuery : String)
    (before : List SingleEvent) (p : Nat) (oResult : Record) (w : SingleWorld)
    (hw : w = runSingle (SingleWorld.init (SingleCache.create oRequestor sUrl sQuery)) before)
    (hp : p < w.requests.length) (hflight : w.isSettled p = false) :
    (w.oCache.oPromise = PromiseSlot.promise p →
      (respondSingle w p oResult).settled = w.settled ++ [(p, SingleOutcome.fulfilled oResult)] ∧
      ∀ later o, (p, o) ∈ (runSingle (respondSingle w p oResult) later).settled →
        o = SingleOutcome.fulfilled oResult) ∧
    (w.oCache.oPromise ≠ PromiseSlot.promise p →
      (respondSingle w p oResult).settled = w.settled ++ [(p, SingleOutcome.rejected
        ⟨"Refresh canceled processing of pending request: " ++ (sUrl ++ sQuery), true⟩)] ∧
      ∀ later o, (p, o) ∈ (runSingle (respondSingle w p oResult) later).settled →
        o = SingleOutcome.rejected
          ⟨"Refresh canceled processing of pending request: " ++ (sUrl ++ sQuery), true⟩) ∧
    w.oCache.toString = sUrl ++ sQuery ∧
    (∀ pre post, before = pre ++ SingleEvent.refresh :: post →
      p < (runSingle (SingleWorld.init (SingleCache.create oRequestor sUrl sQuery))
        pre).requests.length →
      w.oCache.oPromise ≠ PromiseSlot.promise p) ∧
    (∀ pre post, before = pre ++ SingleEvent.read :: post →
      (runSingle (SingleWorld.init (SingleCache.create oRequestor sUrl sQuery))
        pre).requests.length = p →
      SingleEvent.refresh ∉ post →
      w.oCache.oPromise = PromiseSlot.promise p ∧
      (runSingle (SingleWorld.init (SingleCache.create oRequestor sUrl sQuery))
        (pre ++ [SingleEvent.read])).returned =
        (runSingle (SingleWorld.init (SingleCache.create oRequestor sUrl sQuery))
          pre).returned ++ [PromiseSlot.promise p]) := by
  have hs0 := singleSound_init (SingleCache.create oRequestor sUrl sQuery) rfl
  have hs : SingleSound w := by
    rw [hw]
    exact runSingle_sound before _ hs0
  have hu : w.oCache.sUrl = sUrl ++ sQuery := by
    rw [hw]
    exact runSingle_sUrl before _
  have hresp := respondSingle_settled hs oResult hp hflight
  have hstep : stepSingle w (SingleEvent.respond p oResult) = respondSingle w p oResult := rfl
  have hs2 : SingleSound (respondSingle w p oResult) := by
    rw [← hstep]
    exact stepSingle_sound _ _ hs
  have honce : ∀ (o0 : SingleOutcome),
      (respondSingle w p oResult).settled = w.settled ++ [(p, o0)] →
      ∀ later o, (p, o) ∈ (runSingle (respondSingle w p oResult) later).settled → o = o0 := by
    intro o0 h0 later o ho
    obtain ⟨more, hm⟩ := single_settled_grows later (respondSingle w p oResult)
    have hin : (p, o0) ∈ (runSingle (respondSingle w p oResult) later).settled := by
      rw [hm, h0]
      simp
    exact single_settled_unique (runSingle_sound later _ hs2).nodup ho hin
  refine ⟨?_, ?_, hu, ?_, ?_⟩
  · intro hslot
    have h0 : (respondSingle w p oResult).settled =
        w.settled ++ [(p, SingleOutcome.fulfilled oResult)] := by
      rw [hresp]
      simp [hslot]
    exact ⟨h0, honce _ h0⟩
  · intro hslot
    have h0 : (respondSingle w p oResult).settled = w.settled ++ [(p, SingleOutcome.rejected
        ⟨"Refresh canceled processing of pending request: " ++ (sUrl ++ sQuery), true⟩)] := by
      rw [hresp]
      simp [hslot, canceledError, hu]
    exact ⟨h0, honce _ h0⟩
  · intro pre post hb hlt hslot
    have hsplit : w = runSingle (stepSingle (runSingle (SingleWorld.init
        (SingleCache.create oRequestor sUrl sQuery)) pre) SingleEvent.refresh) post := by
      rw [hw, hb, runSingle_append]
      rfl
    obtain ⟨_, g2⟩ := single_slot_after post
      (runSingle (SingleWorld.init (SingleCache.create oRequestor sUrl sQuery))
        pre).requests.length
      (stepSingle (runSingle (SingleWorld.init (SingleCache.create oRequestor sUrl sQuery)) pre)
        SingleEvent.refresh) (Nat.le_refl _)
      (by
        intro m hm
        simp [stepSingle, SingleCache.refresh] at hm)
    rw [← hsplit] at g2
    have := g2 p hslot
    omega
  · intro pre post hb hlen hno
    have hsplit : w = runSingle (SingleCache.read (runSingle (SingleWorld.init
        (SingleCache.create oRequestor sUrl sQuery)) pre)) post := by
      rw [hw, hb, runSingle_append]
      rfl
    have hret : runSingle (SingleWorld.init (SingleCache.create oRequestor sUrl sQuery))
        (pre ++ [SingleEvent.read]) = SingleCache.read (runSingle (SingleWorld.init
          (SingleCache.create oRequestor sUrl sQuery)) pre) := by
      rw [runSingle_append]
      rfl
    rw [hret]
    rcases single_read_cases (runSingle (SingleWorld.init
        (SingleCache.create oRequestor sUrl sQuery)) pre) with ⟨n, hn, _, h⟩ | ⟨_, h⟩
    · exfalso
      obtain ⟨k1, _, _⟩ := single_no_refresh post n (SingleCache.read (runSingle
        (SingleWorld.init (SingleCache.create oRequestor sUrl sQuery)) pre))
        (by rw [h]; exact hn) hno
      rw [← hsplit, h] at k1
      rw [k1] at hp
      simp only at hp
      omega
    · obtain ⟨_, k2, _⟩ := single_no_refresh post p (SingleCache.read (runSingle
        (SingleWorld.init (SingleCache.create oRequestor sUrl sQuery)) pre))
        (by rw [h, hlen]) hno
      rw [← hsplit] at k2
      rw [k2, h, hlen]
      exact ⟨rfl, rfl⟩

/-- Witness for C20: `read`, `refresh` and `read` are called, then the first call of the
requestor is answered. -/
theorem single_success_answer_witness :
    (respondSingle (runSingle (SingleWorld.init (SingleCache.create 0 "/~/Employee" ""))
      [SingleEvent.read, SingleEvent.refresh, SingleEvent.read]) 0 "result").settled =
      [(0, SingleOutcome.rejected
        ⟨"Refresh canceled processing of pending request: /~/Employee", true⟩)] ∧
    (respondSingle (runSingle (SingleWorld.init (SingleCache.create 0 "/~/Employee" ""))
      [SingleEvent.read, SingleEvent.refresh, SingleEvent.read]) 1 "result").settled =
      [(1, SingleOutcome.fulfilled "result")] :=
  ⟨((single_success_answer 0 "/~/Employee" ""
      [SingleEvent.read, SingleEvent.refresh, SingleEvent.read] 0 "result" _ rfl
      (by decide) (by decide)).2.1 (by decide)).1,
   ((single_success_answer 0 "/~/Employee" ""
      [SingleEvent.read, SingleEvent.refresh, SingleEvent.read] 1 "result" _ rfl
      (by decide) (by decide)).1 (by decide)).1⟩

/-! ## A failing call of a single cache -/

/-- C21: in a world `w` a single cache created with URL `sUrl` and built query string `sQuery`
can get into, the cache stores promise `p`, still pending, and the requestor rejects call `p`
with `oError`.  Promise `p` is rejected with `oError` itself and keeps that outcome; as long as
`refresh` is not called, no event makes a further call of the requestor and every call of `read`
returns promise `p`; a `read` after the next `refresh` makes a new call, a GET of the URL of the
cache, and returns the promise of that call, which no earlier `read` returned. -/
theorem single_failure_is_shared (oRequestor : Nat) (sUrl sQuery : String)
    (before : List SingleEvent) (p : Nat) (oError : JSError) (w : SingleWorld)
    (hw : w = runSingle (SingleWorld.init (SingleCache.create oRequestor sUrl sQuery)) before)
    (hslot : w.oCache.oPromise = PromiseSlot.promise p) (hflight : w.isSettled p = false) :
    (rejectSingle w p oError).settled = w.settled ++ [(p, SingleOutcome.rejected oError)] ∧
    ∀ mid : List SingleEvent, SingleEvent.refresh ∉ mid →
      (runSingle (rejectSingle w p oError) mid).requests = w.requests ∧
      (runSingle (rejectSingle w p oError) mid).returned = w.returned ++
        List.replicate (countReads mid) (PromiseSlot.promise p) ∧
      (p, SingleOutcome.rejected oError) ∈ (runSingle (rejectSingle w p oError) mid).settled ∧
      (∀ o, (p, o) ∈ (runSingle (rejectSingle w p oError) mid).settled →
        o = SingleOutcome.rejected oError) ∧
      (runSingle (rejectSingle w p oError)
        (mid ++ [SingleEvent.refresh, SingleEvent.read])).requests =
        w.requests ++ [⟨"GET", sUrl ++ sQuery⟩] ∧
      (runSingle (rejectSingle w p oError)
        (mid ++ [SingleEvent.refresh, SingleEvent.read])).returned =
        (runSingle (rejectSingle w p oError) mid).returned ++
          [PromiseSlot.promise w.requests.length] ∧
      PromiseSlot.promise w.requests.length ∉
        (runSingle (rejectSingle w p oError) mid).returned := by
  have hs0 := singleSound_init (SingleCache.create oRequestor sUrl sQuery) rfl
  have hs : SingleSound w := by
    rw [hw]
    exact runSingle_sound before _ hs0
  have hu : w.oCache.sUrl = sUrl ++ sQuery := by
    rw [hw]
    exact runSingle_sUrl before _
  have hp : p < w.requests.length := hs.slot p hslot
  have hrej := rejectSingle_settled oError hp hflight
  have hstep : stepSingle w (SingleEvent.reject p oError) = rejectSingle w p oError := rfl
  have hs1 : SingleSound (rejectSingle w p oError) := by
    rw [← hstep]
    exact stepSingle_sound _ _ hs
  have h0 : (rejectSingle w p oError).settled =
      w.settled ++ [(p, SingleOutcome.rejected oError)] := by rw [hrej]
  refine ⟨h0, ?_⟩
  intro mid hno
  obtain ⟨k1, k2, k3⟩ := single_no_refresh mid p (rejectSingle w p oError)
    (by rw [hrej]; exact hslot) hno
  have hs2 := runSingle_sound mid _ hs1
  obtain ⟨more, hm⟩ := single_settled_grows mid (rejectSingle w p oError)
  have hin : (p, SingleOutcome.rejected oError) ∈
      (runSingle (rejectSingle w p oError) mid).settled := by
    rw [hm, h0]
    simp
  have hreq : (runSingle (rejectSingle w p oError) mid).requests = w.requests := by
    rw [k1, hrej]
  have hfin : runSingle (rejectSingle w p oError)
      (mid ++ [SingleEvent.refresh, SingleEvent.read]) =
      SingleCache.read (stepSingle (runSingle (rejectSingle w p oError) mid)
        SingleEvent.refresh) := by
    rw [runSingle_append]
    rfl
  have hread : SingleCache.read (stepSingle (runSingle (rejectSingle w p oError) mid)
      SingleEvent.refresh) = SingleWorld.mk
        { (runSingle (rejectSingle w p oError) mid).oCache with
          oPromise := PromiseSlot.promise w.requests.length }
        (w.requests ++ [⟨"GET", sUrl ++ sQuery⟩])
        (runSingle (rejectSingle w p oError) mid).settled
        ((runSingle (rejectSingle w p oError) mid).returned ++
          [PromiseSlot.promise w.requests.length]) := by
    rcases single_read_cases (stepSingle (runSingle (rejectSingle w p oError) mid)
      SingleEvent.refresh) with ⟨n, hn, _, _⟩ | ⟨_, h⟩
    · simp [stepSingle, SingleCache.refresh] at hn
    · rw [h]
      simp only [stepSingle, SingleCache.refresh, hreq, k2]
      rw [hrej]
      simp only [hu]
  refine ⟨hreq, by rw [k3, hrej], hin,
    fun o ho => single_settled_unique hs2.nodup ho hin, by rw [hfin, hread],
    by rw [hfin, hread], ?_⟩
  intro hmem
  obtain ⟨n, h1, h2⟩ := hs2.returned _ hmem
  simp only [PromiseSlot.promise.injEq] at h1
  rw [hreq] at h2
  omega

/-- Witness for C21: the only call of the requestor fails, then `read` is called twice. -/
theorem single_failure_is_shared_witness :
    (runSingle (rejectSingle (runSingle (SingleWorld.init (SingleCache.create 0 "/~/Employee"
      "")) [SingleEvent.read]) 0 ⟨"Service Unavailable", false⟩)
      [SingleEvent.read, SingleEvent.read]).requests =
      (runSingle (SingleWorld.init (SingleCache.create 0 "/~/Employee" ""))
        [SingleEvent.read]).requests ∧
    (runSingle (rejectSingle (runSingle (SingleWorld.init (SingleCache.create 0 "/~/Employee"
      "")) [SingleEvent.read]) 0 ⟨"Service Unavailable", false⟩)
      [SingleEvent.read, SingleEvent.read]).returned =
      (runSingle (SingleWorld.init (SingleCache.create 0 "/~/Employee" ""))
        [SingleEvent.read]).returned ++
        List.replicate (countReads [SingleEvent.read, SingleEvent.read])
          (PromiseSlot.promise 0) :=
  have h := (single_failure_is_shared 0 "/~/Employee" "" [SingleEvent.read] 0
    ⟨"Service Unavailable", false⟩ _ rfl (by decide) (by decide)).2
    [SingleEvent.read, SingleEvent.read] (by decide)
  ⟨h.1, h.2.1⟩

/-! ## The conversion of query options returns -/

theorem depth_le_depthEntries : ∀ (entries : List (String × JSValue)) (k : String) (v : JSValue),
    (k, v) ∈ entries → v.depth ≤ depthEntries entries
  | [], _, _, h => by simp at h
  | (k0, v0) :: rest, k, v, h => by
    simp only [depthEntries]
    rcases List.mem_cons.1 h with h1 | h1
    · have : v = v0 := (Prod.mk.inj h1).2
      subst this
      exact Nat.le_max_left _ _
    · exact Nat.le_trans (depth_le_depthEntries rest k v h1) (Nat.le_max_right _ _)

theorem depth_le_depthItems : ∀ (items : List JSValue) (i : Nat) (k : String) (v : JSValue),
    (k, v) ∈ arrayEntries i items → v.depth ≤ depthItems items
  | [], _, _, _, h => by simp [arrayEntries] at h
  | v0 :: rest, i, k, v, h => by
    simp only [depthItems]
    simp only [arrayEntries] at h
    rcases List.mem_cons.1 h with h1 | h1
    · have : v = v0 := (Prod.mk.inj h1).2
      subst this
      exact Nat.le_max_left _ _
    · exact Nat.le_trans (depth_le_depthItems rest (i + 1) k v h1) (Nat.le_max_right _ _)

theorem depth_ownEntries {m : JSValue} {k : String} {v : JSValue} (h : (k, v) ∈ m.ownEntries) :
    v.depth < m.depth := by
  cases m with
  | object entries =>
    simp only [JSValue.ownEntries] at h
    have := depth_le_depthEntries entries k v h
    simp only [JSValue.depth]
    omega
  | array items =>
    simp only [JSValue.ownEntries] at h
    have := depth_le_depthItems items 0 k v h
    simp only [JSValue.depth]
    omega
  | undefined => simp [JSValue.ownEntries] at h
  | null => simp [JSValue.ownEntries] at h
  | bool b => simp [JSValue.ownEntries] at h
  | string s => simp [JSValue.ownEntries] at h

theorem convertSystemQueryOption_congr {fn1 fn2 : JSValue → Call String} (sKey : String)
    (vValue : JSValue) (h : sKey = "$expand" → fn1 vValue = fn2 vValue) :
    convertSystemQueryOption fn1 sKey vValue = convertSystemQueryOption fn2 sKey vValue := by
  unfold convertSystemQueryOption
  by_cases h1 : sKey = "$select"
  · simp only [h1, if_true]
  · by_cases h2 : sKey = "$expand"
    · simp only [h1, if_false, h2, if_true, h h2]
    · simp only [h1, if_false, h2]

theorem convertSystemQueryOptionsLoop_congr {fn1 fn2 : JSValue → Call String} :
    ∀ entries : List (String × JSValue),
      (∀ v, ("$expand", v) ∈ entries → fn1 v = fn2 v) →
      convertSystemQueryOptionsLoop fn1 entries = convertSystemQueryOptionsLoop fn2 entries
  | [], _ => rfl
  | (sKey, vValue) :: rest, h => by
    simp only [convertSystemQueryOptionsLoop]
    rw [convertSystemQueryOption_congr sKey vValue (fun hk => h vValue (by rw [hk]; simp)),
      convertSystemQueryOptionsLoop_congr rest (fun v hv => h v (List.mem_cons_of_mem _ hv))]

theorem convertExpandLoop_congr {f1 f2 : String → JSValue → Call String} :
    ∀ entries : List (String × JSValue),
      (∀ p v, (p, v) ∈ entries → (v.truthy && v.isTypeofObject) = true → f1 p v = f2 p v) →
      convertExpandLoop f1 entries = convertExpandLoop f2 entries
  | [], _ => rfl
  | (p, v) :: rest, h => by
    simp only [convertExpandLoop]
    rw [convertExpandLoop_congr rest (fun p2 v2 hv => h p2 v2 (List.mem_cons_of_mem _ hv))]
    by_cases hc : (v.truthy && v.isTypeofObject) = true
    · simp only [hc, if_true, h p v (List.mem_cons_self _ _) hc]
    · simp only [hc, Bool.false_eq_true, if_false]

theorem andThen_ne_none {α β : Type} {c : Call α} {f : α → Call β} (hc : c ≠ none)
    (hf : ∀ a, f a ≠ none) : c.andThen f ≠ none := by
  unfold Call.andThen
  cases c with
  | none => exact absurd rfl hc
  | some r =>
    cases r with
    | error e => simp
    | ok a => exact hf a

theorem convertSystemQueryOption_ne_none {fn : JSValue → Call String} (sKey : String)
    (vValue : JSValue) (h : sKey = "$expand" → fn vValue ≠ none) :
    convertSystemQueryOption fn sKey vValue ≠ none := by
  unfold convertSystemQueryOption
  by_cases h1 : sKey = "$select"
  · simp only [h1, if_true]
    split <;> simp
  · by_cases h2 : sKey = "$expand"
    · simp only [h1, if_false, h2, if_true]
      exact andThen_ne_none (h h2) (fun a => by simp)
    · simp only [h1, if_false, h2]
      split <;> simp

theorem convertSystemQueryOptionsLoop_ne_none {fn : JSValue → Call String} :
    ∀ entries : List (String × JSValue),
      (∀ v, ("$expand", v) ∈ entries → fn v ≠ none) →
      convertSystemQueryOptionsLoop fn entries ≠ none
  | [], _ => by simp [convertSystemQueryOptionsLoop]
  | (sKey, vValue) :: rest, h => by
    simp only [convertSystemQueryOptionsLoop]
    apply andThen_ne_none
      (convertSystemQueryOption_ne_none sKey vValue (fun hk => h vValue (by rw [hk]; simp)))
    intro a
    apply andThen_ne_none
      (convertSystemQueryOptionsLoop_ne_none rest (fun v hv => h v (List.mem_cons_of_mem _ hv)))
    intro b
    simp

theorem convertExpandLoop_ne_none {f : String → JSValue → Call String} :
    ∀ entries : List (String × JSValue),
      (∀ p v, (p, v) ∈ entries → (v.truthy && v.isTypeofObject) = true → f p v ≠ none) →
      convertExpandLoop f entries ≠ none
  | [], _ => by simp [convertExpandLoop]
  | (p, v) :: rest, h => by
    simp only [convertExpandLoop]
    apply andThen_ne_none
    · by_cases hc : (v.truthy && v.isTypeofObject) = true
      · simp only [hc, if_true]
        exact h p v (List.mem_cons_self _ _) hc
      · simp only [hc, if_false]
        simp
    · intro a
      apply andThen_ne_none
        (convertExpandLoop_ne_none rest (fun p2 v2 hv => h p2 v2 (List.mem_cons_of_mem _ hv)))
      intro b
      simp

theorem convertExpand_enough : ∀ (n : Nat) (v : JSValue) (m : Nat), v.depth < n → n ≤ m →
    convertExpand m v = convertExpand n v ∧ convertExpand n v ≠ none := by
  intro n
  induction n with
  | zero => intro v m h; omega
  | succ k ih =>
    intro v m hd hm
    obtain ⟨j, rfl⟩ : ∃ j, m = j + 1 := ⟨m - 1, by omega⟩
    simp only [convertExpand]
    by_cases hobj : (!v.truthy || !v.isTypeofObject) = true
    · simp only [hobj, if_true]
      simp
    · simp only [hobj, if_false]
      have key : ∀ p v1, (p, v1) ∈ v.ownEntries → ∀ v2, ("$expand", v2) ∈ v1.ownEntries →
          convertExpand j v2 = convertExpand k v2 ∧ convertExpand k v2 ≠ none := by
        intro p v1 h1 v2 h2
        have d1 := depth_ownEntries h1
        have d2 := depth_ownEntries h2
        exact ih v2 j (by omega) (by omega)
      have hcongr : convertExpandLoop (convertExpandOptions (convertExpand j)) v.ownEntries =
          convertExpandLoop (convertExpandOptions (convertExpand k)) v.ownEntries := by
        apply convertExpandLoop_congr
        intro p v1 h1 _
        simp only [convertExpandOptions, convertSystemQueryOptions]
        rw [convertSystemQueryOptionsLoop_congr v1.ownEntries
          (fun v2 h2 => (key p v1 h1 v2 h2).1)]
      rw [hcongr]
      refine ⟨rfl, ?_⟩
      apply andThen_ne_none
      · apply convertExpandLoop_ne_none
        intro p v1 h1 _
        simp only [convertExpandOptions, convertSystemQueryOptions]
        apply andThen_ne_none
        · exact convertSystemQueryOptionsLoop_ne_none v1.ownEntries
            (fun v2 h2 => (key p v1 h1 v2 h2).2)
        · intro a
          simp
      · intro a
        simp

theorem convertSystemQueryOptions_enough (m : JSValue) (n fuel : Nat) (hn : m.depth ≤ n)
    (hfuel : n ≤ fuel) :
    convertSystemQueryOptions (convertExpand fuel) m =
      convertSystemQueryOptions (convertExpand n) m ∧
    convertSystemQueryOptions (convertExpand n) m ≠ none := by
  simp only [convertSystemQueryOptions]
  constructor
  · apply convertSystemQueryOptionsLoop_congr
    intro v hv
    have := depth_ownEntries hv
    exact (convertExpand_enough n v fuel (by omega) hfuel).1
  · apply convertSystemQueryOptionsLoop_ne_none
    intro v hv
    have := depth_ownEntries hv
    exact (convertExpand_enough n v n (by omega) (Nat.le_refl _)).2

theorem convertQueryOptions_enough (m : JSValue) (n fuel : Nat) (hn : m.depth ≤ n)
    (hfuel : n ≤ fuel) :
    convertQueryOptions fuel m = convertQueryOptions n m ∧ convertQueryOptions n m ≠ none := by
  obtain ⟨h1, h2⟩ := convertSystemQueryOptions_enough m n fuel hn hfuel
  simp only [convertQueryOptions, h1]
  refine ⟨trivial, ?_⟩
  split
  · simp
  · exact andThen_ne_none h2 (fun a => by simp)

/-- C30: `Cache.convertQueryOptions` returns or throws on every options mapping as soon as the
number of nested calls of `Cache.convertExpand` allowed is at least the nesting depth of the
mapping, and then the outcome does not depend on that number.  The recursion descends: the value
of a `$expand` handed to `convertExpand` is strictly less deep than the mapping, the options
handed to `convertExpandOptions` and from there to `convertSystemQueryOptions` are strictly less
deep than that value, and each of these calls returns or throws with the calls left to it. -/
theorem convertQueryOptions_terminates (mQueryOptions : JSValue) (fuel : Nat)
    (hfuel : mQueryOptions.depth ≤ fuel) :
    convertQueryOptions fuel mQueryOptions ≠ none ∧
    (∀ fuel2, mQueryOptions.depth ≤ fuel2 →
      convertQueryOptions fuel2 mQueryOptions = convertQueryOptions fuel mQueryOptions) ∧
    ∀ vValue, ("$expand", vValue) ∈ mQueryOptions.ownEntries →
      vValue.depth < mQueryOptions.depth ∧ convertExpand fuel vValue ≠ none ∧
      ∀ sExpandPath vExpandOptions, (sExpandPath, vExpandOptions) ∈ vValue.ownEntries →
        vExpandOptions.depth < vValue.depth ∧ 0 < fuel ∧
        convertExpandOptions (convertExpand (fuel - 1)) sExpandPath vExpandOptions ≠ none ∧
        convertSystemQueryOptions (convertExpand (fuel - 1)) vExpandOptions ≠ none := by
  refine ⟨?_, ?_, ?_⟩
  · exact (convertQueryOptions_enough mQueryOptions fuel fuel hfuel (Nat.le_refl _)).2
  · intro fuel2 h2
    rw [(convertQueryOptions_enough mQueryOptions mQueryOptions.depth fuel2 (Nat.le_refl _) h2).1,
      (convertQueryOptions_enough mQueryOptions mQueryOptions.depth fuel (Nat.le_refl _)
        hfuel).1]
  · intro vValue hv
    have d1 := depth_ownEntries hv
    refine ⟨d1, (convertExpand_enough fuel vValue fuel (by omega) (Nat.le_refl _)).2, ?_⟩
    intro sExpandPath vExpandOptions ho
    have d2 := depth_ownEntries ho
    have hsys := (convertSystemQueryOptions_enough vExpandOptions (fuel - 1) (fuel - 1)
      (by omega) (Nat.le_refl _)).2
    refine ⟨d2, by omega, ?_, hsys⟩
    simp only [convertExpandOptions]
    exact andThen_ne_none hsys (fun a => by simp)

/-- Witness for C30: an options mapping with a `$expand` nested in a `$expand`. -/
theorem convertQueryOptions_terminates_witness :
    convertQueryOptions 5 (JSValue.object [("$expand", JSValue.object
      [("SO_2_BP", JSValue.bool true),
        ("SO_2_SOITEM", JSValue.object [("$expand", JSValue.object
          [("SOITEM_2_SO", JSValue.bool true)])])]),
      ("sap-client", JSValue.string "003")]) ≠ none :=
  (convertQueryOptions_terminates (JSValue.object [("$expand", JSValue.object
      [("SO_2_BP", JSValue.bool true),
        ("SO_2_SOITEM", JSValue.object [("$expand", JSValue.object
          [("SOITEM_2_SO", JSValue.bool true)])])]),
      ("sap-client", JSValue.string "003")]) 5 (by decide)).1

/-! ## Options the conversion rejects -/

theorem andThen_error {α β : Type} {c : Call α} {f : α → Call β} {e : JSError}
    (h : c.andThen f = some (Except.error e)) :
    c = some (Except.error e) ∨ ∃ a, c = some (Except.ok a) ∧ f a = some (Except.error e) := by
  unfold Call.andThen at h
  cases c with
  | none => simp at h
  | some r =>
    cases r with
    | error e2 =>
      simp only [Option.some.injEq, Except.error.injEq] at h
      subst h
      exact Or.inl rfl
    | ok a => exact Or.inr ⟨a, rfl, h⟩

theorem andThen_ok {α β : Type} {c : Call α} {f : α → Call β} {b : β}
    (h : c.andThen f = some (Except.ok b)) :
    ∃ a, c = some (Except.ok a) ∧ f a = some (Except.ok b) := by
  unfold Call.andThen at h
  cases c with
  | none => simp at h
  | some r =>
    cases r with
    | error e2 => simp at h
    | ok a => exact ⟨a, rfl, h⟩

theorem andThen_not_ok {α β : Type} {c : Call α} (f : α → Call β)
    (h : ∀ a, c ≠ some (Except.ok a)) : ∀ b, c.andThen f ≠ some (Except.ok b) := by
  intro b hb
  obtain ⟨a, ha, _⟩ := andThen_ok hb
  exact h a ha

theorem convertSystemQueryOptionsLoop_error {fn : JSValue → Call String} {e : JSError} :
    ∀ entries : List (String × JSValue),
      convertSystemQueryOptionsLoop fn entries = some (Except.error e) →
      ∃ sKey vValue, (sKey, vValue) ∈ entries ∧
        convertSystemQueryOption fn sKey vValue = some (Except.error e)
  | [], h => by simp [convertSystemQueryOptionsLoop] at h
  | (sKey, vValue) :: rest, h => by
    simp only [convertSystemQueryOptionsLoop] at h
    rcases andThen_error h with h1 | ⟨a, _, h2⟩
    · exact ⟨sKey, vValue, List.mem_cons_self _ _, h1⟩
    · rcases andThen_error h2 with h3 | ⟨b, _, h4⟩
      · obtain ⟨k, v, hm, hk⟩ := convertSystemQueryOptionsLoop_error rest h3
        exact ⟨k, v, List.mem_cons_of_mem _ hm, hk⟩
      · simp at h4

theorem convertSystemQueryOptionsLoop_not_ok {fn : JSValue → Call String} :
    ∀ (entries : List (String × JSValue)) (sKey : String) (vValue : JSValue),
      (sKey, vValue) ∈ entries →
      (∀ a, convertSystemQueryOption fn sKey vValue ≠ some (Except.ok a)) →
      ∀ calls, convertSystemQueryOptionsLoop fn entries ≠ some (Except.ok calls)
  | [], _, _, h, _ => by simp at h
  | (k0, v0) :: rest, sKey, vValue, h, hno => by
    intro calls hc
    simp only [convertSystemQueryOptionsLoop] at hc
    obtain ⟨a, ha, hc2⟩ := andThen_ok hc
    obtain ⟨b, hb, _⟩ := andThen_ok hc2
    rcases List.mem_cons.1 h with h1 | h1
    · obtain ⟨e1, e2⟩ := Prod.mk.inj h1
      subst e1; subst e2
      exact hno a ha
    · exact convertSystemQueryOptionsLoop_not_ok rest sKey vValue h1 hno b hb

theorem convertExpandLoop_error {f : String → JSValue → Call String} {e : JSError} :
    ∀ entries : List (String × JSValue),
      convertExpandLoop f entries = some (Except.error e) →
      ∃ p v, (p, v) ∈ entries ∧ (v.truthy && v.isTypeofObject) = true ∧
        f p v = some (Except.error e)
  | [], h => by simp [convertExpandLoop] at h
  | (p, v) :: rest, h => by
    simp only [convertExpandLoop] at h
    rcases andThen_error h with h1 | ⟨a, _, h2⟩
    · by_cases hc : (v.truthy && v.isTypeofObject) = true
      · simp only [hc, if_true] at h1
        exact ⟨p, v, List.mem_cons_self _ _, hc, h1⟩
      · simp only [hc, Bool.false_eq_true, if_false] at h1
        simp at h1
    · rcases andThen_error h2 with h3 | ⟨b, _, h4⟩
      · obtain ⟨p2, v2, hm, hk⟩ := convertExpandLoop_error rest h3
        exact ⟨p2, v2, List.mem_cons_of_mem _ hm, hk⟩
      · simp at h4

theorem convertExpandLoop_not_ok {f : String → JSValue → Call String} :
    ∀ (entries : List (String × JSValue)) (p : String) (v : JSValue),
      (p, v) ∈ entries → (v.truthy && v.isTypeofObject) = true →
      (∀ a, f p v ≠ some (Except.ok a)) →
      ∀ aResult, convertExpandLoop f entries ≠ some (Except.ok aResult)
  | [], _, _, h, _, _ => by simp at h
  | (p0, v0) :: rest, p, v, h, hobj, hno => by
    intro aResult hc
    simp only [convertExpandLoop] at hc
    obtain ⟨a, ha, hc2⟩ := andThen_ok hc
    obtain ⟨b, hb, _⟩ := andThen_ok hc2
    rcases List.mem_cons.1 h with h1 | h1
    · obtain ⟨e1, e2⟩ := Prod.mk.inj h1
      subst e1; subst e2
      simp only [hobj, if_true] at ha
      exact hno a ha
    · exact convertExpandLoop_not_ok rest p v h1 hobj hno b hb

theorem unsupported_of_error : ∀ (n : Nat) (m : JSValue) (e : JSError),
    convertSystemQueryOptions (convertExpand n) m = some (Except.error e) →
    Unsupported m ∧ (e.canceled = false ∧ (e.message = "$expand must be a valid object" ∨
      ∃ sKey, e.message = "Unsupported system query option " ++ sKey)) := by
  intro n
  induction n with
  | zero =>
    intro m e h
    obtain ⟨sKey, vValue, hm, hk⟩ := convertSystemQueryOptionsLoop_error _ h
    unfold convertSystemQueryOption at hk
    by_cases h1 : sKey = "$select"
    · simp only [h1, if_true] at hk
      split at hk <;> simp at hk
    · by_cases h2 : sKey = "$expand"
      · simp only [h1, if_false, h2, if_true, convertExpand, Call.andThen] at hk
        simp at hk
      · simp only [h1, if_false, h2] at hk
        by_cases h3 : sKey.get 0 = '$'
        · simp only [h3, if_true, Option.some.injEq, Except.error.injEq] at hk
          subst hk
          exact ⟨Unsupported.key hm h3 h1 h2, rfl, Or.inr ⟨sKey, rfl⟩⟩
        · simp only [h3, if_false] at hk
          simp at hk
  | succ j ih =>
    intro m e h
    obtain ⟨sKey, vValue, hm, hk⟩ := convertSystemQueryOptionsLoop_error _ h
    unfold convertSystemQueryOption at hk
    by_cases h1 : sKey = "$select"
    · simp only [h1, if_true] at hk
      split at hk <;> simp at hk
    · by_cases h2 : sKey = "$expand"
      · simp only [h1, if_false, h2, if_true] at hk
        subst h2
        rcases andThen_error hk with h3 | ⟨a, _, h4⟩
        · simp only [convertExpand] at h3
          by_cases hobj : (!vValue.truthy || !vValue.isTypeofObject) = true
          · simp only [hobj, if_true, Option.some.injEq, Except.error.injEq] at h3
            subst h3
            refine ⟨Unsupported.expand hm ?_, rfl, Or.inl rfl⟩
            cases ht : vValue.truthy <;> cases ho : vValue.isTypeofObject <;>
              simp [ht, ho] at hobj ⊢
          · simp only [hobj, Bool.false_eq_true, if_false] at h3
            have hobj2 : (vValue.truthy && vValue.isTypeofObject) = true := by
              cases ht : vValue.truthy <;> cases ho : vValue.isTypeofObject <;>
                simp [ht, ho] at hobj ⊢
            rcases andThen_error h3 with h5 | ⟨b, _, h6⟩
            · obtain ⟨p, v, hpv, hv, hf⟩ := convertExpandLoop_error _ h5
              simp only [convertExpandOptions] at hf
              rcases andThen_error hf with h7 | ⟨c, _, h8⟩
              · obtain ⟨hu, hmsg⟩ := ih v e h7
                exact ⟨Unsupported.nested hm hobj2 hpv hv hu, hmsg⟩
              · simp at h8
            · simp at h6
        · simp at h4
      · simp only [h1, if_false, h2] at hk
        by_cases h3 : sKey.get 0 = '$'
        · simp only [h3, if_true, Option.some.injEq, Except.error.injEq] at hk
          subst hk
          exact ⟨Unsupported.key hm h3 h1 h2, rfl, Or.inr ⟨sKey, rfl⟩⟩
        · simp only [h3, if_false] at hk
          simp at hk

theorem not_ok_of_unsupported {m : JSValue} (h : Unsupported m) :
    ∀ (n : Nat) (calls : List (String × JSValue)),
      convertSystemQueryOptions (convertExpand n) m ≠ some (Except.ok calls) := by
  induction h with
  | @key m sKey vValue hm h0 h1 h2 =>
    intro n calls
    apply convertSystemQueryOptionsLoop_not_ok _ sKey vValue hm
    intro a
    simp [convertSystemQueryOption, h0, h1, h2]
  | @expand m vValue hm hobj =>
    intro n calls
    apply convertSystemQueryOptionsLoop_not_ok _ "$expand" vValue hm
    have hobj2 : (!vValue.truthy || !vValue.isTypeofObject) = true := by
      cases ht : vValue.truthy <;> cases ho : vValue.isTypeofObject <;>
        simp [ht, ho] at hobj ⊢
    have hs : ¬ ("$expand" = "$select") := by decide
    simp only [convertSystemQueryOption, hs, if_false, if_true]
    apply andThen_not_ok
    intro a
    cases n with
    | zero => simp [convertExpand]
    | succ j => simp [convertExpand, hobj2]
  | @nested m vValue sExpandPath vExpandOptions hm hobj hpv hv _ ih =>
    intro n calls
    apply convertSystemQueryOptionsLoop_not_ok _ "$expand" vValue hm
    have hobj2 : ¬ (!vValue.truthy || !vValue.isTypeofObject) = true := by
      cases ht : vValue.truthy <;> cases ho : vValue.isTypeofObject <;>
        simp [ht, ho] at hobj ⊢
    have hs : ¬ ("$expand" = "$select") := by decide
    simp only [convertSystemQueryOption, hs, if_false, if_true]
    apply andThen_not_ok
    intro a
    cases n with
    | zero => simp [convertExpand]
    | succ j =>
      simp only [convertExpand, hobj2, Bool.false_eq_true, if_false]
      apply andThen_not_ok
      apply convertExpandLoop_not_ok _ sExpandPath vExpandOptions hpv hv
      simp only [convertExpandOptions]
      apply andThen_not_ok
      exact ih j

theorem truthy_of_ownEntries {m : JSValue} {sKey : String} {vValue : JSValue}
    (h : (sKey, vValue) ∈ m.ownEntries) : m.truthy = true := by
  cases m <;> simp [JSValue.ownEntries, JSValue.truthy] at h ⊢

theorem truthy_of_unsupported {m : JSValue} (h : Unsupported m) : m.truthy = true := by
  cases h with
  | key hm _ _ _ => exact truthy_of_ownEntries hm
  | expand hm _ => exact truthy_of_ownEntries hm
  | nested hm _ _ _ _ => exact truthy_of_ownEntries hm

theorem call_cases {α : Type} (c : Call α) (h : c ≠ none) :
    (∃ e, c = some (Except.error e)) ∨ ∃ a, c = some (Except.ok a) := by
  cases c with
  | none => exact absurd rfl h
  | some r =>
    cases r with
    | error e => exact Or.inl ⟨e, rfl⟩
    | ok a => exact Or.inr ⟨a, rfl⟩

/-- C22: with enough nested calls allowed for the depth of the options mapping,
`Cache.convertQueryOptions` throws exactly when the mapping holds, at the top level or inside
the options of a path of a `$expand` at any depth, a key starting with "$" other than `$select`
and `$expand`, or a `$expand` whose value is not an object; the error is the one with message
"$expand must be a valid object" or "Unsupported system query option " followed by the key.
In that case `Cache.create` and `Cache.createSingle` throw that error and make no cache;
otherwise the conversion returns and both functions return a cache. -/
theorem conversion_fails_iff_unsupported (buildQuery : JSValue → String) (fuel : Nat)
    (oRequestor : Nat) (sUrl : String) (mQueryOptions : JSValue)
    (hfuel : mQueryOptions.depth ≤ fuel) :
    ((∃ e, convertQueryOptions fuel mQueryOptions = some (Except.error e)) ↔
      Unsupported mQueryOptions) ∧
    (Unsupported mQueryOptions → ∃ e,
      convertQueryOptions fuel mQueryOptions = some (Except.error e) ∧
      create buildQuery fuel oRequestor sUrl mQueryOptions = some (Except.error e) ∧
      createSingle buildQuery fuel oRequestor sUrl mQueryOptions = some (Except.error e) ∧
      e.canceled = false ∧ (e.message = "$expand must be a valid object" ∨
        ∃ sKey, e.message = "Unsupported system query option " ++ sKey)) ∧
    (¬ Unsupported mQueryOptions → ∃ mConverted,
      convertQueryOptions fuel mQueryOptions = some (Except.ok mConverted) ∧
      create buildQuery fuel oRequestor sUrl mQueryOptions =
        some (Except.ok (CollectionCache.create oRequestor sUrl (buildQuery mConverted))) ∧
      createSingle buildQuery fuel oRequestor sUrl mQueryOptions =
        some (Except.ok (SingleCache.create oRequestor sUrl (buildQuery mConverted)))) := by
  have hsome := (convertQueryOptions_enough mQueryOptions fuel fuel hfuel (Nat.le_refl _)).2
  have hfwd : ∀ e, convertQueryOptions fuel mQueryOptions = some (Except.error e) →
      Unsupported mQueryOptions ∧ (e.canceled = false ∧
        (e.message = "$expand must be a valid object" ∨
          ∃ sKey, e.message = "Unsupported system query option " ++ sKey)) := by
    intro e he
    simp only [convertQueryOptions] at he
    split at he
    · simp at he
    · rcases andThen_error he with h1 | ⟨a, _, h2⟩
      · exact unsupported_of_error fuel mQueryOptions e h1
      · simp at h2
  have hbwd : Unsupported mQueryOptions →
      ∃ e, convertQueryOptions fuel mQueryOptions = some (Except.error e) := by
    intro hu
    rcases call_cases _ hsome with h | ⟨a, ha⟩
    · exact h
    · exfalso
      simp only [convertQueryOptions, truthy_of_unsupported hu, Bool.not_true,
        Bool.false_eq_true, if_false] at ha
      obtain ⟨calls, hc, _⟩ := andThen_ok ha
      exact not_ok_of_unsupported hu fuel calls hc
  refine ⟨⟨fun ⟨e, he⟩ => (hfwd e he).1, hbwd⟩, ?_, ?_⟩
  · intro hu
    obtain ⟨e, he⟩ := hbwd hu
    refine ⟨e, he, ?_, ?_, (hfwd e he).2⟩
    · simp [create, buildQueryString, he, Call.andThen]
    · simp [createSingle, buildQueryString, he, Call.andThen]
  · intro hu
    rcases call_cases _ hsome with ⟨e, he⟩ | ⟨a, ha⟩
    · exact absurd (hfwd e he).1 hu
    · refine ⟨a, ha, ?_, ?_⟩
      · simp [create, buildQueryString, ha, Call.andThen]
      · simp [createSingle, buildQueryString, ha, Call.andThen]

/-- Witness for C22: the option `$filter` inside the options of a path of a `$expand`. -/
theorem conversion_fails_iff_unsupported_witness :
    (∃ e, convertQueryOptions 3 (JSValue.object [("$expand", JSValue.object
        [("SO_2_SOITEM", JSValue.object [("$filter", JSValue.string "foo")])])]) =
      some (Except.error e)) ↔
    Unsupported (JSValue.object [("$expand", JSValue.object
      [("SO_2_SOITEM", JSValue.object [("$filter", JSValue.string "foo")])])]) :=
  (conversion_fails_iff_unsupported (fun _ => "") 3 0 "/~/Employees"
    (JSValue.object [("$expand", JSValue.object
      [("SO_2_SOITEM", JSValue.object [("$filter", JSValue.string "foo")])])])
    (by decide)).1

/-! ## The conversion of expand items -/

theorem convertExpandLoop_ok {f : String → JSValue → Call String} :
    ∀ (entries : List (String × JSValue)) (aResult : List String),
      convertExpandLoop f entries = some (Except.ok aResult) ↔
      List.Forall₂ (fun (pv : String × JSValue) (sItem : String) =>
        if (pv.2.truthy && pv.2.isTypeofObject) = true then f pv.1 pv.2 = some (Except.ok sItem)
        else sItem = pv.1) entries aResult
  | [], aResult => by
    simp only [convertExpandLoop, Option.some.injEq, Except.ok.injEq, List.forall₂_nil_left_iff]
    exact eq_comm
  | (p, v) :: rest, aResult => by
    simp only [convertExpandLoop]
    constructor
    · intro h
      obtain ⟨a, ha, h2⟩ := andThen_ok h
      obtain ⟨b, hb, h3⟩ := andThen_ok h2
      simp only [Option.some.injEq, Except.ok.injEq] at h3
      subst h3
      refine List.Forall₂.cons ?_ ((convertExpandLoop_ok rest b).1 hb)
      by_cases hc : (v.truthy && v.isTypeofObject) = true
      · simp only [hc, if_true] at ha ⊢
        exact ha
      · simp only [hc, Bool.false_eq_true, if_false, Option.some.injEq, Except.ok.injEq] at ha ⊢
        exact ha.symm
    · intro h
      cases h with
      | cons h1 h2 =>
        rename_i sItem bs
        rw [(convertExpandLoop_ok rest bs).2 h2]
        by_cases hc : (v.truthy && v.isTypeofObject) = true
        · simp only [hc, if_true] at h1 ⊢
          simp [h1, Call.andThen]
        · simp only [hc, Bool.false_eq_true, if_false] at h1 ⊢
          simp [h1, Call.andThen]

theorem convertExpand_joins_example (fuel : Nat) :
    convertExpand (fuel + 1) (JSValue.object [("A", JSValue.bool true),
      ("B", JSValue.object [("$select",
        JSValue.array [JSValue.string "x", JSValue.string "y"])])]) =
      some (Except.ok "A,B($select=x,y)") := by
  rcases fuel with _ | _ | _ | n
  · decide
  · decide
  · decide
  · rw [(convertExpand_enough 4 _ (n + 1 + 1 + 1 + 1) (by decide) (by omega)).1]
    decide

/-- C23: `Cache.convertExpand`, with at least one nested call left, applied to an object
returns a string exactly when every path whose value is an object (a truthy value of type
"object") is converted by `Cache.convertExpandOptions`, and then the string is made of the
items of the paths, in the order of the properties, joined by ","; the item of a path whose
value is `true`, `null` or another value that is no object is the bare path, and the item of
a path with an options mapping is what `convertExpandOptions(path, options)` returns.  So
`A: true, B: ($select: ["x", "y"])` yields "A,B($select=x,y)". -/
theorem convertExpand_joins_items (fuel : Nat) (entries : List (String × JSValue)) :
    (∀ s, convertExpand (fuel + 1) (JSValue.object entries) = some (Except.ok s) ↔
      ∃ aResult, s = ",".intercalate aResult ∧
        List.Forall₂ (fun (pv : String × JSValue) (sItem : String) =>
          if (pv.2.truthy && pv.2.isTypeofObject) = true
          then convertExpandOptions (convertExpand fuel) pv.1 pv.2 = some (Except.ok sItem)
          else sItem = pv.1) entries aResult) ∧
    ((∀ pv ∈ entries, (pv.2.truthy && pv.2.isTypeofObject) = false) →
      convertExpand (fuel + 1) (JSValue.object entries) =
        some (Except.ok (",".intercalate (entries.map Prod.fst)))) ∧
    ((JSValue.bool true).truthy && (JSValue.bool true).isTypeofObject) = false ∧
    (JSValue.null.truthy && JSValue.null.isTypeofObject) = false ∧
    (∀ s, ((JSValue.string s).truthy && (JSValue.string s).isTypeofObject) = false) ∧
    convertExpand (fuel + 1) (JSValue.object [("A", JSValue.bool true),
      ("B", JSValue.object [("$select",
        JSValue.array [JSValue.string "x", JSValue.string "y"])])]) =
      some (Except.ok "A,B($select=x,y)") := by
  have hiff : ∀ s, convertExpand (fuel + 1) (JSValue.object entries) = some (Except.ok s) ↔
      ∃ aResult, s = ",".intercalate aResult ∧
        List.Forall₂ (fun (pv : String × JSValue) (sItem : String) =>
          if (pv.2.truthy && pv.2.isTypeofObject) = true
          then convertExpandOptions (convertExpand fuel) pv.1 pv.2 = some (Except.ok sItem)
          else sItem = pv.1) entries aResult := by
    intro s
    have hobj : ¬ (!(JSValue.object entries).truthy ||
        !(JSValue.object entries).isTypeofObject) = true := by
      simp [JSValue.truthy, JSValue.isTypeofObject]
    simp only [convertExpand, hobj, Bool.false_eq_true, if_false, JSValue.ownEntries]
    constructor
    · intro h
      obtain ⟨a, ha, h2⟩ := andThen_ok h
      simp only [Option.some.injEq, Except.ok.injEq] at h2
      exact ⟨a, h2.symm, (convertExpandLoop_ok entries a).1 ha⟩
    · rintro ⟨a, hs, ha⟩
      rw [(convertExpandLoop_ok entries a).2 ha, hs]
      rfl
  refine ⟨hiff, ?_, rfl, rfl, fun s => by simp [JSValue.isTypeofObject], ?_⟩
  · intro hno
    apply (hiff _).2
    refine ⟨entries.map Prod.fst, rfl, ?_⟩
    rw [List.forall₂_map_right_iff]
    apply List.forall₂_same.2
    intro pv hpv
    simp [hno pv hpv]
  · apply (convertExpand_joins_example fuel)

/-! ## The conversion of expand options -/

theorem convertSystemQueryOptionsLoop_ok {fn : JSValue → Call String} :
    ∀ (entries calls : List (String × JSValue)),
      convertSystemQueryOptionsLoop fn entries = some (Except.ok calls) ↔
      List.Forall₂ (fun (e c : String × JSValue) =>
        c.1 = e.1 ∧ convertSystemQueryOption fn e.1 e.2 = some (Except.ok c.2)) entries calls
  | [], calls => by
    simp only [convertSystemQueryOptionsLoop, Option.some.injEq, Except.ok.injEq,
      List.forall₂_nil_left_iff]
    exact eq_comm
  | (sKey, vValue) :: rest, calls => by
    simp only [convertSystemQueryOptionsLoop]
    constructor
    · intro h
      obtain ⟨a, ha, h2⟩ := andThen_ok h
      obtain ⟨b, hb, h3⟩ := andThen_ok h2
      simp only [Option.some.injEq, Except.ok.injEq] at h3
      subst h3
      exact List.Forall₂.cons ⟨rfl, ha⟩ ((convertSystemQueryOptionsLoop_ok rest b).1 hb)
    · intro h
      cases h with
      | cons h1 h2 =>
        rename_i c cs
        obtain ⟨c1, c2⟩ := c
        simp only at h1
        obtain ⟨hk, hv⟩ := h1
        subst hk
        rw [(convertSystemQueryOptionsLoop_ok rest cs).2 h2, hv]
        rfl

/-- C24: `Cache.convertExpandOptions(sExpandPath, vExpandOptions)` returns the bare path for
an object with no properties; for an object with properties it returns a string exactly when
every option is converted, and then the string is the path followed by "(", the pairs name,
"=", value of the options in the order of the properties joined by ";", and ")".  The value of
a `$select` given as an array is its elements joined with ",", the value of a `$expand` is what
`Cache.convertExpand` returns for it.  So the options `$expand: E, $select: ["select1",
"select2"]` for the path "foo" yield "foo($expand=" followed by the conversion of `E` and
";$select=select1,select2)". -/
theorem convertExpandOptions_builds_item (fnConvertExpand : JSValue → Call String)
    (sExpandPath : String) (entries : List (String × JSValue)) :
    convertExpandOptions fnConvertExpand sExpandPath (JSValue.object []) =
      some (Except.ok sExpandPath) ∧
    (∀ s, convertExpandOptions fnConvertExpand sExpandPath (JSValue.object entries) =
        some (Except.ok s) ↔
      ∃ calls, List.Forall₂ (fun (e c : String × JSValue) => c.1 = e.1 ∧
          convertSystemQueryOption fnConvertExpand e.1 e.2 = some (Except.ok c.2))
          entries calls ∧
        s = if entries.length = 0 then sExpandPath else sExpandPath ++ "(" ++
          ";".intercalate (calls.map (fun c => c.1 ++ "=" ++ c.2.toJSString)) ++ ")") ∧
    (∀ aItems, convertSystemQueryOption fnConvertExpand "$select" (JSValue.array aItems) =
      some (Except.ok (JSValue.string (",".intercalate (elementStrings aItems))))) ∧
    (∀ s, convertSystemQueryOption fnConvertExpand "$select" (JSValue.string s) =
      some (Except.ok (JSValue.string s))) ∧
    (∀ vValue, convertSystemQueryOption fnConvertExpand "$expand" vValue =
      (fnConvertExpand vValue).andThen (fun s => some (Except.ok (JSValue.string s)))) ∧
    (∀ s, (JSValue.string s).toJSString = s) ∧
    (∀ mExpandItems s, fnConvertExpand mExpandItems = some (Except.ok s) →
      convertExpandOptions fnConvertExpand "foo" (JSValue.object [("$expand", mExpandItems),
        ("$select", JSValue.array [JSValue.string "select1", JSValue.string "select2"])]) =
        some (Except.ok ("foo($expand=" ++ s ++ ";$select=select1,select2)"))) := by
  have hiff : ∀ (entries : List (String × JSValue)) (s : String),
      convertExpandOptions fnConvertExpand sExpandPath (JSValue.object entries) =
        some (Except.ok s) ↔
      ∃ calls, List.Forall₂ (fun (e c : String × JSValue) => c.1 = e.1 ∧
          convertSystemQueryOption fnConvertExpand e.1 e.2 = some (Except.ok c.2))
          entries calls ∧
        s = if entries.length = 0 then sExpandPath else sExpandPath ++ "(" ++
          ";".intercalate (calls.map (fun c => c.1 ++ "=" ++ c.2.toJSString)) ++ ")" := by
    intro entries s
    simp only [convertExpandOptions, convertSystemQueryOptions, JSValue.ownEntries]
    have hlen : ∀ calls : List (String × JSValue), List.Forall₂ (fun (e c : String × JSValue) =>
        c.1 = e.1 ∧ convertSystemQueryOption fnConvertExpand e.1 e.2 = some (Except.ok c.2))
        entries calls →
        ((calls.map (fun c => c.1 ++ "=" ++ c.2.toJSString)).length ≠ 0 ↔
          ¬ entries.length = 0) := by
      intro calls hc
      have := hc.length_eq
      rw [List.length_map, ← this]
    constructor
    · intro h
      obtain ⟨calls, hc, h2⟩ := andThen_ok h
      have hf := (convertSystemQueryOptionsLoop_ok entries calls).1 hc
      refine ⟨calls, hf, ?_⟩
      simp only [Option.some.injEq, Except.ok.injEq] at h2
      rw [← h2]
      by_cases he : entries.length = 0
      · have := (hlen calls hf).not.2 (by simpa using he)
        rw [if_neg this, if_pos he]
      · have := (hlen calls hf).2 he
        rw [if_pos this, if_neg he]
    · rintro ⟨calls, hf, hs⟩
      rw [(convertSystemQueryOptionsLoop_ok entries calls).2 hf]
      simp only [Call.andThen, Option.some.injEq, Except.ok.injEq]
      rw [hs]
      by_cases he : entries.length = 0
      · have := (hlen calls hf).not.2 (by simpa using he)
        rw [if_neg this, if_pos he]
      · have := (hlen calls hf).2 he
        rw [if_pos this, if_neg he]
  refine ⟨?_, hiff entries, ?_, ?_, ?_, fun s => rfl, ?_⟩
  · exact (hiff [] sExpandPath).2 ⟨[], List.Forall₂.nil, by simp⟩
  · intro aItems
    simp [convertSystemQueryOption, arrayJoin]
  · intro s
    simp [convertSystemQueryOption]
  · intro vValue
    have hs : ¬ ("$expand" = "$select") := by decide
    simp only [convertSystemQueryOption, hs, if_false, if_true]
  · intro mExpandItems s hE
    have hs : ¬ ("$expand" = "$select") := by decide
    simp only [convertExpandOptions, convertSystemQueryOptions, JSValue.ownEntries,
      convertSystemQueryOptionsLoop, convertSystemQueryOption, hs, if_false, if_true, hE,
      Call.andThen, arrayJoin, elementStrings, JSValue.toJSString, List.map_cons, List.map_nil,
      List.length_cons, List.length_nil]
    simp only [Option.some.injEq, Except.ok.injEq]
    apply String.ext
    simp [String.intercalate, String.intercalate.go]

/-! ## The converted query options -/

theorem setProperty_new : ∀ (m : List (String × JSValue)) (sKey : String) (vValue : JSValue),
    sKey ∉ m.map Prod.fst → setProperty m sKey vValue = m ++ [(sKey, vValue)]
  | [], _, _, _ => rfl
  | (k, v) :: rest, sKey, vValue, h => by
    simp only [List.map_cons, List.mem_cons, not_or] at h
    have hk : ¬ k = sKey := fun e => h.1 e.symm
    simp only [setProperty, hk, if_false, setProperty_new rest sKey vValue h.2, List.cons_append]

theorem foldl_setProperty : ∀ (calls m : List (String × JSValue)),
    ((m ++ calls).map Prod.fst).Nodup →
    calls.foldl (fun mConverted c => setProperty mConverted c.1 c.2) m = m ++ calls
  | [], m, _ => by simp
  | (k, v) :: rest, m, h => by
    simp only [List.foldl_cons]
    have hk : k ∉ m.map Prod.fst := by
      simp only [List.map_append, List.map_cons] at h
      have := (List.nodup_append.1 h).2.2
      intro hm
      exact this hm (List.mem_cons_self _ _)
    rw [setProperty_new m k v hk, foldl_setProperty rest (m ++ [(k, v)]) (by simpa using h)]
    simp

theorem forall₂_keys {fn : JSValue → Call String} {entries calls : List (String × JSValue)}
    (h : List.Forall₂ (fun (e c : String × JSValue) =>
      c.1 = e.1 ∧ convertSystemQueryOption fn e.1 e.2 = some (Except.ok c.2)) entries calls) :
    calls.map Prod.fst = entries.map Prod.fst := by
  induction h with
  | nil => rfl
  | cons h1 _ ih => simp [h1.1, ih]

/-- C25: `Cache.convertQueryOptions` returns `undefined` for `undefined` and `null`.  When it
returns for an object (whose keys are distinct, as the keys of an object are), the result is a
new object with the keys of the input in the same order, where the value of `$select` is the
elements joined with "," for an array and the value itself otherwise, the value of `$expand` is
the string `Cache.convertExpand` returns for it, and the value of a key that does not start
with "$" is the value itself, an array included. -/
theorem convertQueryOptions_keeps_keys (fuel : Nat) (entries : List (String × JSValue))
    (mConverted : JSValue) (hkeys : (entries.map Prod.fst).Nodup)
    (h : convertQueryOptions fuel (JSValue.object entries) = some (Except.ok mConverted)) :
    convertQueryOptions fuel JSValue.undefined = some (Except.ok JSValue.undefined) ∧
    convertQueryOptions fuel JSValue.null = some (Except.ok JSValue.undefined) ∧
    ∃ converted, mConverted = JSValue.object converted ∧
      converted.map Prod.fst = entries.map Prod.fst ∧
      List.Forall₂ (fun (e c : String × JSValue) => c.1 = e.1 ∧
        (e.1 = "$select" → (∀ aItems, e.2 = JSValue.array aItems →
            c.2 = JSValue.string (",".intercalate (elementStrings aItems))) ∧
          ((∀ aItems, e.2 ≠ JSValue.array aItems) → c.2 = e.2)) ∧
        (e.1 = "$expand" → ∃ s, convertExpand fuel e.2 = some (Except.ok s) ∧
          c.2 = JSValue.string s) ∧
        (e.1.get 0 ≠ '$' → c.2 = e.2)) entries converted := by
  refine ⟨rfl, rfl, ?_⟩
  have ht : ¬ (!(JSValue.object entries).truthy) = true := by simp [JSValue.truthy]
  simp only [convertQueryOptions, ht, Bool.false_eq_true, if_false, convertSystemQueryOptions,
    JSValue.ownEntries] at h
  obtain ⟨calls, hc, h2⟩ := andThen_ok h
  have hf := (convertSystemQueryOptionsLoop_ok entries calls).1 hc
  have hk := forall₂_keys hf
  simp only [Option.some.injEq, Except.ok.injEq] at h2
  rw [foldl_setProperty calls [] (by simpa [hk] using hkeys), List.nil_append] at h2
  refine ⟨calls, h2.symm, hk, ?_⟩
  refine hf.imp ?_
  intro e c ⟨h1, hv⟩
  refine ⟨h1, ?_, ?_, ?_⟩
  · intro hs
    simp only [convertSystemQueryOption, hs, if_true] at hv
    constructor
    · intro aItems ha
      rw [ha] at hv
      simp only [Option.some.injEq, Except.ok.injEq, arrayJoin] at hv
      exact hv.symm
    · intro hna
      cases he : e.2 with
      | array aItems => exact absurd he (hna aItems)
      | undefined => rw [he] at hv; simp at hv; exact hv.symm
      | null => rw [he] at hv; simp at hv; exact hv.symm
      | bool b => rw [he] at hv; simp at hv; exact hv.symm
      | string s => rw [he] at hv; simp at hv; exact hv.symm
      | object o => rw [he] at hv; simp at hv; exact hv.symm
  · intro hx
    have hs : ¬ (e.1 = "$select") := by rw [hx]; decide
    simp only [convertSystemQueryOption, hs, if_false, hx, if_true] at hv
    obtain ⟨s, h3, h4⟩ := andThen_ok hv
    simp only [Option.some.injEq, Except.ok.injEq] at h4
    exact ⟨s, h3, h4.symm⟩
  · intro hd
    have hs : ¬ (e.1 = "$select") := by
      intro hs
      apply hd
      rw [hs]
      decide
    have hx : ¬ (e.1 = "$expand") := by
      intro hx
      apply hd
      rw [hx]
      decide
    simp only [convertSystemQueryOption, hs, if_false, hx, hd, Option.some.injEq,
      Except.ok.injEq] at hv
    exact hv.symm

/-- Witness for C25: the options `foo: "bar", $select: ["select1", "select2"]`. -/
theorem convertQueryOptions_keeps_keys_witness :
    ∃ converted, JSValue.object [("foo", JSValue.string "bar"),
        ("$select", JSValue.string "select1,select2")] = JSValue.object converted ∧
      converted.map Prod.fst = [("foo", JSValue.string "bar"), ("$select",
        JSValue.array [JSValue.string "select1", JSValue.string "select2"])].map Prod.fst :=
  have h := (convertQueryOptions_keeps_keys 0 [("foo", JSValue.string "bar"), ("$select",
      JSValue.array [JSValue.string "select1", JSValue.string "select2"])]
    (JSValue.object [("foo", JSValue.string "bar"),
      ("$select", JSValue.string "select1,select2")]) (by decide) (by rfl)).2.2
  match h with
  | ⟨converted, h1, h2, _⟩ => ⟨converted, h1, h2⟩

/-! ## The URL of a created cache -/

theorem string_length_ne_zero (s : String) : s.length ≠ 0 ↔ s ≠ "" := by
  obtain ⟨data⟩ := s
  cases data with
  | nil => simp [String.length]
  | cons c cs =>
    simp only [String.length, List.length_cons, ne_eq, Nat.add_one_ne_zero, not_false_eq_true,
      true_iff]
    intro h
    have := congrArg String.data h
    simp at this

/-- C26: when `Cache.buildQueryString` returns the query string `sQuery` for the options,
`Cache.create` returns a cache whose `toString()` is the URL followed by `sQuery` and by "&"
if `sQuery` is not empty and by "?" otherwise ("/~/Employees?$select=ID&" for the URL
"/~/Employees" and the query string "?$select=ID"), `Cache.createSingle` returns a cache whose
`toString()` is the URL followed by `sQuery`, and no sequence of events (calls of `read` and
`refresh`, answers of the requestor) changes what `toString()` returns. -/
theorem toString_of_created_caches (buildQuery : JSValue → String) (fuel oRequestor : Nat)
    (sUrl : String) (mQueryOptions : JSValue) (sQuery : String)
    (h : buildQueryString buildQuery fuel mQueryOptions = some (Except.ok sQuery)) :
    ∃ oCache oSingle,
      create buildQuery fuel oRequestor sUrl mQueryOptions = some (Except.ok oCache) ∧
      createSingle buildQuery fuel oRequestor sUrl mQueryOptions = some (Except.ok oSingle) ∧
      oCache.toString = sUrl ++ sQuery ++ (if sQuery ≠ "" then "&" else "?") ∧
      oSingle.toString = sUrl ++ sQuery ∧
      (∀ events : List Event,
        (run (World.init oCache) events).oCache.toString = oCache.toString) ∧
      (∀ events : List SingleEvent,
        (runSingle (SingleWorld.init oSingle) events).oCache.toString = oSingle.toString) ∧
      (sUrl = "/~/Employees" → sQuery = "?$select=ID" →
        oCache.toString = "/~/Employees?$select=ID&") := by
  refine ⟨CollectionCache.create oRequestor sUrl sQuery,
    SingleCache.create oRequestor sUrl sQuery, ?_, ?_, ?_, rfl, ?_, ?_, ?_⟩
  · simp [create, h, Call.andThen]
  · simp [createSingle, h, Call.andThen]
  · simp only [CollectionCache.toString, CollectionCache.create, String.append_assoc]
    by_cases hq : sQuery ≠ ""
    · simp only [(string_length_ne_zero sQuery).2 hq, hq, ne_eq, not_false_eq_true, if_true]
    · have := (string_length_ne_zero sQuery).not.2 hq
      simp only [this, hq, if_false]
  · intro events
    exact (run_later events (World.init (CollectionCache.create oRequestor sUrl sQuery))).sUrl
  · intro events
    exact runSingle_sUrl events (SingleWorld.init (SingleCache.create oRequestor sUrl sQuery))
  · intro h1 h2
    subst h1; subst h2
    simp only [CollectionCache.toString, CollectionCache.create]
    decide

/-- Witness for C26: the options `$select: "ID"` with a function that writes the converted
options as "?$select=ID". -/
theorem toString_of_created_caches_witness :
    ∃ oCache oSingle,
      create (fun _ => "?$select=ID") 0 0 "/~/Employees"
        (JSValue.object [("$select", JSValue.string "ID")]) = some (Except.ok oCache) ∧
      createSingle (fun _ => "?$select=ID") 0 0 "/~/Employees"
        (JSValue.object [("$select", JSValue.string "ID")]) = some (Except.ok oSingle) ∧
      oCache.toString = "/~/Employees?$select=ID&" ∧
      oSingle.toString = "/~/Employees" ++ "?$select=ID" :=
  match toString_of_created_caches (fun _ => "?$select=ID") 0 0 "/~/Employees"
    (JSValue.object [("$select", JSValue.string "ID")]) "?$select=ID" (by rfl) with
  | ⟨oCache, oSingle, h1, h2, _, h4, _, _, h7⟩ => ⟨oCache, oSingle, h1, h2, h7 rfl rfl, h4⟩

/-! ## Options nested under an expand path -/

theorem elementStrings_strings : ∀ strs : List String,
    elementStrings (strs.map JSValue.string) = strs
  | [] => rfl
  | s :: rest => by
    simp only [List.map_cons, elementStrings, JSValue.toJSString, elementStrings_strings rest]

/-- C28 (amended): the options nested under a path of a `$expand` are converted by the same
function `convertSystemQueryOptions` as the options at the top level, which hands on the value
of a key not starting with "$" as it is, an array included; `Cache.convertExpandOptions` then
makes one pair name, "=", value of each option with the value turned into a string, so that an
array of strings as value of such a key yields a single pair whose value is the elements joined
by ",". -/
theorem nested_sequence_yields_one_joined_pair (fnConvertExpand : JSValue → Call String)
    (fuel : Nat) (sExpandPath sKey : String) (strs : List String)
    (h1 : sKey ≠ "$select") (h2 : sKey ≠ "$expand") (h3 : sKey.get 0 ≠ '$') :
    convertSystemQueryOptions fnConvertExpand
      (JSValue.object [(sKey, JSValue.array (strs.map JSValue.string))]) =
      some (Except.ok [(sKey, JSValue.array (strs.map JSValue.string))]) ∧
    convertQueryOptions fuel (JSValue.object [(sKey, JSValue.array (strs.map JSValue.string))]) =
      some (Except.ok (JSValue.object [(sKey, JSValue.array (strs.map JSValue.string))])) ∧
    convertExpandOptions fnConvertExpand sExpandPath
      (JSValue.object [(sKey, JSValue.array (strs.map JSValue.string))]) =
      some (Except.ok (sExpandPath ++ "(" ++ (sKey ++ "=" ++ ",".intercalate strs) ++ ")")) ∧
    (∀ vExpandOptions, convertExpandOptions fnConvertExpand sExpandPath vExpandOptions =
      (convertSystemQueryOptions fnConvertExpand vExpandOptions).andThen (fun calls =>
        some (Except.ok (if (calls.map (fun c => c.1 ++ "=" ++ c.2.toJSString)).length ≠ 0
          then sExpandPath ++ "(" ++
            ";".intercalate (calls.map (fun c => c.1 ++ "=" ++ c.2.toJSString)) ++ ")"
          else sExpandPath)))) := by
  have hsys : ∀ fn : JSValue → Call String, convertSystemQueryOptions fn
      (JSValue.object [(sKey, JSValue.array (strs.map JSValue.string))]) =
      some (Except.ok [(sKey, JSValue.array (strs.map JSValue.string))]) := by
    intro fn
    simp only [convertSystemQueryOptions, JSValue.ownEntries, convertSystemQueryOptionsLoop,
      convertSystemQueryOption, h1, h2, h3, if_false, Call.andThen]
  refine ⟨hsys _, ?_, ?_, fun _ => rfl⟩
  · have ht : ¬ (!(JSValue.object [(sKey, JSValue.array (strs.map JSValue.string))]).truthy) =
        true := by simp [JSValue.truthy]
    simp only [convertQueryOptions, ht, Bool.false_eq_true, if_false, hsys, Call.andThen,
      List.foldl_cons, List.foldl_nil, setProperty]
  · simp only [convertExpandOptions, hsys, Call.andThen, List.map_cons, List.map_nil,
      List.length_singleton, JSValue.toJSString, elementStrings_strings]
    simp [String.intercalate, String.intercalate.go]

/-- Witness for C28 (amended): the option `foo: ["a", "b"]` of the path "A". -/
theorem nested_sequence_yields_one_joined_pair_witness :
    convertExpandOptions (convertExpand 0) "A"
      (JSValue.object [("foo", JSValue.array (["a", "b"].map JSValue.string))]) =
      some (Except.ok ("A" ++ "(" ++ ("foo" ++ "=" ++ ",".intercalate ["a", "b"]) ++ ")")) :=
  (nested_sequence_yields_one_joined_pair (convertExpand 0) 0 "A" "foo" ["a", "b"]
    (by decide) (by decide) (by decide)).2.2.1

/-- C28 as stated fails: the options `foo: ["a", "b"]` nested under the path "A" of a
`$expand` yield "A(foo=a,b)", a single pair with the elements joined, and not one pair per
element. -/
theorem nested_sequence_is_joined :
    convertExpand 1 (JSValue.object
      [("A", JSValue.object [("foo", JSValue.array [JSValue.string "a", JSValue.string "b"])])]) =
      some (Except.ok "A(foo=a,b)") ∧
    convertExpand 1 (JSValue.object
      [("A", JSValue.object [("foo", JSValue.array [JSValue.string "a", JSValue.string "b"])])]) ≠
      some (Except.ok "A(foo=a;foo=b)") := by
  decide

/-! ## Reads after a response with more records than requested -/

/-- C15 (amended): a response with more records than requested is not treated
specially: when `aElements` is still the array the request captured, record `k` of
the response is written to slot `q.iStart + k` for every `k` below the number of
returned records, also at indexes from `q.iEnd` on; every slot outside
`[q.iStart, q.iStart + returned)` is as before, `iMaxElements` is as before and
`sContext` is the context of the response.  A `read` called right after the response whose
range, clipped to `iMaxElements`, lies inside `[q.iStart, q.iStart + returned)` issues no
request and resolves with the records stored at the indexes of that clipped range, the records
beyond the requested ones among them. -/
theorem respond_longer_response_stores_every_record (w : World) (p : Nat) (q : Request)
    (oResult : ODataResponse)
    (hq : w.requests[p]? = some q) (hflight : w.isSettled p = false)
    (hsame : q.aElements = w.oCache.aElements.id)
    (hmore : (q.iEnd : Int) - (q.iStart : Int) < (oResult.value.length : Int)) :
    (∀ k, k < oResult.value.length → ∃ r, oResult.value[k]? = some r ∧
      elementAt (respond w p oResult).oCache.aElements.items (q.iStart + k) = Slot.record r) ∧
    (∀ j, ¬ (q.iStart ≤ j ∧ j < q.iStart + oResult.value.length) →
      elementAt (respond w p oResult).oCache.aElements.items j =
        elementAt w.oCache.aElements.items j) ∧
    (respond w p oResult).oCache.sContext = oResult.context ∧
    (respond w p oResult).oCache.iMaxElements = w.oCache.iMaxElements ∧
    ∀ iIndex iLength : Nat, q.iStart ≤ iIndex →
      (clippedEnd (respond w p oResult).oCache (iIndex : Int) (iLength : Int)).toNat ≤
        q.iStart + oResult.value.length →
      (run (respond w p oResult) [Event.read (iIndex : Int) (iLength : Int),
        Event.settle (respond w p oResult).reads.length]).requests =
        (respond w p oResult).requests ∧
      (run (respond w p oResult) [Event.read (iIndex : Int) (iLength : Int),
        Event.settle (respond w p oResult).reads.length]).reads =
        (respond w p oResult).reads ++ [⟨iIndex,
          (clippedEnd (respond w p oResult).oCache (iIndex : Int) (iLength : Int)).toNat,
          slice (respond w p oResult).oCache.aElements.items iIndex
            (clippedEnd (respond w p oResult).oCache (iIndex : Int) (iLength : Int)).toNat,
          some (Except.ok ⟨oResult.context,
            slice (respond w p oResult).oCache.aElements.items iIndex
              (clippedEnd (respond w p oResult).oCache (iIndex : Int)
                (iLength : Int)).toNat⟩)⟩] ∧
      ∀ k, iIndex ≤ k →
        k < (clippedEnd (respond w p oResult).oCache (iIndex : Int) (iLength : Int)).toNat →
        ∃ r, oResult.value[k - q.iStart]? = some r ∧
          elementAt (respond w p oResult).oCache.aElements.items k = Slot.record r ∧
          Slot.record r ∈ slice (respond w p oResult).oCache.aElements.items iIndex
            (clippedEnd (respond w p oResult).oCache (iIndex : Int) (iLength : Int)).toNat := by
  have hn : ¬ ((oResult.value.length : Int) < (q.iEnd : Int) - (q.iStart : Int)) := by omega
  have hstore : ∀ k, k < oResult.value.length → ∃ r, oResult.value[k]? = some r ∧
      elementAt (respond w p oResult).oCache.aElements.items (q.iStart + k) = Slot.record r := by
    rw [respond_same_store oResult hq hflight hsame]
    intro k hk2
    simp only [applyResult, hn, if_false, elementAt_storeLoop, Nat.add_zero]
    refine ⟨oResult.value[k], List.getElem?_eq_getElem hk2, ?_⟩
    have h1 : q.iStart ≤ q.iStart + k ∧ q.iStart + k < q.iStart + oResult.value.length := by
      omega
    simp only [h1, and_self, if_true, Nat.add_sub_cancel_left, List.getElem?_eq_getElem hk2]
  have hctx : (respond w p oResult).oCache.sContext = oResult.context := by
    rw [respond_same_store oResult hq hflight hsame]
    simp only [applyResult, hn, if_false]
  refine ⟨hstore, ?_, hctx, ?_, ?_⟩
  · rw [respond_same_store oResult hq hflight hsame]
    intro j hj
    simp only [applyResult, hn, if_false, elementAt_storeLoop, Nat.add_zero, hj]
  · rw [respond_same_store oResult hq hflight hsame]
    simp only [applyResult, hn, if_false]
  · intro iIndex iLength h1 h2
    have hrec : ∀ k, iIndex ≤ k →
        k < (clippedEnd (respond w p oResult).oCache (iIndex : Int) (iLength : Int)).toNat →
        ∃ r, oResult.value[k - q.iStart]? = some r ∧
          elementAt (respond w p oResult).oCache.aElements.items k = Slot.record r := by
      intro k k1 k2
      obtain ⟨r, g1, g2⟩ := hstore (k - q.iStart) (by omega)
      have e : q.iStart + (k - q.iStart) = k := by omega
      rw [e] at g2
      exact ⟨r, g1, g2⟩
    obtain ⟨g1, _, _, g4, _⟩ := read_resolved_range (respond w p oResult) iIndex iLength
      (fun k k1 k2 => by
        obtain ⟨r, _, hr⟩ := hrec k k1 k2
        exact ⟨r, hr⟩)
    refine ⟨g1, by rw [g4, hctx], ?_⟩
    intro k k1 k2
    obtain ⟨r, f1, f2⟩ := hrec k k1 k2
    exact ⟨r, f1, f2, mem_slice_of_elementAt f2 (by simp) k1 k2⟩

theorem respond_longer_response_stores_every_record_witness :
    (run (World.init (CollectionCache.create 0 "/~/Employees" "")) [Event.read 0 1]).requests[0]? =
      some ⟨0, 0, 1, "/~/Employees?$skip=0&$top=1", "GET"⟩ ∧
    (run (World.init (CollectionCache.create 0 "/~/Employees" ""))
      [Event.read 0 1]).isSettled 0 = false ∧
    (respond (run (World.init (CollectionCache.create 0 "/~/Employees" "")) [Event.read 0 1]) 0
      ⟨some "$metadata#TEAMS", ["a", "b"]⟩).oCache.iMaxElements =
      (run (World.init (CollectionCache.create 0 "/~/Employees" ""))
        [Event.read 0 1]).oCache.iMaxElements ∧
    (run (respond (run (World.init (CollectionCache.create 0 "/~/Employees" ""))
        [Event.read 0 1]) 0 ⟨some "$metadata#TEAMS", ["a", "b"]⟩)
      [Event.read ((0 : Nat) : Int) ((2 : Nat) : Int),
        Event.settle (respond (run (World.init (CollectionCache.create 0 "/~/Employees" ""))
          [Event.read 0 1]) 0 ⟨some "$metadata#TEAMS", ["a", "b"]⟩).reads.length]).requests =
      (respond (run (World.init (CollectionCache.create 0 "/~/Employees" ""))
        [Event.read 0 1]) 0 ⟨some "$metadata#TEAMS", ["a", "b"]⟩).requests :=
  have h := respond_longer_response_stores_every_record
    (run (World.init (CollectionCache.create 0 "/~/Employees" "")) [Event.read 0 1]) 0
    ⟨0, 0, 1, "/~/Employees?$skip=0&$top=1", "GET"⟩ ⟨some "$metadata#TEAMS", ["a", "b"]⟩
    (by decide) (by decide) (by decide) (by decide)
  ⟨by decide, by decide, h.2.2.2.1, (h.2.2.2.2 0 2 (by decide) (by decide)).1⟩

end Cache
